import Mathlib

set_option maxRecDepth 100000

/-!
Verification of the seoapp crawl-and-analyze pipeline.

This file gives a shallow embedding, in Lean, of the core of the
seoapp repository: the URL normalizer (CPython 3.11 urllib.parse
subset used by the app), the BFS web crawler (app/crawler.py), the
duplicate-content analyzer (app/analyzers/duplicates.py), the analyzer
scheduler and the progress broadcast channel (app/main.py), and the
page-record model (app/models.py).  Python strings are modelled as
Lean strings (character lists); Python dicts keyed by strings as
association lists with insert-or-replace; Python sets as lists (only
membership, size and minima are used); Python floats as rationals;
case mapping is modelled at the ASCII level, matching the ASCII-only
inputs the proofs evaluate.  External capabilities (the Playwright
renderer and the BeautifulSoup parser) are parameters of the
embedding, as the specification treats them as external collaborators.
-/

namespace Seo

/-! ## CPython 3.11 urllib.parse (the subset the app calls)

`WebCrawler._normalize_url` and `DuplicatesAnalyzer._normalize_url`
(textually identical functions) are built from `urlparse`/`urlunparse`;
`DuplicatesAnalyzer._build_canonical_targets` additionally calls
`urljoin`.  The functions below embed the CPython 3.11.6
implementation of that subset, working on `List Char`.  The IPv6
bracket validation and the non-ASCII NFKC netloc check (both raising
paths of `urlsplit`) are outside the modelled domain, which covers the
URLs the theorems quantify over. -/

/-- Tab, carriage return and newline: characters urlsplit removes up front. -/
def badByte (c : Char) : Bool :=
  c == Char.ofNat 9 || c == Char.ofNat 13 || c == Char.ofNat 10

/-- Characters allowed in a URL scheme (urllib.parse.scheme_chars). -/
def scheme_chars (c : Char) : Bool :=
  c.isAlpha || c.isDigit || c == '+' || c == '-' || c == '.'

/-- Python str.lower restricted to ASCII (the modelled character class). -/
def lowerL (l : List Char) : List Char :=
  l.map Char.toLower

/-- Python url.split(c, 1): split at the first occurrence, separator removed;
if absent, the whole string and the empty string. -/
def splitAtChar (c : Char) (l : List Char) : List Char × List Char :=
  match l.findIdx? (· == c) with
  | some i => (l.take i, l.drop (i + 1))
  | none => (l, [])

/-- urllib.parse._splitnetloc (with start already dropped by the caller):
the netloc runs to the first of the three delimiters. -/
def split_netloc (l : List Char) : List Char × List Char :=
  let i := l.findIdx (fun c => c == '/' || c == '?' || c == '#')
  (l.take i, l.drop i)

/-- The scheme-acceptance test of urlsplit: the first colon is at a positive
index, the first character is an ASCII letter, and everything before the
colon is a scheme character. -/
def schemeOKb (l : List Char) (i : Nat) : Bool :=
  decide (0 < i) && (l.headD ' ').isAlpha && (l.take i).all scheme_chars

/-- Result of urlsplit. -/
structure SplitRes where
  scheme : List Char
  netloc : List Char
  path : List Char
  query : List Char
  fragment : List Char
deriving Repr, DecidableEq

/-- urllib.parse.urlsplit (CPython 3.11), with the default-scheme argument. -/
def urlsplitL (url0 dscheme : List Char) : SplitRes :=
  let url1 := url0.filter (fun c => !badByte c)
  let ds := dscheme.filter (fun c => !badByte c)
  let su : List Char × List Char :=
    match url1.findIdx? (· == ':') with
    | some i =>
      if schemeOKb url1 i then (lowerL (url1.take i), url1.drop (i + 1))
      else (ds, url1)
    | none => (ds, url1)
  let nu : List Char × List Char :=
    if su.2.take 2 = [ '/', '/' ] then split_netloc (su.2.drop 2)
    else ([], su.2)
  let uf := splitAtChar '#' nu.2
  let pq := splitAtChar '?' uf.1
  ⟨su.1, nu.1, pq.1, pq.2, uf.2⟩

/-- Find c at index ≥ j (Python str.find(c, j)). -/
def find_from (l : List Char) (c : Char) (j : Nat) : Option Nat :=
  ((l.drop j).findIdx? (· == c)).map (· + j)

/-- Index of the last occurrence of c (Python str.rfind, present case). -/
def rfindIdx (l : List Char) (c : Char) : Option Nat :=
  (l.reverse.findIdx? (· == c)).map (fun i => l.length - 1 - i)

/-- urllib.parse._splitparams: params start at the first semicolon of the
last path segment.  urlparse only calls this when a semicolon is present. -/
def split_params (l : List Char) : List Char × List Char :=
  if l.contains '/' then
    match rfindIdx l '/' with
    | some j =>
      match find_from l ';' j with
      | some i => (l.take i, l.drop (i + 1))
      | none => (l, [])
    | none => (l, [])
  else
    match l.findIdx? (· == ';') with
    | some i => (l.take i, l.drop (i + 1))
    | none => (l, [])

/-- Result of urlparse. -/
structure ParseRes where
  scheme : List Char
  netloc : List Char
  path : List Char
  params : List Char
  query : List Char
  fragment : List Char
deriving Repr, DecidableEq

/-- urllib.parse.urlparse (CPython 3.11), with the default-scheme argument. -/
def urlparseL (url dscheme : List Char) : ParseRes :=
  let s := urlsplitL url dscheme
  let pp : List Char × List Char :=
    if s.path.contains ';' then split_params s.path else (s.path, [])
  ⟨s.scheme, s.netloc, pp.1, pp.2, s.query, s.fragment⟩

/-- urllib.parse.uses_relative (CPython 3.11). -/
def uses_relative : List String :=
  [ "", "ftp", "http", "gopher", "nntp", "imap", "wais", "file", "https",
    "shttp", "mms", "prospero", "rtsp", "rtsps", "rtspu", "sftp", "svn",
    "svn+ssh", "ws", "wss" ]

/-- urllib.parse.uses_netloc (CPython 3.11). -/
def uses_netloc : List String :=
  [ "", "ftp", "http", "gopher", "nntp", "telnet", "imap", "wais", "file",
    "mms", "https", "shttp", "snews", "prospero", "rtsp", "rtsps", "rtspu",
    "rsync", "svn", "svn+ssh", "sftp", "nfs", "git", "git+ssh", "ws", "wss" ]

/-- urllib.parse.urlunsplit (CPython 3.11). -/
def urlunsplitL (scheme netloc path query fragment : List Char) : List Char :=
  let url1 :=
    if netloc ≠ [] ∨
        (scheme ≠ [] ∧ uses_netloc.contains (String.mk scheme) ∧
          path.take 2 ≠ [ '/', '/' ]) then
      let p2 := if path ≠ [] ∧ path.take 1 ≠ [ '/' ] then '/' :: path else path
      '/' :: '/' :: (netloc ++ p2)
    else path
  let url2 := if scheme ≠ [] then scheme ++ ':' :: url1 else url1
  let url3 := if query ≠ [] then url2 ++ '?' :: query else url2
  if fragment ≠ [] then url3 ++ '#' :: fragment else url3

/-- urllib.parse.urlunparse (CPython 3.11). -/
def urlunparseL (scheme netloc path params query fragment : List Char) :
    List Char :=
  let u := if params ≠ [] then path ++ ';' :: params else path
  urlunsplitL scheme netloc u query fragment

/-- Python str.rstrip applied with the single character slash. -/
def rstripSlash (l : List Char) : List Char :=
  (l.reverse.dropWhile (· == '/')).reverse

/-- WebCrawler._normalize_url and DuplicatesAnalyzer._normalize_url
(textually identical in the source): strip fragment and params, lower-case
the netloc, strip trailing slashes from a non-root path, keep the query. -/
def normalize_url (url : String) : String :=
  let p := urlparseL url.data []
  let path := if p.path ≠ [ '/' ] then rstripSlash p.path else [ '/' ]
  String.mk (urlunparseL p.scheme (lowerL p.netloc) path [] p.query [])

/-- Python str.split('/') on character lists: every separator splits,
empty parts kept. -/
def splitOnSlash (l : List Char) : List (List Char) :=
  l.splitOn '/'

/-- segments[1:-1] = filter(None, segments[1:-1]) from urljoin. -/
def filterMiddle (segs : List (List Char)) : List (List Char) :=
  match segs with
  | [] => []
  | [a] => [a]
  | a :: rest =>
    match rest.getLast? with
    | some lastSeg => a :: ((rest.dropLast.filter (fun s => !s.isEmpty)) ++ [lastSeg])
    | none => [a]

/-- The segment-resolution loop of urljoin (pop on "..", skip on "."). -/
def resolveSegs (segs : List (List Char)) : List (List Char) :=
  segs.foldl
    (fun acc seg =>
      if seg = [ '.', '.' ] then acc.dropLast
      else if seg = [ '.' ] then acc
      else acc ++ [seg])
    []

/-- urllib.parse.urljoin (CPython 3.11). -/
def urljoinL (base url : String) : String :=
  if base = "" then url
  else if url = "" then base
  else
    let b := urlparseL base.data []
    let u := urlparseL url.data b.scheme
    if ¬ (u.scheme = b.scheme ∧ uses_relative.contains (String.mk u.scheme)) then
      url
    else if uses_netloc.contains (String.mk u.scheme) ∧ u.netloc ≠ [] then
      String.mk (urlunparseL u.scheme u.netloc u.path u.params u.query u.fragment)
    else
      let netloc :=
        if uses_netloc.contains (String.mk u.scheme) then b.netloc else u.netloc
      if u.path = [] ∧ u.params = [] then
        let q := if u.query = [] then b.query else u.query
        String.mk (urlunparseL u.scheme netloc b.path b.params q u.fragment)
      else
        let baseParts0 := splitOnSlash b.path
        let baseParts :=
          if baseParts0.getLast? ≠ some [] then baseParts0.dropLast else baseParts0
        let segments :=
          if u.path.take 1 = [ '/' ] then splitOnSlash u.path
          else filterMiddle (baseParts ++ splitOnSlash u.path)
        let resolved0 := resolveSegs segments
        let resolved :=
          if segments.getLast? = some [ '.' ] ∨ segments.getLast? = some [ '.', '.' ] then
            resolved0 ++ [([] : List Char)]
          else resolved0
        let joined := List.intercalate [ '/' ] resolved
        let path := if joined = [] then [ '/' ] else joined
        String.mk (urlunparseL u.scheme netloc path u.params u.query u.fragment)

/-! ## app/models.py: the page record and friends -/

/-- ImageData (app/models.py). -/
structure ImageData where
  src : String
  alt : Option String := none
  size : Option Nat := none
  format : Option String := none
  width : Option Nat := none
  height : Option Nat := none
deriving Repr, DecidableEq

/-- LinkData (app/models.py). -/
structure LinkData where
  href : String
  text : Option String := none
  is_internal : Bool := true
  status_code : Option Nat := none
  has_nofollow : Bool := false
deriving Repr, DecidableEq

/-- A parsed HTML tree: BeautifulSoup(html) is modelled as a wrapper around
the source text; the navigation API lives in the external parsing
capability. -/
structure BSoup where
  src : String
deriving Repr, DecidableEq

/-- PageData (app/models.py), field for field, with the source defaults.
Python float fields are modelled as rationals; the private attribute
_soup_cache is the soup_cache field. -/
structure PageData where
  url : String
  status_code : Nat := 200
  title : Option String := none
  meta_description : Option String := none
  meta_robots : Option String := none
  canonical : Option String := none
  h1_tags : List String := []
  h2_tags : List String := []
  h3_tags : List String := []
  h4_tags : List String := []
  h5_tags : List String := []
  h6_tags : List String := []
  word_count : Nat := 0
  images : List ImageData := []
  internal_links : List String := []
  external_links : List LinkData := []
  depth : Nat := 0
  load_time : ℚ := 0
  html_content : Option String := none
  has_noindex : Bool := false
  response_headers : List (String × String) := []
  redirect_chain : List String := []
  final_url : Option String := none
  soup_cache : Option BSoup := none
deriving Repr, DecidableEq

/-- PageData.get_soup: none without raw content, else the cached tree or a
fresh parse of the raw content. -/
def get_soup (p : PageData) : Option BSoup :=
  match p.html_content with
  | none => none
  | some html =>
    match p.soup_cache with
    | none => some ⟨html⟩
    | some s => some s

/-- PageData.set_soup. -/
def set_soup (p : PageData) (s : BSoup) : PageData :=
  { p with soup_cache := some s }

/-- Modelled from the spec: PageData.clear_cache is called by run_audit
(app/main.py line 1007) on every stored page once analysis finishes, but
its body is absent from the sources; per the spec it releases the raw
rendered HTML and the cached parsed tree (one-way transition that bounds
peak memory) and touches nothing else. -/
def clear_cache (p : PageData) : PageData :=
  { p with html_content := none, soup_cache := none }

/-- The release loop of run_audit: clear every stored page after analysis. -/
def release_all (pages : List (String × PageData)) : List (String × PageData) :=
  pages.map (fun kv => (kv.1, clear_cache kv.2))

/-! ## app/main.py: progress broadcast channel -/

/-- An asyncio.Queue used as a subscriber mailbox: maxsize 0 means
unbounded (asyncio semantics). -/
structure Mailbox (α : Type) where
  maxsize : Nat
  items : List α
deriving Repr, DecidableEq

/-- put_nowait succeeds unless the queue is bounded and at capacity
(asyncio.QueueFull otherwise). -/
def put_ok (q : Mailbox α) : Bool :=
  q.maxsize == 0 || decide (q.items.length < q.maxsize)

/-- BroadcastChannel.broadcast: deliver to every subscriber whose mailbox
accepts the event; a subscriber whose put raises is collected into
dead_subs and removed from the subscriber set. -/
def chan_broadcast (subs : List (Mailbox α)) (e : α) : List (Mailbox α) :=
  subs.filterMap (fun q =>
    if put_ok q then some { q with items := q.items ++ [e] } else none)

/-- BroadcastChannel.subscribe: register a fresh asyncio.Queue() — created
with the default maxsize of 0 — and return it. -/
def chan_subscribe (subs : List (Mailbox α)) : List (Mailbox α) × Mailbox α :=
  let q : Mailbox α := { maxsize := 0, items := [] }
  (subs ++ [q], q)

/-! ## app/main.py: analyzer scheduler (run_single_analyzer / run_audit) -/

/-- What one analyzer unit's execution does, as observed by the scheduler:
a result, an exception, or an asyncio.TimeoutError from wait_for. -/
inductive UnitOutcome (α : Type) where
  | ok (r : α)
  | err
  | timeout
deriving Repr, DecidableEq

/-- Insert-or-replace on an association list: Python dict assignment. -/
def dinsertA (m : List (String × α)) (k : String) (v : α) : List (String × α) :=
  if (m.map Prod.fst).contains k then
    m.map (fun kv => if kv.1 = k then (k, v) else kv)
  else m ++ [(k, v)]

/-- run_single_analyzer: the try/except around wait_for turns a timeout or
an exception into (name, None); success into (name, result).  The
semaphore and progress events do not affect the returned pair. -/
def run_single_analyzer (name : String) (behavior : UnitOutcome α) :
    String × Option α :=
  match behavior with
  | .ok r => (name, some r)
  | .err => (name, none)
  | .timeout => (name, none)

/-- One step of the result-processing loop of run_audit: a (name, result)
pair goes into the results dict, a (name, None) pair appends the name to
failed_analyzers. -/
def collect_step (acc : List (String × α) × List String)
    (it : String × Option α) : List (String × α) × List String :=
  match it.2 with
  | some r => (dinsertA acc.1 it.1 r, acc.2)
  | none => (acc.1, acc.2 ++ [it.1])

/-- The result-processing loop of run_audit over all gathered items. -/
def collect_results (items : List (String × Option α)) :
    List (String × α) × List String :=
  items.foldl collect_step ([], [])

def speedName : String := "speed"

/-- Selection resolution at the top of run_audit: the requested analyzer
list if nonempty, filtered to known names, falling back to all names. -/
def resolve_selected (req : Option (List String)) (all_names : List String) :
    List String :=
  let sel0 := match req with
    | some l => if l ≠ [] then l else all_names
    | none => all_names
  let sel := sel0.filter (fun n => all_names.contains n)
  if sel ≠ [] then sel else all_names

/-- The analyzer-scheduling skeleton of run_audit: non-speed units run
through run_single_analyzer and are folded by the result loop; an
early-started speed unit is joined afterwards, a successful one adding its
result, a failed one adding BOTH an error placeholder result and a
failure-list entry (app/main.py lines 941-989). -/
def run_audit_sched (req : Option (List String)) (all_names : List String)
    (beh : String → UnitOutcome α) (speedFail : α) :
    List (String × α) × List String :=
  let selected := resolve_selected req all_names
  let non_speed := selected.filter (fun n => n ≠ speedName)
  let rf := collect_results (non_speed.map (fun n => run_single_analyzer n (beh n)))
  if selected.contains speedName then
    match beh speedName with
    | .ok r => (dinsertA rf.1 speedName r, rf.2)
    | .timeout => (dinsertA rf.1 speedName speedFail, rf.2 ++ [speedName])
    | .err => (dinsertA rf.1 speedName speedFail, rf.2 ++ [speedName])
  else rf

/-! ## app/crawler.py: the BFS crawler

The Playwright navigation and the BeautifulSoup extraction helpers
(_extract_text_content, _count_words, _extract_images, _extract_links)
are the external rendering/parsing capabilities; a crawl is therefore
parameterized by a web function mapping a URL to what one navigation
observes: failure, or a response with status, content-type and the
extracted fields.  The frontier logic itself (queue, visited set, page
store, batching) is translated from WebCrawler.crawl. -/

/-- The fields _fetch_page derives from a rendered page via the parsing
capability. -/
structure Extracted where
  title : Option String := none
  meta_description : Option String := none
  meta_robots : Option String := none
  canonical : Option String := none
  h1_tags : List String := []
  h2_tags : List String := []
  h3_tags : List String := []
  h4_tags : List String := []
  h5_tags : List String := []
  h6_tags : List String := []
  word_count : Nat := 0
  images : List ImageData := []
  internal_links : List String := []
  external_links : List LinkData := []
  load_time : ℚ := 0
  html : String := ""
  has_noindex : Bool := false
  response_headers : List (String × String) := []
  redirect_chain : List String := []
  final_url : String := ""
deriving Repr, DecidableEq

/-- What one navigation to a URL observes: page.goto returning None or
raising (failed), or a response with status, content-type header and the
rendered document. -/
inductive NavResponse where
  | failed
  | ok (status : Nat) (content_type : String) (ext : Extracted)
deriving Repr, DecidableEq

/-- A crawl is driven by a fixed web: URL to navigation observation. -/
def Web : Type := String → NavResponse

def textHtml : String := "text/html"

/-- Contiguous-substring test on character lists. -/
def isInfixB (needle : List Char) : List Char → Bool
  | [] => needle.isEmpty
  | c :: t => needle.isPrefixOf (c :: t) || isInfixB needle t

/-- Python substring test s2 in s1, on the character lists. -/
def strContains (hay needle : String) : Bool :=
  isInfixB needle.data hay.data

/-- The page_data = PageData(...) construction plus page_data.set_soup(soup)
at the end of the _fetch_page success path. -/
def page_of (url : String) (depth status : Nat) (ext : Extracted) : PageData :=
  { url := url
    status_code := status
    title := ext.title
    meta_description := ext.meta_description
    meta_robots := ext.meta_robots
    canonical := ext.canonical
    h1_tags := ext.h1_tags
    h2_tags := ext.h2_tags
    h3_tags := ext.h3_tags
    h4_tags := ext.h4_tags
    h5_tags := ext.h5_tags
    h6_tags := ext.h6_tags
    word_count := ext.word_count
    images := ext.images
    internal_links := ext.internal_links
    external_links := ext.external_links
    depth := depth
    load_time := ext.load_time
    html_content := some ext.html
    has_noindex := ext.has_noindex
    response_headers := ext.response_headers
    redirect_chain := ext.redirect_chain
    final_url := some ext.final_url
    soup_cache := some ⟨ext.html⟩ }

/-- WebCrawler._fetch_page: navigation failure (goto None or an exception)
returns the zero-status placeholder PageData(url, 0, depth); a response
whose content-type lacks text/html returns None; otherwise the full page
record is built from the extracted fields and the parsed soup is cached. -/
def fetch_page (web : Web) (url : String) (depth : Nat) : Option PageData :=
  match web url with
  | .failed => some { url := url, status_code := 0, depth := depth }
  | .ok status ct ext =>
    if ¬ strContains (String.mk (lowerL ct.data)) textHtml then none
    else some (page_of url depth status ext)

/-- Non-page extensions WebCrawler._is_valid_url rejects. -/
def skip_extensions : List String :=
  [ ".pdf", ".doc", ".docx", ".xls", ".xlsx", ".ppt", ".pptx",
    ".zip", ".rar", ".tar", ".gz", ".7z",
    ".jpg", ".jpeg", ".png", ".gif", ".svg", ".webp", ".ico",
    ".mp3", ".mp4", ".avi", ".mov", ".wmv",
    ".css", ".js", ".json", ".xml" ]

def httpS : String := "http"
def httpsS : String := "https"

/-- WebCrawler._is_valid_url: http(s) scheme, same (case-folded) domain as
the seed, and no skipped extension at the end of the lower-cased path. -/
def is_valid_url (base_domain : String) (url : String) : Bool :=
  let p := urlparseL url.data []
  let schemeS := String.mk p.scheme
  (schemeS == httpS || schemeS == httpsS) &&
    (String.mk (lowerL p.netloc) == String.mk (lowerL base_domain.data)) &&
    !(skip_extensions.any (fun ext => ext.data.isSuffixOf (lowerL p.path)))

/-- Crawler configuration, as the WebCrawler constructor fixes it:
normalized seed, seed domain and scheme, and the two limits resolved
against the settings defaults through the Python or operator (None or 0
falls back to the default, so both limits are at least 1). -/
structure CrawlerCfg where
  start : String
  base_domain : String
  base_scheme : String
  max_pages : Nat
  parallel : Nat
deriving Repr, DecidableEq

def settings_MAX_PAGES : Nat := 100
def settings_PARALLEL_REQUESTS : Nat := 5

/-- The Python x or default idiom on an optional integer argument. -/
def orDefault (v : Option Nat) (d : Nat) : Nat :=
  match v with
  | some n => if n = 0 then d else n
  | none => d

/-- WebCrawler.__init__ (the fields the crawl loop reads). -/
def mkCrawler (start_url : String) (mp pr : Option Nat) : CrawlerCfg :=
  let s := normalize_url start_url
  let parsed := urlparseL s.data []
  { start := s
    base_domain := String.mk parsed.netloc
    base_scheme := String.mk parsed.scheme
    max_pages := orDefault mp settings_MAX_PAGES
    parallel := orDefault pr settings_PARALLEL_REQUESTS }

/-- Crawl state: the visited set, the frontier queue of (url, depth), the
page store, and the history of dequeued frontier entries in pop order
(the trace records what the two popleft-batches removed, for the ordering
theorems). -/
structure CrawlState where
  visited : List String
  queue : List (String × Nat)
  pages : List (String × PageData)
  trace : List (String × Nat)
deriving Repr, DecidableEq

/-- The two enqueueing lines of WebCrawler.crawl: mark the URL visited and
append it to the frontier at depth+1. -/
def enqueue_one (st : CrawlState) (nl : String) (depth : Nat) : CrawlState :=
  { st with visited := nl :: st.visited, queue := st.queue ++ [(nl, depth + 1)] }

/-- The link-expansion loop of WebCrawler.crawl: each internal link of a
200-status page is re-normalized and enqueued at depth+1 unless already
visited, invalid, or the visited set has reached the page cap; enqueueing
marks the URL visited. -/
def enqueue_links (cfg : CrawlerCfg) (st : CrawlState) (depth : Nat)
    (links : List String) : CrawlState :=
  links.foldl
    (fun st link =>
      let nl := normalize_url link
      if nl ∉ st.visited ∧ is_valid_url cfg.base_domain nl = true ∧
          st.visited.length < cfg.max_pages then enqueue_one st nl depth
      else st)
    st

/-- Handling of one non-None fetch result: store the page (dict
assignment keyed by its URL), then expand links when the status is 200. -/
def process_page (cfg : CrawlerCfg) (st : CrawlState) (p : PageData) :
    CrawlState :=
  let st1 := { st with pages := dinsertA st.pages p.url p }
  if p.status_code = 200 then enqueue_links cfg st1 p.depth p.internal_links
  else st1

/-- The for page in results loop: None results (non-HTML fetches) are
skipped, others processed in batch order. -/
def process_results (cfg : CrawlerCfg) (st : CrawlState) :
    List (Option PageData) → CrawlState
  | [] => st
  | none :: rs => process_results cfg st rs
  | some p :: rs => process_results cfg (process_page cfg st p) rs

/-- The batch pop at the top of one while-iteration of WebCrawler.crawl:
up to parallel_requests entries leave the front of the queue; the popped
entries are appended to the dequeue trace. -/
def pop_state (cfg : CrawlerCfg) (st : CrawlState) : CrawlState :=
  { st with
    queue := st.queue.drop (min cfg.parallel st.queue.length)
    trace := st.trace ++ st.queue.take (min cfg.parallel st.queue.length) }

/-- The while loop of WebCrawler.crawl: while the queue is nonempty and
the page store is below the cap, pop a batch of at most parallel entries,
fetch them, and process the results; fuel bounds the number of
iterations (every theorem quantifies over the fuel, so it holds of every
prefix of the execution). -/
def crawl_loop (cfg : CrawlerCfg) (web : Web) : Nat → CrawlState → CrawlState
  | 0, st => st
  | fuel + 1, st =>
    if st.queue ≠ [] ∧ st.pages.length < cfg.max_pages then
      crawl_loop cfg web fuel
        (process_results cfg (pop_state cfg st)
          ((st.queue.take (min cfg.parallel st.queue.length)).map
            (fun ud => fetch_page web ud.1 ud.2)))
    else st

/-- The state just after the two seeding lines of WebCrawler.crawl. -/
def init_state (cfg : CrawlerCfg) : CrawlState :=
  { visited := [cfg.start], queue := [(cfg.start, 0)], pages := [], trace := [] }

/-- A whole (fuel-bounded) crawl from the seed. -/
def crawl_run (start_url : String) (mp pr : Option Nat) (web : Web)
    (fuel : Nat) : CrawlState :=
  let cfg := mkCrawler start_url mp pr
  crawl_loop cfg web fuel (init_state cfg)

/-! ## app/analyzers/duplicates.py: the duplicate-content analyzer

_extract_text walks the BeautifulSoup tree (external parsing
capability), so it is a parameter mapping a parsed tree to the
suppressed, collapsed, lower-cased text plus the extraction mode.
Python's builtin hash is process-randomized, so the per-seed shingle
hash hash(shingle) ^ seed is a parameter hashFam (the spec's numeric
note makes the hash family an implementation detail), and sha256
hexdigest is a parameter shaHex.  Everything downstream of those
capabilities is translated from the source. -/

/-- Python str.strip() with no argument (whitespace at both ends). -/
def pyStrip (s : String) : String :=
  String.mk (((s.data.dropWhile Char.isWhitespace).reverse.dropWhile
    Char.isWhitespace).reverse)

/-- Python str.split() with no argument: whitespace runs separate words,
no empty parts. -/
def pySplitWs (s : String) : List String :=
  ((s.data.splitOnP Char.isWhitespace).map String.mk).filter (fun w => w ≠ "")

/-- DuplicatesAnalyzer._create_shingles: the set of contiguous
shingle_size-word windows (empty below shingle_size words); the Python
set is modelled as a duplicate-free list. -/
def create_shingles (text : String) (shingle_size : Nat) : List (List String) :=
  let words := pySplitWs text
  if words.length < shingle_size then []
  else
    ((List.range (words.length - shingle_size + 1)).map
      (fun i => (words.drop i).take shingle_size)).eraseDups

/-- DuplicatesAnalyzer._create_minhash_signature: per seed, the minimum of
the seed-indexed hash over all shingles; all-zero without shingles. -/
def minhash_signature (hashFam : Nat → List String → Int)
    (shingles : List (List String)) (num_hashes : Nat) : List Int :=
  if shingles.isEmpty then List.replicate num_hashes 0
  else
    (List.range num_hashes).map (fun seed =>
      match shingles.map (hashFam seed) with
      | [] => 0
      | x :: xs => xs.foldl min x)

/-- DuplicatesAnalyzer._estimate_jaccard: fraction of equal signature
positions (0 on an empty signature). -/
def estimate_jaccard (sig1 sig2 : List Int) : ℚ :=
  if sig1 = [] ∨ sig2 = [] then 0
  else ((sig1.zip sig2).countP (fun ab => ab.1 = ab.2) : ℚ) / (sig1.length : ℚ)

def dupMinWords : Nat := 80
def lenRatioMin : ℚ := 7 / 10
def candThreshold : ℚ := 17 / 20
def nearThreshold : ℚ := 9 / 10
def numHashes : Nat := 50

/-- Per-page signing data: the four step-1 dicts of analyze share their
keys, so they are modelled as one association list of records. -/
structure SigRec where
  signature : List Int
  text_hash : String
  wc : Nat
  norm : String
deriving Repr, DecidableEq

/-- Python truthiness of an optional string (None and empty are falsy). -/
def pyTruthyStr (s : Option String) : Bool :=
  match s with
  | none => false
  | some t => t ≠ ""

/-- The per-page body of step 1 of DuplicatesAnalyzer.analyze: sign a
stored page if it has a 200 status, nonempty raw content, a parse tree,
nonempty suppressed text, at least dupMinWords words and at least one
shingle. -/
def sigStep (extract : BSoup → String × String)
    (hashFam : Nat → List String → Int) (shaHex : String → String)
    (recs : List (String × SigRec)) (up : String × PageData) :
    List (String × SigRec) :=
  let url := up.1
  let page := up.2
  if page.status_code ≠ 200 ∨ ¬ pyTruthyStr page.html_content then recs
  else
    match get_soup page with
    | none => recs
    | some soup =>
      let text := (extract soup).1
      if text = "" then recs
      else
        let words := pySplitWs text
        if words.length < dupMinWords then recs
        else
          let shingles := create_shingles text 3
          if shingles = [] then recs
          else
            dinsertA recs url
              { signature := minhash_signature hashFam shingles numHashes
                text_hash := shaHex text
                wc := words.length
                norm := normalize_url url }

/-- Step 1 of DuplicatesAnalyzer.analyze over all stored pages. -/
def build_sig_recs (extract : BSoup → String × String)
    (hashFam : Nat → List String → Int) (shaHex : String → String)
    (pages : List (String × PageData)) : List (String × SigRec) :=
  pages.foldl (sigStep extract hashFam shaHex) []

/-- DuplicatesAnalyzer._build_canonical_targets: normalized source URL to
normalized resolved canonical URL, nonempty declarations only, self
targets dropped, later pages overwriting earlier ones with the same
normalized source. -/
def build_canonical_targets (pages : List (String × PageData)) :
    List (String × String) :=
  pages.foldl
    (fun targets up =>
      let source := normalize_url up.1
      let canonical := pyStrip ((up.2.canonical).getD "")
      if canonical = "" then targets
      else
        let canonical_url := normalize_url (urljoinL up.1 canonical)
        if canonical_url ≠ "" ∧ canonical_url ≠ source then
          dinsertA targets source canonical_url
        else targets)
    []

/-- DuplicatesAnalyzer._is_canonical_pair. -/
def is_canonical_pair (targets : List (String × String)) (norm_a norm_b : String) :
    Bool :=
  targets.lookup norm_a == some norm_b || targets.lookup norm_b == some norm_a

/-- The ordered pairs, first element before second, that the nested
loops of analyze visit. -/
def allPairs : List α → List (α × α)
  | [] => []
  | x :: xs => xs.map (fun y => (x, y)) ++ allPairs xs

/-- The body of the nested pair loop of analyze: classify one candidate
pair as exact (equal content hashes) or near (estimate at least
nearThreshold but different hashes), after the canonical-pair,
length-ratio and candidate-threshold pre-filters. -/
def scanStep (targets : List (String × String))
    (acc : List (String × String × ℚ) × List (String × String × ℚ))
    (pr : (String × SigRec) × (String × SigRec)) :
    List (String × String × ℚ) × List (String × String × ℚ) :=
  let ua := pr.1.1
  let ra := pr.1.2
  let ub := pr.2.1
  let rb := pr.2.2
  if is_canonical_pair targets ra.norm rb.norm then acc
  else
    let ratio : ℚ := (min ra.wc rb.wc : ℚ) / (max ra.wc rb.wc : ℚ)
    if ratio < lenRatioMin then acc
    else
      let j := estimate_jaccard ra.signature rb.signature
      if j < candThreshold then acc
      else if ra.text_hash = rb.text_hash then (acc.1 ++ [(ua, ub, 1)], acc.2)
      else if nearThreshold ≤ j then (acc.1, acc.2 ++ [(ua, ub, j)])
      else acc

/-- Step 2 of analyze: the nested loops over the signed pages. -/
def pair_scan (targets : List (String × String)) (recs : List (String × SigRec)) :
    List (String × String × ℚ) × List (String × String × ℚ) :=
  (allPairs recs).foldl (scanStep targets) ([], [])

/-! ### _group_pairs: dict-based union-find with path compression -/

/-- parent.get(x, x). -/
def uf_get (m : List (String × String)) (x : String) : String :=
  (m.lookup x).getD x

/-- The while loop of find with path halving, fueled; each step rewrites
parent[x] to its grandparent and moves there.  The call sites pass fuel
m.length + 1, enough under the acyclicity invariant proved below. -/
def uf_find_aux : Nat → List (String × String) → String →
    String × List (String × String)
  | 0, m, x => (x, m)
  | fuel + 1, m, x =>
    if uf_get m x = x then (x, m)
    else
      let px := uf_get m x
      let g := uf_get m px
      uf_find_aux fuel (dinsertA m x g) g

/-- find(x) of _group_pairs. -/
def uf_find (m : List (String × String)) (x : String) :
    String × List (String × String) :=
  uf_find_aux (m.length + 1) m x

/-- union(x, y) of _group_pairs: link the root of x under the root of y. -/
def uf_union (m : List (String × String)) (x y : String) :
    List (String × String) :=
  let fx := uf_find m x
  let fy := uf_find fx.2 y
  if fx.1 ≠ fy.1 then dinsertA fy.2 fx.1 fy.1 else fy.2

/-- parent.setdefault(k, k). -/
def uf_setdefault (m : List (String × String)) (k : String) :
    List (String × String) :=
  if (m.map Prod.fst).contains k then m else m ++ [(k, k)]

/-- The union loop of _group_pairs over the reported pairs. -/
def uf_build (pairs : List (String × String × ℚ)) : List (String × String) :=
  pairs.foldl
    (fun m p => uf_union (uf_setdefault (uf_setdefault m p.1) p.2.1) p.1 p.2.1)
    []

/-- groups[root].add(url) on an association list of member lists. -/
def addToGroup (gs : List (String × List String)) (root url : String) :
    List (String × List String) :=
  if (gs.map Prod.fst).contains root then
    gs.map (fun kv => if kv.1 = root then (kv.1, kv.2 ++ [url]) else kv)
  else gs ++ [(root, [url])]

/-- One turn of the grouping loop of _group_pairs: find the url's root
(compressing the map as a side effect) and add the url to its bucket. -/
def gstep (acc : List (String × String) × List (String × List String))
    (url : String) : List (String × String) × List (String × List String) :=
  let f := uf_find acc.1 url
  (f.2, addToGroup acc.2 f.1 url)

/-- The grouping loop of _group_pairs: bucket every tracked URL under its
root (find keeps compressing), keep the buckets of size above one. -/
def group_pairs (pairs : List (String × String × ℚ)) : List (List String) :=
  let m := uf_build pairs
  let fin := (m.map Prod.fst).foldl gstep (m, [])
  (fin.2.map Prod.snd).filter (fun g => g.length > 1)

/-- Steps 1-3 of DuplicatesAnalyzer.analyze bundled. -/
structure DupResult where
  recs : List (String × SigRec)
  targets : List (String × String)
  exact_pairs : List (String × String × ℚ)
  near_pairs : List (String × String × ℚ)
  exact_groups : List (List String)
  near_groups : List (List String)
deriving Repr, DecidableEq

/-- DuplicatesAnalyzer.analyze, through grouping (issue/table rendering
reads these values but adds no pair or group). -/
def duplicates_analyze (extract : BSoup → String × String)
    (hashFam : Nat → List String → Int) (shaHex : String → String)
    (pages : List (String × PageData)) : DupResult :=
  let recs := build_sig_recs extract hashFam shaHex pages
  let targets := build_canonical_targets pages
  let ps := pair_scan targets recs
  { recs := recs
    targets := targets
    exact_pairs := ps.1
    near_pairs := ps.2
    exact_groups := group_pairs ps.1
    near_groups := group_pairs ps.2 }

/-! ## Specification predicates for the union-find theorems -/

/-- k-fold application of the parent map. -/
def pget_iter (m : List (String × String)) : Nat → String → String
  | 0, x => x
  | k + 1, x => pget_iter m k (uf_get m x)

/-- y is a root of the parent map. -/
def is_rootU (m : List (String × String)) (y : String) : Prop :=
  uf_get m y = y

/-- Number of non-root entries: the bound on chain lengths. -/
def uf_nonroot (m : List (String × String)) : Nat :=
  (m.filter (fun kv => kv.2 ≠ kv.1)).length

/-- The chain from x reaches the root r. -/
def rootRel (m : List (String × String)) (x r : String) : Prop :=
  is_rootU m r ∧ ∃ k, pget_iter m k x = r

/-- Well-formedness of the parent map: distinct keys, and every chain
reaches a root within the non-root-entry bound. -/
def UFGood (m : List (String × String)) : Prop :=
  (m.map Prod.fst).Nodup ∧
    ∀ x, ∃ k, k ≤ uf_nonroot m ∧ is_rootU m (pget_iter m k x)

/-- Two names whose chains reach a common root. -/
def sameRoot (m : List (String × String)) (a b : String) : Prop :=
  ∃ r, rootRel m a r ∧ rootRel m b r

/-- The exact-pair contribution of one visited pair of the scan. -/
def exOf (targets : List (String × String))
    (pr : (String × SigRec) × (String × SigRec)) :
    List (String × String × ℚ) :=
  if is_canonical_pair targets pr.1.2.norm pr.2.2.norm then []
  else if ((min pr.1.2.wc pr.2.2.wc : ℚ) / (max pr.1.2.wc pr.2.2.wc : ℚ)) <
      lenRatioMin then []
  else if estimate_jaccard pr.1.2.signature pr.2.2.signature < candThreshold
    then []
  else if pr.1.2.text_hash = pr.2.2.text_hash then [(pr.1.1, pr.2.1, 1)]
  else []

/-- The near-pair contribution of one visited pair of the scan. -/
def nrOf (targets : List (String × String))
    (pr : (String × SigRec) × (String × SigRec)) :
    List (String × String × ℚ) :=
  if is_canonical_pair targets pr.1.2.norm pr.2.2.norm then []
  else if ((min pr.1.2.wc pr.2.2.wc : ℚ) / (max pr.1.2.wc pr.2.2.wc : ℚ)) <
      lenRatioMin then []
  else if estimate_jaccard pr.1.2.signature pr.2.2.signature < candThreshold
    then []
  else if pr.1.2.text_hash = pr.2.2.text_hash then []
  else if nearThreshold ≤ estimate_jaccard pr.1.2.signature pr.2.2.signature
    then [(pr.1.1, pr.2.1,
      estimate_jaccard pr.1.2.signature pr.2.2.signature)]
  else []

/-! ## Specification predicates for the crawler theorems -/

/-- Frontier depths never decrease along the queue. -/
def QSorted (q : List (String × Nat)) : Prop :=
  q.Pairwise (fun a b => a.2 ≤ b.2)

/-- Frontier depths span at most two consecutive BFS levels. -/
def QSpan (q : List (String × Nat)) : Prop :=
  q.Pairwise (fun a b => b.2 ≤ a.2 + 1)

/-- Every already-dequeued entry is at most as deep as every queued one. -/
def TraceLeQueue (t q : List (String × Nat)) : Prop :=
  ∀ a ∈ t, ∀ b ∈ q, a.2 ≤ b.2

/-- The breadth-first ordering invariant of a crawl state. -/
def BfsInv (s : CrawlState) : Prop :=
  QSorted s.queue ∧ QSpan s.queue ∧ QSorted s.trace ∧
    TraceLeQueue s.trace s.queue

/-- The URL answers with a response whose content-type is not HTML. -/
def non_html (web : Web) (u : String) : Prop :=
  ∃ s ct ext, web u = NavResponse.ok s ct ext ∧
    strContains (String.mk (lowerL ct.data)) textHtml = false

/-! ## Concrete inputs used by witnesses and counterexamples -/

/-- A web of one HTML seed page linking to one PNG resource. -/
def urlSeed : String := "http://site.test/start"
def urlPng : String := "http://site.test/pic"
def ctHtml : String := "text/html; charset=utf-8"
def ctPng : String := "image/png"

def webEx : Web := fun u =>
  if u = urlSeed then
    .ok 200 ctHtml { internal_links := [urlPng], html := "<p>hi</p>" }
  else if u = urlPng then .ok 200 ctPng {}
  else .failed

/-- The channel of one fresh subscriber after n broadcasts of the event 0. -/
def subThenCast : Nat → List (Mailbox Nat)
  | 0 => (chan_subscribe []).1
  | n + 1 => chan_broadcast (subThenCast n) 0

/-- Analyzer behaviors where the early-started speed unit times out. -/
def behSpeedTO : String → UnitOutcome Nat := fun n =>
  if n = speedName then .timeout else .ok 1

def alphaName : String := "alpha"
def betaName : String := "beta"
def namesEx : List String := [speedName, alphaName, betaName]

def urlOther : String := "http://other.test/x"

/-- 80 copies of one word: text long enough to be signed. -/
def w80 : String := String.intercalate " " (List.replicate 80 "w")

/-- An extraction capability returning the same long suppressed text for
every parse tree (main-content mode). -/
def extractW : BSoup → String × String := fun _ => (w80, "main")

/-- A concrete member of the shingle-hash family. -/
def hashZero : Nat → List String → Int := fun _ _ => 0

/-- A concrete content-hash capability: injective on the texts used. -/
def shaId : String → String := fun s => s

def urlA : String := "http://h/a"
def urlQ : String := "http://h/q"
def urlASlash : String := "http://h/a/"
def urlCanonOther : String := "http://h/other"
def htmlX : String := "<p>x</p>"

/-- A stored page with a 200 status, raw content and an optional
canonical declaration. -/
def pageDup (u : String) (canon : Option String) : PageData :=
  { url := u, status_code := 200, html_content := some htmlX,
    canonical := canon }

/-- Three crawled pages: a declares canonical q, and a later page with
the same normalized URL as a declares a different canonical. -/
def pagesC6 : List (String × PageData) :=
  [ (urlA, pageDup urlA (some urlQ)),
    (urlQ, pageDup urlQ none),
    (urlASlash, pageDup urlASlash (some urlCanonOther)) ]

/-- Two byte-identical pages where the first declares the second as its
canonical target. -/
def pagesC5 : List (String × PageData) :=
  [ (urlA, pageDup urlA (some urlQ)), (urlQ, pageDup urlQ none) ]

/-- Two byte-identical pages with no canonical declarations. -/
def pagesC5w : List (String × PageData) :=
  [ (urlA, pageDup urlA none), (urlQ, pageDup urlQ none) ]

/-- The signing record every page parsed from htmlX receives under the
extractW, hashZero and shaId capabilities. -/
def sigRecOf (u : String) : SigRec :=
  { signature := List.replicate numHashes 0
    text_hash := w80
    wc := dupMinWords
    norm := normalize_url u }

/-- A URL whose last path segment holds a semicolon and a trailing
slash: normalizing exposes a params split the next pass then strips. -/
def urlSemi : String := "http://h/a;p/"

/-- A mixed-case URL with a trailing slash: a plain idempotence witness. -/
def urlCase : String := "http://Ex.com/A/"

end Seo

namespace Seo

/-! # Theorems -/

/-! ## Small library lemmas shared across claims -/

theorem dinsertA_not_mem {α : Type} (m : List (String × α)) (k : String) (v : α)
    (h : k ∉ m.map Prod.fst) : dinsertA m k v = m ++ [(k, v)] := by
  unfold dinsertA
  rw [if_neg]
  simpa using h

theorem dinsertA_mem_of_ne {α : Type} (m : List (String × α)) (k : String)
    (v : α) (n : String) (r : α) (hne : n ≠ k) :
    ((n, r) ∈ dinsertA m k v ↔ (n, r) ∈ m) := by
  unfold dinsertA
  by_cases hk : (m.map Prod.fst).contains k
  · simp only [hk, if_pos]
    constructor
    · intro h
      rcases List.mem_map.mp h with ⟨kv, hkv, heq⟩
      by_cases hkvk : kv.1 = k
      · simp [hkvk] at heq
        exact absurd heq.1.symm hne
      · rw [if_neg hkvk] at heq
        exact heq ▸ hkv
    · intro h
      refine List.mem_map.mpr ⟨(n, r), h, ?_⟩
      simp [hne]
  · simp only [hk, if_neg, not_false_iff]
    simp [hne]

/-! ## C8: raw-content release -/

/-- C8: once analysis finishes, run_audit's release loop drops every
stored page record's raw rendered HTML and cached parse tree; the
transition is idempotent (one-way), and every field of a page record
other than the raw content and the parse cache is unchanged by the
release. -/
theorem c8_release_all_frame (pages : List (String × PageData)) (p : PageData) :
    ((clear_cache p).html_content = none ∧ (clear_cache p).soup_cache = none) ∧
    clear_cache (clear_cache p) = clear_cache p ∧
    release_all (release_all pages) = release_all pages ∧
    ((clear_cache p).url = p.url ∧
      (clear_cache p).status_code = p.status_code ∧
      (clear_cache p).title = p.title ∧
      (clear_cache p).meta_description = p.meta_description ∧
      (clear_cache p).meta_robots = p.meta_robots ∧
      (clear_cache p).canonical = p.canonical ∧
      (clear_cache p).h1_tags = p.h1_tags ∧
      (clear_cache p).h2_tags = p.h2_tags ∧
      (clear_cache p).h3_tags = p.h3_tags ∧
      (clear_cache p).h4_tags = p.h4_tags ∧
      (clear_cache p).h5_tags = p.h5_tags ∧
      (clear_cache p).h6_tags = p.h6_tags ∧
      (clear_cache p).word_count = p.word_count ∧
      (clear_cache p).images = p.images ∧
      (clear_cache p).internal_links = p.internal_links ∧
      (clear_cache p).external_links = p.external_links ∧
      (clear_cache p).depth = p.depth ∧
      (clear_cache p).load_time = p.load_time ∧
      (clear_cache p).has_noindex = p.has_noindex ∧
      (clear_cache p).response_headers = p.response_headers ∧
      (clear_cache p).redirect_chain = p.redirect_chain ∧
      (clear_cache p).final_url = p.final_url) ∧
    (∀ k q, (k, q) ∈ pages → (k, clear_cache q) ∈ release_all pages) := by
  refine ⟨⟨rfl, rfl⟩, rfl, ?_, ?_, ?_⟩
  · unfold release_all
    rw [List.map_map]
    rfl
  · exact ⟨rfl, rfl, rfl, rfl, rfl, rfl, rfl, rfl, rfl, rfl, rfl, rfl, rfl,
      rfl, rfl, rfl, rfl, rfl, rfl, rfl, rfl, rfl⟩
  · intro k q hkq
    exact List.mem_map.mpr ⟨(k, q), hkq, rfl⟩

/-- C8 witness: the release applied to a concrete one-page store. -/
theorem c8_witness :
    ((urlSeed, clear_cache { url := urlSeed, html_content := some "<x>" }) ∈
      release_all [(urlSeed, { url := urlSeed, html_content := some "<x>" })]) ∧
    (clear_cache { url := urlSeed, html_content := some "<x>" }).html_content
      = none := by
  refine ⟨?_, rfl⟩
  exact (c8_release_all_frame
      [(urlSeed, { url := urlSeed, html_content := some "<x>" })]
      { url := urlSeed, html_content := some "<x>" }).2.2.2.2
    urlSeed { url := urlSeed, html_content := some "<x>" } (by simp)

/-! ## C4: the broadcast channel -/

theorem subThenCast_eq (n : Nat) :
    subThenCast n = [{ maxsize := 0, items := List.replicate n 0 }] := by
  induction n with
  | zero => rfl
  | succ n ih =>
    simp only [subThenCast, ih, chan_broadcast, put_ok, List.filterMap]
    simp [List.replicate_succ']

/-- C4 counterexample: subscribe() creates asyncio.Queue() with the
default maxsize 0, an UNBOUNDED mailbox — no bound B ever caps the
mailbox of a subscriber that stops draining, so the claim's premise that
subscribe registers a bounded mailbox is false on the code. -/
theorem c4_counterexample :
    (chan_subscribe ([] : List (Mailbox Nat))).2.maxsize = 0 ∧
    ¬ ∃ B : Nat, ∀ n : Nat, ∀ q ∈ subThenCast n, q.items.length ≤ B := by
  refine ⟨rfl, ?_⟩
  rintro ⟨B, h⟩
  have hB := h (B + 1) { maxsize := 0, items := List.replicate (B + 1) 0 }
    (by rw [subThenCast_eq]; exact List.mem_singleton.mpr rfl)
  simp only [List.length_replicate] at hB
  omega

/-- C4 (amended): broadcast(event) appends the event to the mailbox of
every subscriber whose put_nowait succeeds and removes exactly the
subscribers whose put raises, without raising itself; since subscribe()
registers a mailbox with maxsize 0 and such a mailbox always accepts
put_nowait, subscribers created by subscribe() are in fact never dropped
as full. -/
theorem c4_broadcast_drop_full {α : Type} (subs : List (Mailbox α)) (e : α) :
    chan_broadcast subs e =
      (subs.filter put_ok).map (fun q => { q with items := q.items ++ [e] }) ∧
    (∀ q : Mailbox α, q.maxsize = 0 → put_ok q = true) ∧
    (chan_subscribe subs).1 = subs ++ [{ maxsize := 0, items := [] }] ∧
    (chan_subscribe subs).2.maxsize = 0 := by
  refine ⟨?_, ?_, rfl, rfl⟩
  · induction subs with
    | nil => rfl
    | cons q rest ih =>
      by_cases hq : put_ok q
      · simp [chan_broadcast, hq, List.filter_cons] at ih ⊢
        exact ih
      · simp [chan_broadcast, hq, List.filter_cons] at ih ⊢
        exact ih
  · intro q hq
    unfold put_ok
    simp [hq]

/-- C4 witness: a bounded-and-full mailbox is dropped while the other
subscribers receive the event. -/
theorem c4_witness :
    put_ok ({ maxsize := 0, items := [0] } : Mailbox Nat) = true ∧
    chan_broadcast
        [({ maxsize := 1, items := [7] } : Mailbox Nat),
          { maxsize := 0, items := [] }] 9 =
      [{ maxsize := 0, items := [9] }] := by
  constructor
  · exact (c4_broadcast_drop_full ([] : List (Mailbox Nat)) 0).2.1
      { maxsize := 0, items := [0] } rfl
  · rw [(c4_broadcast_drop_full
        [({ maxsize := 1, items := [7] } : Mailbox Nat),
          { maxsize := 0, items := [] }] 9).1]
    rfl

/-! ## C3: fetch totality -/

/-- C3 counterexample: a URL whose response carries a non-HTML
content-type makes _fetch_page return None, not the zero-status
PageData placeholder the claim requires. -/
theorem c3_counterexample :
    fetch_page webEx urlPng 0 = none ∧
    (none : Option PageData) ≠ some { url := urlPng, status_code := 0, depth := 0 } := by
  exact ⟨by decide, by simp⟩

/-- C3 (amended): _fetch_page never raises and always returns a definite
outcome: on navigation error or timeout it returns the zero-status
placeholder PageData(url, 0, depth); on a response whose content-type
lacks text/html it returns None (no page record, the crawl loop skips
the URL); on an HTML response it returns a page record carrying the
response status, the URL and the depth. -/
theorem c3_fetch_totality (web : Web) (url : String) (depth : Nat) :
    (web url = .failed →
      fetch_page web url depth = some { url := url, status_code := 0, depth := depth }) ∧
    (∀ s ct ext, web url = .ok s ct ext →
      strContains (String.mk (lowerL ct.data)) textHtml = false →
      fetch_page web url depth = none) ∧
    (∀ s ct ext, web url = .ok s ct ext →
      strContains (String.mk (lowerL ct.data)) textHtml = true →
      ∃ p, fetch_page web url depth = some p ∧
        p.url = url ∧ p.status_code = s ∧ p.depth = depth) := by
  refine ⟨?_, ?_, ?_⟩
  · intro h
    unfold fetch_page
    rw [h]
  · intro s ct ext h hct
    unfold fetch_page
    rw [h]
    simp [hct]
  · intro s ct ext h hct
    refine ⟨page_of url depth s ext, ?_, rfl, rfl, rfl⟩
    unfold fetch_page
    rw [h]
    simp [hct]

/-- C3 witness: the totality cases evaluated on the concrete web. -/
theorem c3_witness :
    fetch_page webEx urlOther 0 =
      some { url := urlOther, status_code := 0, depth := 0 } ∧
    fetch_page webEx urlPng 1 = none := by
  constructor
  · exact (c3_fetch_totality webEx urlOther 0).1 (by decide)
  · exact (c3_fetch_totality webEx urlPng 1).2.1 200 ctPng {} (by decide) (by decide)

/-! ## C2: analyzer-unit isolation -/

theorem run_single_fst (beh : String → UnitOutcome α) (l : List String) :
    (l.map (fun n => run_single_analyzer n (beh n))).map Prod.fst = l := by
  induction l with
  | nil => rfl
  | cons n rest ih =>
    simp only [List.map_cons, ih, List.cons.injEq, and_true]
    cases beh n <;> rfl

/-- The collect_results fold, characterized: successes in order to the
results dict, failures in order to the failure list. -/
theorem collect_go {α : Type} (items : List (String × Option α))
    (acc : List (String × α) × List String)
    (hnd : (items.map Prod.fst).Nodup)
    (hdisj : ∀ it ∈ items, it.1 ∉ acc.1.map Prod.fst) :
    items.foldl collect_step acc =
    (acc.1 ++ items.filterMap (fun it => it.2.map (fun r => (it.1, r))),
      acc.2 ++ (items.filter (fun it => it.2.isNone)).map Prod.fst) := by
  induction items generalizing acc with
  | nil => simp
  | cons it rest ih =>
    obtain ⟨n, o⟩ := it
    have hnd2 : (rest.map Prod.fst).Nodup := (List.nodup_cons.mp hnd).2
    have hnmem : n ∉ rest.map Prod.fst := (List.nodup_cons.mp hnd).1
    cases o with
    | some r =>
      have hstep : dinsertA acc.1 n r = acc.1 ++ [(n, r)] :=
        dinsertA_not_mem acc.1 n r (hdisj (n, some r) (List.mem_cons_self _ _))
      simp only [List.foldl_cons, collect_step, hstep]
      rw [ih (acc.1 ++ [(n, r)], acc.2) hnd2]
      · simp
      · intro it hit
        simp only [List.map_append, List.mem_append]
        rintro (h1 | h2)
        · exact hdisj it (List.mem_cons_of_mem _ hit) h1
        · simp only [List.map_cons, List.map_nil, List.mem_singleton] at h2
          exact hnmem (h2 ▸ List.mem_map_of_mem Prod.fst hit)
    | none =>
      simp only [List.foldl_cons, collect_step]
      rw [ih (acc.1, acc.2 ++ [n]) hnd2]
      · simp
      · intro it hit
        exact hdisj it (List.mem_cons_of_mem _ hit)

theorem collect_results_eq {α : Type} (items : List (String × Option α))
    (hnd : (items.map Prod.fst).Nodup) :
    collect_results items =
      (items.filterMap (fun it => it.2.map (fun r => (it.1, r))),
        (items.filter (fun it => it.2.isNone)).map Prod.fst) := by
  unfold collect_results
  rw [collect_go items ([], []) hnd (by simp)]
  simp

/-- C2 counterexample: when the early-started speed unit times out, its
name lands in the failure list AND an error placeholder for it lands in
the result map — its entry is not absent, refuting the claim for the
speed unit. -/
theorem c2_counterexample :
    speedName ∈ (run_audit_sched (some namesEx) namesEx behSpeedTO 0).1.map Prod.fst ∧
    speedName ∈ (run_audit_sched (some namesEx) namesEx behSpeedTO 0).2 := by
  decide

/-- C2 (amended): for every unit other than the early-started speed unit,
the scheduler records exactly one outcome: a successful unit's result is
in the name-to-result map and its name is not in the failure list, and a
unit that raises or exceeds its per-unit timeout has its name in the
failure list and no entry in the map; no unit's failure disturbs any
other unit's entry.  (The speed unit's failure additionally stores an
error placeholder result under its name.) -/
theorem c2_analyzer_isolation {α : Type} (req : Option (List String))
    (all_names : List String) (beh : String → UnitOutcome α) (speedFail : α)
    (name : String)
    (hnd : (resolve_selected req all_names).Nodup)
    (hmem : name ∈ resolve_selected req all_names) (hns : name ≠ speedName) :
    (∀ r, beh name = UnitOutcome.ok r →
      (name, r) ∈ (run_audit_sched req all_names beh speedFail).1 ∧
      name ∉ (run_audit_sched req all_names beh speedFail).2) ∧
    ((beh name = UnitOutcome.err ∨ beh name = UnitOutcome.timeout) →
      name ∈ (run_audit_sched req all_names beh speedFail).2 ∧
      ∀ r, (name, r) ∉ (run_audit_sched req all_names beh speedFail).1) := by
  have hmemns : name ∈ (resolve_selected req all_names).filter
      (fun n => n ≠ speedName) :=
    List.mem_filter.mpr ⟨hmem, by simpa using hns⟩
  have hndns : (((resolve_selected req all_names).filter
      (fun n => n ≠ speedName)).map
        (fun n => run_single_analyzer n (beh n))).map Prod.fst
      = (resolve_selected req all_names).filter (fun n => n ≠ speedName) :=
    run_single_fst beh _
  have hnditems : ((((resolve_selected req all_names).filter
      (fun n => n ≠ speedName)).map
        (fun n => run_single_analyzer n (beh n))).map Prod.fst).Nodup := by
    rw [hndns]
    exact hnd.filter _
  have hbase := collect_results_eq
    (((resolve_selected req all_names).filter (fun n => n ≠ speedName)).map
      (fun n => run_single_analyzer n (beh n))) hnditems
  -- membership facts about the base (non-speed) results and failures
  have hok : ∀ r, beh name = UnitOutcome.ok r →
      (name, r) ∈ (collect_results
        (((resolve_selected req all_names).filter (fun n => n ≠ speedName)).map
          (fun n => run_single_analyzer n (beh n)))).1 ∧
      name ∉ (collect_results
        (((resolve_selected req all_names).filter (fun n => n ≠ speedName)).map
          (fun n => run_single_analyzer n (beh n)))).2 := by
    intro r hr
    rw [hbase]
    constructor
    · refine List.mem_filterMap.mpr ⟨(name, some r), ?_, rfl⟩
      refine List.mem_map.mpr ⟨name, hmemns, ?_⟩
      rw [hr]
      rfl
    · intro hmemf
      rcases List.mem_map.mp hmemf with ⟨it, hit, hfst⟩
      rcases List.mem_filter.mp hit with ⟨hit2, hnone⟩
      rcases List.mem_map.mp hit2 with ⟨n, _, hn⟩
      have hn1 : it.1 = n := by
        cases hbn : beh n <;> rw [← hn, hbn] <;> rfl
      have hnn : n = name := by rw [← hn1, hfst]
      subst hnn
      have h2 : it.2 = some r := by rw [← hn, hr]; rfl
      rw [h2] at hnone
      simp at hnone
  have hfail : (beh name = UnitOutcome.err ∨ beh name = UnitOutcome.timeout) →
      name ∈ (collect_results
        (((resolve_selected req all_names).filter (fun n => n ≠ speedName)).map
          (fun n => run_single_analyzer n (beh n)))).2 ∧
      ∀ r, (name, r) ∉ (collect_results
        (((resolve_selected req all_names).filter (fun n => n ≠ speedName)).map
          (fun n => run_single_analyzer n (beh n)))).1 := by
    intro hr
    rw [hbase]
    have hitem : run_single_analyzer name (beh name) = (name, none) := by
      rcases hr with h | h <;> rw [h] <;> rfl
    constructor
    · refine List.mem_map.mpr ⟨(name, none), ?_, rfl⟩
      refine List.mem_filter.mpr ⟨?_, rfl⟩
      exact List.mem_map.mpr ⟨name, hmemns, hitem⟩
    · intro r hmemr
      rcases List.mem_filterMap.mp hmemr with ⟨it, hit, hsome⟩
      rcases List.mem_map.mp hit with ⟨n, _, hn⟩
      rcases Option.map_eq_some'.mp hsome with ⟨v, hv, hpair⟩
      have hfst : it.1 = n := by
        cases hbn : beh n <;> rw [← hn, hbn] <;> rfl
      have h1 : it.1 = name := by
        have h2 := congrArg Prod.fst hpair
        simpa using h2
      have hnn : n = name := by rw [← hfst, h1]
      subst hnn
      have h2 : it.2 = none := by rcases hr with h | h <;> rw [← hn, h] <;> rfl
      rw [h2] at hv
      exact Option.noConfusion hv
  -- transfer through the speed join
  simp only [run_audit_sched]
  by_cases hsp : ((resolve_selected req all_names).contains speedName = true)
  · simp only [hsp, if_pos]
    cases hbs : beh speedName with
    | ok r0 =>
      refine ⟨?_, ?_⟩
      · intro r hr
        exact ⟨(dinsertA_mem_of_ne _ _ _ _ _ hns).mpr ((hok r hr).1), (hok r hr).2⟩
      · intro hr
        exact ⟨(hfail hr).1, fun r hmemr =>
          (hfail hr).2 r ((dinsertA_mem_of_ne _ _ _ _ _ hns).mp hmemr)⟩
    | err =>
      refine ⟨?_, ?_⟩
      · intro r hr
        refine ⟨(dinsertA_mem_of_ne _ _ _ _ _ hns).mpr ((hok r hr).1), ?_⟩
        intro hmemf
        rcases List.mem_append.mp hmemf with h | h
        · exact (hok r hr).2 h
        · exact hns (List.mem_singleton.mp h)
      · intro hr
        refine ⟨List.mem_append.mpr (Or.inl (hfail hr).1), fun r hmemr =>
          (hfail hr).2 r ((dinsertA_mem_of_ne _ _ _ _ _ hns).mp hmemr)⟩
    | timeout =>
      refine ⟨?_, ?_⟩
      · intro r hr
        refine ⟨(dinsertA_mem_of_ne _ _ _ _ _ hns).mpr ((hok r hr).1), ?_⟩
        intro hmemf
        rcases List.mem_append.mp hmemf with h | h
        · exact (hok r hr).2 h
        · exact hns (List.mem_singleton.mp h)
      · intro hr
        refine ⟨List.mem_append.mpr (Or.inl (hfail hr).1), fun r hmemr =>
          (hfail hr).2 r ((dinsertA_mem_of_ne _ _ _ _ _ hns).mp hmemr)⟩
  · simp only [hsp, if_neg, Bool.false_eq_true, not_false_iff]
    exact ⟨hok, hfail⟩

/-- C2 witness: with the speed unit timing out, the unit alpha still gets
its result recorded and is not failed. -/
theorem c2_witness :
    (alphaName, 1) ∈ (run_audit_sched (some namesEx) namesEx behSpeedTO 0).1 ∧
    alphaName ∉ (run_audit_sched (some namesEx) namesEx behSpeedTO 0).2 := by
  exact (c2_analyzer_isolation (some namesEx) namesEx behSpeedTO 0 alphaName
    (by decide) (by decide) (by decide)).1 1 (by decide)

/-! ## Crawler lemmas -/

theorem fetch_page_some (web : Web) (u : String) (d : Nat) (p : PageData)
    (h : fetch_page web u d = some p) : p.depth = d ∧ p.url = u := by
  unfold fetch_page at h
  cases hw : web u with
  | failed =>
    rw [hw] at h
    cases h
    exact ⟨rfl, rfl⟩
  | ok s ct ext =>
    rw [hw] at h
    by_cases hct : strContains (String.mk (lowerL ct.data)) textHtml
    · simp only [hct, not_true_eq_false, if_neg, not_false_iff] at h
      cases h
      exact ⟨rfl, rfl⟩
    · simp [hct] at h

theorem non_html_fetch_none (web : Web) (u : String) (d : Nat)
    (h : non_html web u) : fetch_page web u d = none := by
  rcases h with ⟨s, ct, ext, hw, hct⟩
  unfold fetch_page
  rw [hw]
  simp [hct]

theorem dinsertA_mem_sub {α : Type} (m : List (String × α)) (k : String)
    (v : α) : ∀ kv ∈ dinsertA m k v, kv ∈ m ∨ kv = (k, v) := by
  intro kv hkv
  unfold dinsertA at hkv
  by_cases hk : (m.map Prod.fst).contains k
  · rw [if_pos hk] at hkv
    rcases List.mem_map.mp hkv with ⟨kv0, hkv0, heq⟩
    by_cases h0 : kv0.1 = k
    · rw [if_pos h0] at heq
      exact Or.inr heq.symm
    · rw [if_neg h0] at heq
      exact Or.inl (heq ▸ hkv0)
  · rw [if_neg hk] at hkv
    rcases List.mem_append.mp hkv with h | h
    · exact Or.inl h
    · exact Or.inr (List.mem_singleton.mp h)

theorem pairwise_and_of {α : Type} {R S : α → α → Prop} {l : List α}
    (h1 : l.Pairwise R) (h2 : l.Pairwise S) :
    l.Pairwise (fun a b => R a b ∧ S a b) := by
  induction l with
  | nil => exact List.Pairwise.nil
  | cons a t ih =>
    rcases List.pairwise_cons.mp h1 with ⟨h1a, h1t⟩
    rcases List.pairwise_cons.mp h2 with ⟨h2a, h2t⟩
    exact List.pairwise_cons.mpr ⟨fun b hb => ⟨h1a b hb, h2a b hb⟩, ih h1t h2t⟩

/-- Any two entries of a sorted, span-bounded list are within one level
of each other (in both directions). -/
theorem sorted_span_both (l : List (String × Nat)) (hs : QSorted l)
    (hp : QSpan l) : ∀ a ∈ l, ∀ b ∈ l, a.2 ≤ b.2 + 1 := by
  have hT : l.Pairwise (fun a b : String × Nat =>
      a.2 ≤ b.2 + 1 ∧ b.2 ≤ a.2 + 1) :=
    (pairwise_and_of hs hp).imp (fun h => ⟨Nat.le_succ_of_le h.1, h.2⟩)
  intro a ha b hb
  by_cases hab : a = b
  · subst hab
    exact Nat.le_succ_of_le (Nat.le_refl _)
  · exact (hT.forall (fun x y h => ⟨h.2, h.1⟩) ha hb hab).1

/-- The combined step lemma for the link-expansion loop: the queue is
extended with depth d+1 entries whose URLs are fresh, pairwise distinct
and recorded as visited; trace and pages are untouched; the visited set
only grows and stays within the page cap. -/
theorem enqueue_links_spec (cfg : CrawlerCfg) (links : List String)
    (d : Nat) : ∀ (st : CrawlState) (S : List String), S.Nodup →
    (∀ u ∈ S, u ∈ st.visited) →
    ∃ es,
      (enqueue_links cfg st d links).queue = st.queue ++ es ∧
      (∀ e ∈ es, e.2 = d + 1) ∧
      (enqueue_links cfg st d links).trace = st.trace ∧
      (enqueue_links cfg st d links).pages = st.pages ∧
      (∀ u ∈ st.visited, u ∈ (enqueue_links cfg st d links).visited) ∧
      (st.visited.length ≤ cfg.max_pages →
        (enqueue_links cfg st d links).visited.length ≤ cfg.max_pages) ∧
      (S ++ es.map Prod.fst).Nodup ∧
      (∀ u ∈ S ++ es.map Prod.fst, u ∈ (enqueue_links cfg st d links).visited) := by
  induction links with
  | nil =>
    intro st S hS hsub
    exact ⟨[], by simp [enqueue_links], by simp, rfl, rfl, fun u hu => hu,
      fun h => h, by simpa using hS, by simpa using hsub⟩
  | cons l ls ih =>
    intro st S hS hsub
    by_cases hc : normalize_url l ∉ st.visited ∧
        is_valid_url cfg.base_domain (normalize_url l) = true ∧
        st.visited.length < cfg.max_pages
    · have hstep : enqueue_links cfg st d (l :: ls) =
          enqueue_links cfg (enqueue_one st (normalize_url l) d) d ls := by
        simp only [enqueue_links, List.foldl_cons, if_pos hc]
      have hS2 : (S ++ [normalize_url l]).Nodup := by
        rw [List.nodup_append]
        exact ⟨hS, List.nodup_singleton _,
          fun u hu hmem => hc.1 ((List.mem_singleton.mp hmem) ▸ hsub u hu)⟩
      have hsub2 : ∀ u ∈ S ++ [normalize_url l],
          u ∈ (enqueue_one st (normalize_url l) d).visited := by
        intro u hu
        rcases List.mem_append.mp hu with h | h
        · exact List.mem_cons_of_mem _ (hsub u h)
        · rw [List.mem_singleton.mp h]
          exact List.mem_cons_self _ _
      rcases ih _ (S ++ [normalize_url l]) hS2 hsub2 with
        ⟨es, hq, hd, ht, hp, hv, hcap, hnd, hvs⟩
      rw [hstep]
      refine ⟨(normalize_url l, d + 1) :: es, ?_, ?_, ht, hp, ?_, ?_, ?_, ?_⟩
      · rw [hq]
        simp [enqueue_one]
      · intro e he
        rcases List.mem_cons.mp he with h | h
        · rw [h]
        · exact hd e h
      · intro u hu
        exact hv u (List.mem_cons_of_mem _ hu)
      · intro hle
        apply hcap
        simp only [enqueue_one]
        simpa using hc.2.2
      · have h2 := hnd
        rw [List.append_assoc] at h2
        simpa using h2
      · intro u hu
        apply hvs
        rw [List.append_assoc]
        simpa using hu
    · have hstep : enqueue_links cfg st d (l :: ls) =
          enqueue_links cfg st d ls := by
        simp only [enqueue_links, List.foldl_cons, if_neg hc]
      rw [hstep]
      exact ih st S hS hsub

/-- The step lemma for one stored page: as enqueue_links_spec, plus the
page store grows by at most the record keyed by the page URL. -/
theorem process_page_spec (cfg : CrawlerCfg) (st : CrawlState) (p : PageData)
    (S : List String) (hS : S.Nodup) (hsub : ∀ u ∈ S, u ∈ st.visited) :
    ∃ es,
      (process_page cfg st p).queue = st.queue ++ es ∧
      (∀ e ∈ es, e.2 = p.depth + 1) ∧
      (process_page cfg st p).trace = st.trace ∧
      (∀ kv ∈ (process_page cfg st p).pages, kv ∈ st.pages ∨ kv = (p.url, p)) ∧
      (∀ u ∈ st.visited, u ∈ (process_page cfg st p).visited) ∧
      (st.visited.length ≤ cfg.max_pages →
        (process_page cfg st p).visited.length ≤ cfg.max_pages) ∧
      (S ++ es.map Prod.fst).Nodup ∧
      (∀ u ∈ S ++ es.map Prod.fst, u ∈ (process_page cfg st p).visited) := by
  unfold process_page
  by_cases h200 : p.status_code = 200
  · rw [if_pos h200]
    rcases enqueue_links_spec cfg p.internal_links p.depth
        { st with pages := dinsertA st.pages p.url p } S hS hsub with
      ⟨es, hq, hd, ht, hp, hv, hcap, hnd, hvs⟩
    exact ⟨es, hq, hd, ht, by rw [hp]; exact dinsertA_mem_sub st.pages p.url p,
      hv, hcap, hnd, hvs⟩
  · rw [if_neg h200]
    exact ⟨[], by simp, by simp, rfl, dinsertA_mem_sub st.pages p.url p,
      fun u hu => hu, fun h => h, by simpa using hS, by simpa using hsub⟩

theorem pairwise_of_mem {α : Type} {P : α → Prop} {R : α → α → Prop}
    {l : List α} (h : ∀ a ∈ l, P a) (hR : ∀ a b, P a → P b → R a b) :
    l.Pairwise R := by
  induction l with
  | nil => exact List.Pairwise.nil
  | cons a t ih =>
    refine List.pairwise_cons.mpr ⟨?_, ?_⟩
    · intro b hb
      exact hR a b (h a (List.mem_cons_self _ _)) (h b (List.mem_cons_of_mem _ hb))
    · exact ih (fun b hb => h b (List.mem_cons_of_mem _ hb))

/-- Processing a batch of fetch results preserves the sortedness and the
two-level span of the frontier, and never touches the trace, provided the
batch depths sit between the remaining frontier entries and one level
below them. -/
theorem process_results_order (cfg : CrawlerCfg) :
    ∀ (rs : List (Option PageData)) (st : CrawlState),
    QSorted st.queue → QSpan st.queue →
    (∀ p, some p ∈ rs → ∀ e ∈ st.queue, p.depth ≤ e.2 ∧ e.2 ≤ p.depth + 1) →
    rs.Pairwise (fun o1 o2 => ∀ p1 p2, o1 = some p1 → o2 = some p2 →
      p1.depth ≤ p2.depth ∧ p2.depth ≤ p1.depth + 1) →
    (∀ a ∈ st.trace, ∀ p, some p ∈ rs → a.2 ≤ p.depth + 1) →
    TraceLeQueue st.trace st.queue →
    QSorted (process_results cfg st rs).queue ∧
    QSpan (process_results cfg st rs).queue ∧
    TraceLeQueue (process_results cfg st rs).trace
      (process_results cfg st rs).queue ∧
    (process_results cfg st rs).trace = st.trace := by
  intro rs
  induction rs with
  | nil =>
    intro st hs hp _ _ _ hE
    exact ⟨hs, hp, hE, rfl⟩
  | cons o rs ih =>
    intro st hs hp hC hD hF hE
    cases o with
    | none =>
      refine ih st hs hp ?_ (List.pairwise_cons.mp hD).2 ?_ hE
      · intro p hps
        exact hC p (List.mem_cons_of_mem _ hps)
      · intro a ha p hps
        exact hF a ha p (List.mem_cons_of_mem _ hps)
    | some p =>
      rcases process_page_spec cfg st p [] List.nodup_nil (by simp) with
        ⟨es, hq, hd, ht, _, _, _, _, _⟩
      have hmem0 : (some p : Option PageData) ∈ some p :: rs :=
        List.mem_cons_self _ _
      have hCp := hC p hmem0
      have hesS : QSorted es :=
        pairwise_of_mem hd (fun a b ha hb => by rw [ha, hb])
      have hesP : QSpan es :=
        pairwise_of_mem hd (fun a b ha hb => by rw [ha, hb]; exact Nat.le_succ _)
      have hs1 : QSorted (process_page cfg st p).queue := by
        unfold QSorted
        rw [hq, List.pairwise_append]
        exact ⟨hs, hesS, fun a ha b hb => by
          rw [hd b hb]; exact (hCp a ha).2⟩
      have hp1 : QSpan (process_page cfg st p).queue := by
        unfold QSpan
        rw [hq, List.pairwise_append]
        exact ⟨hp, hesP, fun a ha b hb => by
          rw [hd b hb]; exact Nat.succ_le_succ (hCp a ha).1⟩
      have hDhead := (List.pairwise_cons.mp hD).1
      have hC1 : ∀ p2, some p2 ∈ rs → ∀ e ∈ (process_page cfg st p).queue,
          p2.depth ≤ e.2 ∧ e.2 ≤ p2.depth + 1 := by
        intro p2 hp2 e he
        rw [hq] at he
        rcases List.mem_append.mp he with h | h
        · exact hC p2 (List.mem_cons_of_mem _ hp2) e h
        · have hrel := hDhead (some p2) hp2 p p2 rfl rfl
          rw [hd e h]
          exact ⟨hrel.2, Nat.succ_le_succ hrel.1⟩
      have hF1 : ∀ a ∈ (process_page cfg st p).trace, ∀ p2, some p2 ∈ rs →
          a.2 ≤ p2.depth + 1 := by
        intro a ha p2 hp2
        rw [ht] at ha
        exact hF a ha p2 (List.mem_cons_of_mem _ hp2)
      have hE1 : TraceLeQueue (process_page cfg st p).trace
          (process_page cfg st p).queue := by
        intro a ha b hb
        rw [ht] at ha
        rw [hq] at hb
        rcases List.mem_append.mp hb with h | h
        · exact hE a ha b h
        · rw [hd b h]
          exact hF a ha p hmem0
      have hfin := ih (process_page cfg st p) hs1 hp1 hC1
        (List.pairwise_cons.mp hD).2 hF1 hE1
      refine ⟨hfin.1, hfin.2.1, hfin.2.2.1, ?_⟩
      show (process_results cfg (process_page cfg st p) rs).trace = st.trace
      rw [hfin.2.2.2, ht]

theorem crawl_loop_succ (cfg : CrawlerCfg) (web : Web) (fuel : Nat)
    (st : CrawlState)
    (h : st.queue ≠ [] ∧ st.pages.length < cfg.max_pages) :
    crawl_loop cfg web (fuel + 1) st =
      crawl_loop cfg web fuel
        (process_results cfg (pop_state cfg st)
          ((st.queue.take (min cfg.parallel st.queue.length)).map
            (fun ud => fetch_page web ud.1 ud.2))) := by
  simp only [crawl_loop]
  rw [if_pos h]

theorem crawl_loop_stop (cfg : CrawlerCfg) (web : Web) (fuel : Nat)
    (st : CrawlState)
    (h : ¬ (st.queue ≠ [] ∧ st.pages.length < cfg.max_pages)) :
    crawl_loop cfg web (fuel + 1) st = st := by
  simp only [crawl_loop]
  rw [if_neg h]

/-- The crawl loop preserves the breadth-first ordering invariant. -/
theorem crawl_loop_bfs (cfg : CrawlerCfg) (web : Web) :
    ∀ (fuel : Nat) (st : CrawlState), BfsInv st →
      BfsInv (crawl_loop cfg web fuel st) := by
  intro fuel
  induction fuel with
  | zero => exact fun st h => h
  | succ fuel ih =>
    intro st h
    obtain ⟨hs, hp, hts, htq⟩ := h
    by_cases hcond : st.queue ≠ [] ∧ st.pages.length < cfg.max_pages
    · rw [crawl_loop_succ cfg web fuel st hcond]
      apply ih
      have hsplit : st.queue.take (min cfg.parallel st.queue.length) ++
          st.queue.drop (min cfg.parallel st.queue.length) = st.queue :=
        List.take_append_drop _ _
      have hsB : QSorted (st.queue.take (min cfg.parallel st.queue.length)) :=
        List.Pairwise.sublist (List.take_sublist _ _) hs
      have hpB : QSpan (st.queue.take (min cfg.parallel st.queue.length)) :=
        List.Pairwise.sublist (List.take_sublist _ _) hp
      have hsR : QSorted ((pop_state cfg st).queue) :=
        List.Pairwise.sublist (List.drop_sublist _ _) hs
      have hpR : QSpan ((pop_state cfg st).queue) :=
        List.Pairwise.sublist (List.drop_sublist _ _) hp
      have hcross : ∀ a ∈ st.queue.take (min cfg.parallel st.queue.length),
          ∀ b ∈ st.queue.drop (min cfg.parallel st.queue.length),
          a.2 ≤ b.2 ∧ b.2 ≤ a.2 + 1 := by
        have h1 := (List.pairwise_append.mp (hsplit ▸ hs)).2.2
        have h2 := (List.pairwise_append.mp (hsplit ▸ hp)).2.2
        exact fun a ha b hb => ⟨h1 a ha b hb, h2 a ha b hb⟩
      have hres : ∀ p : PageData,
          some p ∈ (st.queue.take (min cfg.parallel st.queue.length)).map
            (fun ud => fetch_page web ud.1 ud.2) →
          ∃ ud ∈ st.queue.take (min cfg.parallel st.queue.length),
            p.depth = ud.2 := by
        intro p hmem
        rcases List.mem_map.mp hmem with ⟨ud, hud, hf⟩
        exact ⟨ud, hud, (fetch_page_some web ud.1 ud.2 p hf).1⟩
      have hC : ∀ p : PageData,
          some p ∈ (st.queue.take (min cfg.parallel st.queue.length)).map
            (fun ud => fetch_page web ud.1 ud.2) →
          ∀ e ∈ (pop_state cfg st).queue, p.depth ≤ e.2 ∧ e.2 ≤ p.depth + 1 := by
        intro p hmem e he
        rcases hres p hmem with ⟨ud, hud, hdep⟩
        rw [hdep]
        exact hcross ud hud e he
      have hD : ((st.queue.take (min cfg.parallel st.queue.length)).map
          (fun ud => fetch_page web ud.1 ud.2)).Pairwise
            (fun o1 o2 => ∀ p1 p2, o1 = some p1 → o2 = some p2 →
              p1.depth ≤ p2.depth ∧ p2.depth ≤ p1.depth + 1) := by
        rw [List.pairwise_map]
        refine (pairwise_and_of hsB hpB).imp ?_
        intro a b hab p1 p2 h1 h2
        rw [(fetch_page_some web a.1 a.2 p1 h1).1,
          (fetch_page_some web b.1 b.2 p2 h2).1]
        exact hab
      have hF : ∀ a ∈ (pop_state cfg st).trace, ∀ p : PageData,
          some p ∈ (st.queue.take (min cfg.parallel st.queue.length)).map
            (fun ud => fetch_page web ud.1 ud.2) → a.2 ≤ p.depth + 1 := by
        intro a ha p hmem
        rcases hres p hmem with ⟨ud, hud, hdep⟩
        rw [hdep]
        have ha2 : a ∈ st.trace ++ st.queue.take (min cfg.parallel st.queue.length) := ha
        rcases List.mem_append.mp ha2 with h1 | h1
        · exact Nat.le_succ_of_le
            (htq a h1 ud ((List.take_sublist _ _).subset hud))
        · exact sorted_span_both _ hsB hpB a h1 ud hud
      have hE : TraceLeQueue (pop_state cfg st).trace (pop_state cfg st).queue := by
        intro a ha b hb
        have ha2 : a ∈ st.trace ++ st.queue.take (min cfg.parallel st.queue.length) := ha
        have hb2 : b ∈ st.queue.drop (min cfg.parallel st.queue.length) := hb
        rcases List.mem_append.mp ha2 with h1 | h1
        · exact htq a h1 b ((List.drop_sublist _ _).subset hb2)
        · exact (hcross a h1 b hb2).1
      have hfin := process_results_order cfg
        ((st.queue.take (min cfg.parallel st.queue.length)).map
          (fun ud => fetch_page web ud.1 ud.2))
        (pop_state cfg st) hsR hpR hC hD hF hE
      refine ⟨hfin.1, hfin.2.1, ?_, hfin.2.2.1⟩
      rw [hfin.2.2.2]
      show QSorted (st.trace ++ st.queue.take (min cfg.parallel st.queue.length))
      unfold QSorted
      rw [List.pairwise_append]
      exact ⟨hts, hsB, fun a ha b hb =>
        htq a ha b ((List.take_sublist _ _).subset hb)⟩
    · rw [crawl_loop_stop cfg web fuel st hcond]
      exact ⟨hs, hp, hts, htq⟩

/-- C1: strict breadth-first dequeue order.  Along every (fuel-bounded)
crawl execution, the recorded depths of the dequeued frontier entries
are non-decreasing in pop order: for any two frontier entries p before
q in the dequeue history, depth(p) ≤ depth(q) — equivalently, every
page at depth d is dequeued before any page at depth d+1, even though
entries are popped in batches of up to the concurrency cap. -/
theorem c1_bfs_dequeue_order (start_url : String) (mp pr : Option Nat)
    (web : Web) (fuel : Nat) :
    ((crawl_run start_url mp pr web fuel).trace).Pairwise
      (fun a b => a.2 ≤ b.2) := by
  have hinit : BfsInv (init_state (mkCrawler start_url mp pr)) := by
    refine ⟨?_, ?_, List.Pairwise.nil, ?_⟩
    · exact List.pairwise_singleton _ _
    · exact List.pairwise_singleton _ _
    · intro a ha
      simp [init_state] at ha
  exact (crawl_loop_bfs (mkCrawler start_url mp pr) web fuel
    (init_state (mkCrawler start_url mp pr)) hinit).2.2.1

/-- Processing a batch of fetch results keeps the all-time enqueue
history duplicate-free, inside the visited set, and the visited set
within the page cap. -/
theorem process_results_frontier (cfg : CrawlerCfg) :
    ∀ (rs : List (Option PageData)) (st : CrawlState),
    (st.trace.map Prod.fst ++ st.queue.map Prod.fst).Nodup →
    (∀ u ∈ st.trace.map Prod.fst ++ st.queue.map Prod.fst, u ∈ st.visited) →
    st.visited.length ≤ cfg.max_pages →
    ((process_results cfg st rs).trace.map Prod.fst ++
      (process_results cfg st rs).queue.map Prod.fst).Nodup ∧
    (∀ u ∈ (process_results cfg st rs).trace.map Prod.fst ++
        (process_results cfg st rs).queue.map Prod.fst,
      u ∈ (process_results cfg st rs).visited) ∧
    (process_results cfg st rs).visited.length ≤ cfg.max_pages ∧
    (∀ u ∈ st.visited, u ∈ (process_results cfg st rs).visited) := by
  intro rs
  induction rs with
  | nil => exact fun st h1 h2 h3 => ⟨h1, h2, h3, fun u hu => hu⟩
  | cons o rs ih =>
    intro st h1 h2 h3
    cases o with
    | none => exact ih st h1 h2 h3
    | some p =>
      rcases process_page_spec cfg st p
          (st.trace.map Prod.fst ++ st.queue.map Prod.fst) h1 h2 with
        ⟨es, hq, hd, ht, hpag, hv, hcap, hnd, hvs⟩
      have hlist : (process_page cfg st p).trace.map Prod.fst ++
          (process_page cfg st p).queue.map Prod.fst =
          (st.trace.map Prod.fst ++ st.queue.map Prod.fst) ++ es.map Prod.fst := by
        rw [ht, hq, List.map_append, List.append_assoc]
      have h1a : ((process_page cfg st p).trace.map Prod.fst ++
          (process_page cfg st p).queue.map Prod.fst).Nodup := by
        rw [hlist]
        exact hnd
      have h2a : ∀ u ∈ (process_page cfg st p).trace.map Prod.fst ++
          (process_page cfg st p).queue.map Prod.fst,
          u ∈ (process_page cfg st p).visited := by
        rw [hlist]
        exact hvs
      have hfin := ih (process_page cfg st p) h1a h2a (hcap h3)
      exact ⟨hfin.1, hfin.2.1, hfin.2.2.1,
        fun u hu => hfin.2.2.2 u (hv u hu)⟩

/-- The crawl loop keeps the all-time enqueue history duplicate-free and
inside the visited set, and the visited set below the page cap. -/
theorem crawl_loop_frontier (cfg : CrawlerCfg) (web : Web) :
    ∀ (fuel : Nat) (st : CrawlState),
    (st.trace.map Prod.fst ++ st.queue.map Prod.fst).Nodup →
    (∀ u ∈ st.trace.map Prod.fst ++ st.queue.map Prod.fst, u ∈ st.visited) →
    st.visited.length ≤ cfg.max_pages →
    ((crawl_loop cfg web fuel st).trace.map Prod.fst ++
      (crawl_loop cfg web fuel st).queue.map Prod.fst).Nodup ∧
    (∀ u ∈ (crawl_loop cfg web fuel st).trace.map Prod.fst ++
        (crawl_loop cfg web fuel st).queue.map Prod.fst,
      u ∈ (crawl_loop cfg web fuel st).visited) ∧
    (crawl_loop cfg web fuel st).visited.length ≤ cfg.max_pages := by
  intro fuel
  induction fuel with
  | zero => exact fun st h1 h2 h3 => ⟨h1, h2, h3⟩
  | succ fuel ih =>
    intro st h1 h2 h3
    by_cases hcond : st.queue ≠ [] ∧ st.pages.length < cfg.max_pages
    · rw [crawl_loop_succ cfg web fuel st hcond]
      have hpop : (pop_state cfg st).trace.map Prod.fst ++
          (pop_state cfg st).queue.map Prod.fst =
          st.trace.map Prod.fst ++ st.queue.map Prod.fst := by
        show (st.trace ++ st.queue.take (min cfg.parallel st.queue.length)).map
            Prod.fst ++ (st.queue.drop (min cfg.parallel st.queue.length)).map
            Prod.fst = _
        rw [List.map_append, List.append_assoc, ← List.map_append,
          List.take_append_drop]
      have hfin := process_results_frontier cfg
        ((st.queue.take (min cfg.parallel st.queue.length)).map
          (fun ud => fetch_page web ud.1 ud.2))
        (pop_state cfg st) (by rw [hpop]; exact h1) (by rw [hpop]; exact h2) h3
      exact ih _ hfin.1 hfin.2.1 hfin.2.2.1
    · rw [crawl_loop_stop cfg web fuel st hcond]
      exact ⟨h1, h2, h3⟩

theorem orDefault_pos (v : Option Nat) (d : Nat) (h : 0 < d) :
    0 < orDefault v d := by
  cases v with
  | none => exact h
  | some n =>
    by_cases hn : n = 0
    · simp [orDefault, hn]
      exact h
    · simp [orDefault, hn]
      exact Nat.pos_of_ne_zero hn

/-- C7: frontier invariant.  Throughout every (fuel-bounded) crawl, no
normalized URL is ever enqueued twice — the all-time dequeue history and
the current queue together hold pairwise-distinct URLs, so in particular
the queue never holds two entries for the same URL — and the visited set
never exceeds the configured page cap. -/
theorem c7_frontier_invariant (start_url : String) (mp pr : Option Nat)
    (web : Web) (fuel : Nat) :
    ((crawl_run start_url mp pr web fuel).trace.map Prod.fst ++
      (crawl_run start_url mp pr web fuel).queue.map Prod.fst).Nodup ∧
    ((crawl_run start_url mp pr web fuel).queue.map Prod.fst).Nodup ∧
    (crawl_run start_url mp pr web fuel).visited.length ≤
      (mkCrawler start_url mp pr).max_pages := by
  have hcap : (1 : Nat) ≤ (mkCrawler start_url mp pr).max_pages := by
    show 1 ≤ orDefault mp settings_MAX_PAGES
    exact orDefault_pos mp settings_MAX_PAGES (by decide)
  have hfin := crawl_loop_frontier (mkCrawler start_url mp pr) web fuel
    (init_state (mkCrawler start_url mp pr))
    (by simp [init_state]) (by simp [init_state]) (by simpa [init_state] using hcap)
  refine ⟨hfin.1, ?_, hfin.2.2⟩
  exact ((List.sublist_append_right _ _).nodup hfin.1)

/-- Processing a batch of fetch results keeps every stored page key
inside the visited set and satisfying the fetch predicate Pok, and every
frontier and trace URL visited. -/
theorem process_results_pages (cfg : CrawlerCfg) (Pok : String → Prop) :
    ∀ (rs : List (Option PageData)) (st : CrawlState),
    (∀ p : PageData, some p ∈ rs → p.url ∈ st.visited ∧ Pok p.url) →
    (∀ kv ∈ st.pages, kv.1 ∈ st.visited ∧ Pok kv.1) →
    (∀ e ∈ st.queue, e.1 ∈ st.visited) →
    (∀ e ∈ st.trace, e.1 ∈ st.visited) →
    (∀ kv ∈ (process_results cfg st rs).pages,
      kv.1 ∈ (process_results cfg st rs).visited ∧ Pok kv.1) ∧
    (∀ e ∈ (process_results cfg st rs).queue,
      e.1 ∈ (process_results cfg st rs).visited) ∧
    (∀ e ∈ (process_results cfg st rs).trace,
      e.1 ∈ (process_results cfg st rs).visited) ∧
    (∀ u ∈ st.visited, u ∈ (process_results cfg st rs).visited) := by
  intro rs
  induction rs with
  | nil => exact fun st h0 h1 h2 h3 => ⟨h1, h2, h3, fun u hu => hu⟩
  | cons o rs ih =>
    intro st h0 h1 h2 h3
    cases o with
    | none =>
      exact ih st (fun p hp => h0 p (List.mem_cons_of_mem _ hp)) h1 h2 h3
    | some p =>
      rcases process_page_spec cfg st p [] List.nodup_nil (by simp) with
        ⟨es, hq, hd, ht, hpag, hv, hcap, hnd, hvs⟩
      have h0p := h0 p (List.mem_cons_self _ _)
      have h1a : ∀ kv ∈ (process_page cfg st p).pages,
          kv.1 ∈ (process_page cfg st p).visited ∧ Pok kv.1 := by
        intro kv hkv
        rcases hpag kv hkv with h | h
        · exact ⟨hv kv.1 (h1 kv h).1, (h1 kv h).2⟩
        · rw [h]
          exact ⟨hv p.url h0p.1, h0p.2⟩
      have h2a : ∀ e ∈ (process_page cfg st p).queue,
          e.1 ∈ (process_page cfg st p).visited := by
        intro e he
        rw [hq] at he
        rcases List.mem_append.mp he with h | h
        · exact hv e.1 (h2 e h)
        · exact hvs e.1 (by simpa using List.mem_map_of_mem Prod.fst h)
      have h3a : ∀ e ∈ (process_page cfg st p).trace,
          e.1 ∈ (process_page cfg st p).visited := by
        intro e he
        rw [ht] at he
        exact hv e.1 (h3 e he)
      have h0a : ∀ p2 : PageData, some p2 ∈ rs →
          p2.url ∈ (process_page cfg st p).visited ∧ Pok p2.url := by
        intro p2 hp2
        have := h0 p2 (List.mem_cons_of_mem _ hp2)
        exact ⟨hv p2.url this.1, this.2⟩
      have hfin := ih (process_page cfg st p) h0a h1a h2a h3a
      exact ⟨hfin.1, hfin.2.1, hfin.2.2.1,
        fun u hu => hfin.2.2.2 u (hv u hu)⟩

/-- The crawl loop keeps every stored page key visited and non-non-HTML,
and every frontier/trace URL visited. -/
theorem crawl_loop_pages (cfg : CrawlerCfg) (web : Web) :
    ∀ (fuel : Nat) (st : CrawlState),
    (∀ kv ∈ st.pages, kv.1 ∈ st.visited ∧ ¬ non_html web kv.1) →
    (∀ e ∈ st.queue, e.1 ∈ st.visited) →
    (∀ e ∈ st.trace, e.1 ∈ st.visited) →
    (∀ kv ∈ (crawl_loop cfg web fuel st).pages,
      kv.1 ∈ (crawl_loop cfg web fuel st).visited ∧ ¬ non_html web kv.1) ∧
    (∀ e ∈ (crawl_loop cfg web fuel st).queue,
      e.1 ∈ (crawl_loop cfg web fuel st).visited) ∧
    (∀ e ∈ (crawl_loop cfg web fuel st).trace,
      e.1 ∈ (crawl_loop cfg web fuel st).visited) := by
  intro fuel
  induction fuel with
  | zero => exact fun st h1 h2 h3 => ⟨h1, h2, h3⟩
  | succ fuel ih =>
    intro st h1 h2 h3
    by_cases hcond : st.queue ≠ [] ∧ st.pages.length < cfg.max_pages
    · rw [crawl_loop_succ cfg web fuel st hcond]
      have h0 : ∀ p : PageData,
          some p ∈ (st.queue.take (min cfg.parallel st.queue.length)).map
            (fun ud => fetch_page web ud.1 ud.2) →
          p.url ∈ (pop_state cfg st).visited ∧ ¬ non_html web p.url := by
        intro p hmem
        rcases List.mem_map.mp hmem with ⟨ud, hud, hf⟩
        have hurl := (fetch_page_some web ud.1 ud.2 p hf).2
        constructor
        · rw [hurl]
          exact h2 ud ((List.take_sublist _ _).subset hud)
        · intro hnh
          rw [hurl] at hnh
          rw [non_html_fetch_none web ud.1 ud.2 hnh] at hf
          exact Option.noConfusion hf
      have h2a : ∀ e ∈ (pop_state cfg st).queue,
          e.1 ∈ (pop_state cfg st).visited := by
        intro e he
        exact h2 e ((List.drop_sublist _ _).subset he)
      have h3a : ∀ e ∈ (pop_state cfg st).trace,
          e.1 ∈ (pop_state cfg st).visited := by
        intro e he
        have he2 : e ∈ st.trace ++ st.queue.take (min cfg.parallel st.queue.length) := he
        rcases List.mem_append.mp he2 with h | h
        · exact h3 e h
        · exact h2 e ((List.take_sublist _ _).subset h)
      have h1a : ∀ kv ∈ (pop_state cfg st).pages,
          kv.1 ∈ (pop_state cfg st).visited ∧ ¬ non_html web kv.1 := h1
      have hfin := process_results_pages cfg (fun u => ¬ non_html web u)
        ((st.queue.take (min cfg.parallel st.queue.length)).map
          (fun ud => fetch_page web ud.1 ud.2))
        (pop_state cfg st) h0 h1a h2a h3a
      exact ih _ hfin.1 hfin.2.1 hfin.2.2.1
    · rw [crawl_loop_stop cfg web fuel st hcond]
      exact ⟨h1, h2, h3⟩

/-- C10: every key of the page store of a crawl is in the visited set;
every dequeued (hence fetched) URL is in the visited set — so a
non-HTML URL, once fetched, is never fetched again — and a URL whose
response has a non-HTML content-type never has a page record, so the
map crawl_all returns can hold strictly fewer entries than there are
visited URLs. -/
theorem c10_pages_subset_visited (start_url : String) (mp pr : Option Nat)
    (web : Web) (fuel : Nat) :
    (∀ kv ∈ (crawl_run start_url mp pr web fuel).pages,
      kv.1 ∈ (crawl_run start_url mp pr web fuel).visited) ∧
    (∀ e ∈ (crawl_run start_url mp pr web fuel).trace,
      e.1 ∈ (crawl_run start_url mp pr web fuel).visited) ∧
    (∀ u, non_html web u →
      u ∉ (crawl_run start_url mp pr web fuel).pages.map Prod.fst) := by
  have hfin := crawl_loop_pages (mkCrawler start_url mp pr) web fuel
    (init_state (mkCrawler start_url mp pr))
    (by simp [init_state]) (by simp [init_state]) (by simp [init_state])
  refine ⟨fun kv hkv => (hfin.1 kv hkv).1, hfin.2.2, ?_⟩
  intro u hnh hmem
  rcases List.mem_map.mp hmem with ⟨kv, hkv, hfst⟩
  exact (hfin.1 kv hkv).2 (hfst ▸ hnh)

/-- C10 witness: on the concrete two-page web, the fetched non-HTML URL
is visited but has no page record, so the page store is strictly smaller
than the visited set. -/
theorem c10_witness :
    urlSeed ∈ (crawl_run urlSeed (some 10) none webEx 5).visited ∧
    urlPng ∉ (crawl_run urlSeed (some 10) none webEx 5).pages.map Prod.fst ∧
    (crawl_run urlSeed (some 10) none webEx 5).pages.length <
      (crawl_run urlSeed (some 10) none webEx 5).visited.length := by
  refine ⟨?_, ?_, by decide⟩
  · exact (c10_pages_subset_visited urlSeed (some 10) none webEx 5).2.1
      (urlSeed, 0) (by decide)
  · exact (c10_pages_subset_visited urlSeed (some 10) none webEx 5).2.2
      urlPng ⟨200, ctPng, {}, by decide, by decide⟩

/-! ## Union-find lemmas (DuplicatesAnalyzer._group_pairs) -/

theorem lookup_replace {α : Type} (m : List (String × α)) (k z : String)
    (v : α) :
    (m.map (fun kv => if kv.1 = k then (k, v) else kv)).lookup z =
      if z = k then (m.lookup k).map (fun _ => v) else m.lookup z := by
  induction m with
  | nil => by_cases hz : z = k <;> simp [hz]
  | cons a t ih =>
    obtain ⟨a1, a2⟩ := a
    by_cases ha : a1 = k
    · by_cases hz : z = k
      · simp [List.lookup_cons, ha, hz]
      · have hb : (z == k) = false := beq_false_of_ne hz
        simp [List.lookup_cons, ha, hz, hb, ih]
    · have hb2 : (k == a1) = false := beq_false_of_ne (fun h => ha h.symm)
      by_cases hz : z = k
      · subst hz
        have hza : ¬ z = a1 := fun h => ha h.symm
        have hb3 : (z == a1) = false := beq_false_of_ne hza
        simp [List.lookup_cons, ha, hb2, hb3, ih]
      · by_cases hza : z = a1
        · simp [List.lookup_cons, ha, hz, hza, hb2]
        · have hb3 : (z == a1) = false := beq_false_of_ne hza
          simp [List.lookup_cons, ha, hz, hza, hb2, hb3, ih]

theorem lookup_not_contains {α : Type} (m : List (String × α)) (k : String)
    (h : ¬ (m.map Prod.fst).contains k) : m.lookup k = none := by
  induction m with
  | nil => rfl
  | cons a t ih =>
    obtain ⟨a1, a2⟩ := a
    simp only [List.map_cons, List.contains_cons, Bool.or_eq_true, not_or] at h
    have hb : (k == a1) = false := by
      simpa using h.1
    simp only [List.lookup_cons, hb]
    exact ih h.2

theorem lookup_contains_some {α : Type} (m : List (String × α)) (k : String)
    (h : (m.map Prod.fst).contains k) : ∃ v0, m.lookup k = some v0 := by
  induction m with
  | nil => simp at h
  | cons a t ih =>
    obtain ⟨a1, a2⟩ := a
    by_cases hk : k = a1
    · exact ⟨a2, by simp [List.lookup_cons, hk]⟩
    · have hb : (k == a1) = false := beq_false_of_ne hk
      simp only [List.map_cons, List.contains_cons, Bool.or_eq_true, hb,
        Bool.false_eq_true, false_or] at h
      rcases ih h with ⟨v0, hv0⟩
      exact ⟨v0, by simp [List.lookup_cons, hb, hv0]⟩

theorem lookup_append_str {α : Type} (m1 m2 : List (String × α)) (z : String) :
    (m1 ++ m2).lookup z =
      match m1.lookup z with
      | some v => some v
      | none => m2.lookup z := by
  induction m1 with
  | nil => simp
  | cons a t ih =>
    obtain ⟨a1, a2⟩ := a
    rw [List.cons_append, List.lookup_cons, List.lookup_cons]
    by_cases hz : z = a1
    · simp [hz]
    · have hb : (z == a1) = false := beq_false_of_ne hz
      simp [hb, ih]

theorem lookup_dinsertA {α : Type} (m : List (String × α)) (k z : String)
    (v : α) :
    (dinsertA m k v).lookup z = if z = k then some v else m.lookup z := by
  unfold dinsertA
  by_cases hc : (m.map Prod.fst).contains k
  · rw [if_pos hc, lookup_replace]
    by_cases hz : z = k
    · rw [if_pos hz, if_pos hz]
      rcases lookup_contains_some m k hc with ⟨v0, hv0⟩
      rw [hv0]
      rfl
    · rw [if_neg hz, if_neg hz]
  · rw [if_neg hc, lookup_append_str]
    by_cases hz : z = k
    · rw [if_pos hz, hz, lookup_not_contains m k hc]
      simp [List.lookup_cons]
    · rw [if_neg hz]
      cases hm : m.lookup z with
      | some v0 => rfl
      | none =>
        have hb : (z == k) = false := beq_false_of_ne hz
        simp [List.lookup_cons, hb]

theorem uf_get_dinsertA (m : List (String × String)) (k z v : String) :
    uf_get (dinsertA m k v) z = if z = k then v else uf_get m z := by
  unfold uf_get
  rw [lookup_dinsertA]
  by_cases hz : z = k
  · rw [if_pos hz, if_pos hz]
    rfl
  · rw [if_neg hz, if_neg hz]

theorem pget_iter_add (m : List (String × String)) (a b : Nat) (x : String) :
    pget_iter m (a + b) x = pget_iter m b (pget_iter m a x) := by
  induction a generalizing x with
  | zero =>
    rw [Nat.zero_add]
    rfl
  | succ a ih =>
    have h1 : a + 1 + b = (a + b) + 1 := by omega
    rw [h1]
    show pget_iter m (a + b) (uf_get m x) = _
    rw [ih (uf_get m x)]
    rfl

theorem root_stable (m : List (String × String)) (r : String)
    (h : is_rootU m r) : ∀ j, pget_iter m j r = r := by
  intro j
  induction j with
  | zero => rfl
  | succ j ih =>
    show pget_iter m j (uf_get m r) = r
    rw [h]
    exact ih

theorem rootRel_unique (m : List (String × String)) (x r1 r2 : String)
    (h1 : rootRel m x r1) (h2 : rootRel m x r2) : r1 = r2 := by
  rcases h1 with ⟨hr1, k1, e1⟩
  rcases h2 with ⟨hr2, k2, e2⟩
  rcases Nat.le_total k1 k2 with h | h
  · have h3 : pget_iter m k2 x = pget_iter m (k2 - k1) (pget_iter m k1 x) := by
      rw [← pget_iter_add]
      congr 1
      omega
    rw [e1, root_stable m r1 hr1] at h3
    rw [e2] at h3
    exact h3.symm
  · have h3 : pget_iter m k1 x = pget_iter m (k1 - k2) (pget_iter m k2 x) := by
      rw [← pget_iter_add]
      congr 1
      omega
    rw [e2, root_stable m r2 hr2] at h3
    rw [e1] at h3
    exact h3

theorem pget_iter_congr (m1 m2 : List (String × String))
    (h : ∀ z, uf_get m1 z = uf_get m2 z) (k : Nat) (x : String) :
    pget_iter m1 k x = pget_iter m2 k x := by
  induction k generalizing x with
  | zero => rfl
  | succ k ih =>
    show pget_iter m1 k (uf_get m1 x) = pget_iter m2 k (uf_get m2 x)
    rw [h x]
    exact ih _

theorem lookup_some_contains {α : Type} (m : List (String × α)) (k : String)
    (v : α) (h : m.lookup k = some v) : (m.map Prod.fst).contains k := by
  by_contra hc
  rw [lookup_not_contains m k hc] at h
  exact Option.noConfusion h

/-- If x is not a fixpoint of uf_get, its lookup succeeds. -/
theorem uf_get_lookup (m : List (String × String)) (x : String)
    (h : uf_get m x ≠ x) : m.lookup x = some (uf_get m x) := by
  unfold uf_get at h ⊢
  cases hl : m.lookup x with
  | none =>
    rw [hl] at h
    exact absurd rfl h
  | some v => rfl

theorem dinsertA_length_contains {α : Type} (m : List (String × α))
    (k : String) (v : α) (h : (m.map Prod.fst).contains k) :
    (dinsertA m k v).length = m.length := by
  unfold dinsertA
  rw [if_pos h, List.length_map]

theorem dinsertA_keys_contains {α : Type} (m : List (String × α))
    (k : String) (v : α) (h : (m.map Prod.fst).contains k) :
    (dinsertA m k v).map Prod.fst = m.map Prod.fst := by
  unfold dinsertA
  rw [if_pos h, List.map_map]
  apply List.map_congr_left
  intro kv _
  by_cases hk : kv.1 = k
  · simp [Function.comp, hk]
  · simp [Function.comp, hk]

theorem dinsertA_keys_not_contains {α : Type} (m : List (String × α))
    (k : String) (v : α) (h : ¬ (m.map Prod.fst).contains k) :
    (dinsertA m k v).map Prod.fst = m.map Prod.fst ++ [k] := by
  unfold dinsertA
  rw [if_neg h, List.map_append]
  rfl

theorem lookup_of_mem_nodup {α : Type} (m : List (String × α))
    (hnd : (m.map Prod.fst).Nodup) :
    ∀ kv ∈ m, m.lookup kv.1 = some kv.2 := by
  induction m with
  | nil => intro kv h; cases h
  | cons a t ih =>
    intro kv hkv
    obtain ⟨a1, a2⟩ := a
    rcases List.mem_cons.mp hkv with h | h
    · subst h
      simp [List.lookup_cons]
    · have hne : kv.1 ≠ a1 := by
        intro he
        have h2 : kv.1 ∈ t.map Prod.fst := List.mem_map_of_mem Prod.fst h
        rw [he] at h2
        exact (List.nodup_cons.mp hnd).1 h2
      have hb : (kv.1 == a1) = false := beq_false_of_ne hne
      rw [List.lookup_cons]
      simp only [hb]
      exact ih (List.nodup_cons.mp hnd).2 kv h

theorem uf_nonroot_eq_countP (m : List (String × String)) :
    uf_nonroot m = m.countP (fun kv => kv.2 ≠ kv.1) := by
  unfold uf_nonroot
  rw [List.countP_eq_length_filter]

/-- Replacing the (unique) non-root entry of key k with another non-root
value keeps the non-root count. -/
theorem uf_nonroot_dinsertA_nonroot (m : List (String × String))
    (k v : String) (hnd : (m.map Prod.fst).Nodup) (hv : v ≠ k) (b : String)
    (hb : m.lookup k = some b) (hbk : b ≠ k) :
    uf_nonroot (dinsertA m k v) = uf_nonroot m := by
  have hc : (m.map Prod.fst).contains k :=
    lookup_some_contains m k b hb
  unfold dinsertA
  rw [if_pos hc, uf_nonroot_eq_countP, uf_nonroot_eq_countP, List.countP_map]
  apply List.countP_congr
  intro kv hkv
  by_cases hk : kv.1 = k
  · have hlk : m.lookup kv.1 = some kv.2 := lookup_of_mem_nodup m hnd kv hkv
    rw [hk] at hlk
    rw [hb] at hlk
    have hvb : kv.2 = b := by
      cases hlk
      rfl
    simp [Function.comp, hk, hvb, hbk, hv]
  · simp [Function.comp, hk]

theorem countP_or_key : ∀ (t : List (String × String)) (k : String),
    (t.map Prod.fst).Nodup → t.lookup k = some k →
    t.countP (fun kv => decide (kv.2 ≠ kv.1) || decide (kv.1 = k)) =
      t.countP (fun kv => decide (kv.2 ≠ kv.1)) + 1 := by
  intro t
  induction t with
  | nil =>
    intro k _ hlk
    cases hlk
  | cons a t ih =>
    intro k hnd hlk
    obtain ⟨a1, a2⟩ := a
    by_cases hk : a1 = k
    · have hnmem : a1 ∉ t.map Prod.fst := (List.nodup_cons.mp hnd).1
      have hlk2 : ((a1, a2) :: t).lookup k = some a2 := by
        have hb : (k == a1) = true := by simp [hk]
        simp [List.lookup_cons, hb]
      rw [hlk] at hlk2
      have ha2 : a2 = k := by
        cases hlk2
        rfl
      have hrest : t.countP (fun kv : String × String =>
          decide (kv.2 ≠ kv.1) || decide (kv.1 = k)) =
          t.countP (fun kv : String × String => decide (kv.2 ≠ kv.1)) := by
        apply List.countP_congr
        intro kv hkv
        have hne : kv.1 ≠ k := by
          intro he
          have h2 : kv.1 ∈ t.map Prod.fst := List.mem_map_of_mem Prod.fst hkv
          rw [he, ← hk] at h2
          exact hnmem h2
        simp [hne]
      rw [List.countP_cons, List.countP_cons, hrest]
      simp [ha2, hk]
    · have hb2 : (k == a1) = false := beq_false_of_ne (fun h => hk h.symm)
      have hlkt : t.lookup k = some k := by
        rw [List.lookup_cons] at hlk
        simpa [hb2] using hlk
      have hstep := ih k (List.nodup_cons.mp hnd).2 hlkt
      rw [List.countP_cons, List.countP_cons, hstep]
      have hne : ¬ a1 = k := hk
      simp [hne]
      omega

/-- Redirecting a root entry to another value adds one non-root entry. -/
theorem uf_nonroot_dinsertA_root (m : List (String × String))
    (k v : String) (hnd : (m.map Prod.fst).Nodup)
    (hroot : uf_get m k = k) (hv : v ≠ k) :
    uf_nonroot (dinsertA m k v) = uf_nonroot m + 1 := by
  by_cases hc : (m.map Prod.fst).contains k
  · have hlk : m.lookup k = some k := by
      rcases lookup_contains_some m k hc with ⟨v0, hv0⟩
      unfold uf_get at hroot
      rw [hv0] at hroot
      simp at hroot
      rw [hv0, hroot]
    unfold dinsertA
    rw [if_pos hc, uf_nonroot_eq_countP, uf_nonroot_eq_countP, List.countP_map]
    have hsplit : ∀ kv ∈ m, ((fun kv : String × String => decide (kv.2 ≠ kv.1)) ∘
        (fun kv => if kv.1 = k then (k, v) else kv)) kv =
        ((fun kv : String × String => decide (kv.2 ≠ kv.1) ||
          decide (kv.1 = k)) kv) := by
      intro kv hkv
      by_cases hk : kv.1 = k
      · have hlk2 : m.lookup kv.1 = some kv.2 := lookup_of_mem_nodup m hnd kv hkv
        rw [hk, hlk] at hlk2
        have hvb : kv.2 = k := by
          cases hlk2
          rfl
        simp [Function.comp, hk, hvb, hv]
      · simp [Function.comp, hk]
    rw [List.countP_congr (fun kv hkv =>
      by rw [hsplit kv hkv] : ∀ kv ∈ m, _ ↔ _)]
    exact countP_or_key m k hnd hlk
  · unfold dinsertA
    rw [if_neg hc, uf_nonroot_eq_countP, uf_nonroot_eq_countP,
      List.countP_append]
    simp [hv]

theorem pget_iter_zero (m : List (String × String)) (x : String) :
    pget_iter m 0 x = x := rfl

theorem pget_iter_succ (m : List (String × String)) (k : Nat) (x : String) :
    pget_iter m (k + 1) x = pget_iter m k (uf_get m x) := rfl

theorem pget_iter_one (m : List (String × String)) (x : String) :
    pget_iter m 1 x = uf_get m x := rfl

/-- A well-formed parent map has no two-cycles. -/
theorem uf_no_two_cycle (m : List (String × String)) (h : UFGood m)
    (x : String) (hx : uf_get m x ≠ x) : uf_get m (uf_get m x) ≠ x := by
  intro hxy
  have halt : ∀ k,
      (pget_iter m k x = x ∧ pget_iter m k (uf_get m x) = uf_get m x) ∨
      (pget_iter m k x = uf_get m x ∧ pget_iter m k (uf_get m x) = x) := by
    intro k
    induction k with
    | zero => exact Or.inl ⟨rfl, rfl⟩
    | succ k ih =>
      have e1 : pget_iter m (k + 1) x = pget_iter m k (uf_get m x) := rfl
      have e2 : pget_iter m (k + 1) (uf_get m x) = pget_iter m k x := by
        show pget_iter m k (uf_get m (uf_get m x)) = pget_iter m k x
        rw [hxy]
      rcases ih with ⟨h1, h2⟩ | ⟨h1, h2⟩
      · exact Or.inr ⟨by rw [e1, h2], by rw [e2, h1]⟩
      · exact Or.inl ⟨by rw [e1, h2], by rw [e2, h1]⟩
  rcases h.2 x with ⟨k, _, hroot⟩
  rcases halt k with ⟨h1, _⟩ | ⟨h1, _⟩
  · rw [h1] at hroot
    exact hx hroot
  · rw [h1] at hroot
    unfold is_rootU at hroot
    rw [hxy] at hroot
    exact hx hroot.symm

/-- The effect of one path-compression write parent[x] := grandparent:
every chain reaches the same root, at most as slowly, and the map stays
well formed with the same non-root count, length and keys. -/
theorem compress_step (m : List (String × String)) (x : String)
    (hgood : UFGood m) (hx : uf_get m x ≠ x) :
    (∀ z, uf_get (dinsertA m x (uf_get m (uf_get m x))) z =
      if z = x then uf_get m (uf_get m x) else uf_get m z) ∧
    (∀ k z, is_rootU m (pget_iter m k z) →
      ∃ k2, k2 ≤ k ∧
        pget_iter (dinsertA m x (uf_get m (uf_get m x))) k2 z =
          pget_iter m k z ∧
        is_rootU (dinsertA m x (uf_get m (uf_get m x)))
          (pget_iter (dinsertA m x (uf_get m (uf_get m x))) k2 z)) ∧
    UFGood (dinsertA m x (uf_get m (uf_get m x))) ∧
    uf_nonroot (dinsertA m x (uf_get m (uf_get m x))) = uf_nonroot m ∧
    (dinsertA m x (uf_get m (uf_get m x))).length = m.length ∧
    (dinsertA m x (uf_get m (uf_get m x))).map Prod.fst = m.map Prod.fst ∧
    (∀ z r, rootRel (dinsertA m x (uf_get m (uf_get m x))) z r ↔
      rootRel m z r) := by
  have hcyc : uf_get m (uf_get m x) ≠ x := uf_no_two_cycle m hgood x hx
  have hlook : m.lookup x = some (uf_get m x) := uf_get_lookup m x hx
  have hcont : (m.map Prod.fst).contains x :=
    lookup_some_contains m x _ hlook
  have hget : ∀ z, uf_get (dinsertA m x (uf_get m (uf_get m x))) z =
      if z = x then uf_get m (uf_get m x) else uf_get m z :=
    fun z => uf_get_dinsertA m x z _
  have hkeys : (dinsertA m x (uf_get m (uf_get m x))).map Prod.fst =
      m.map Prod.fst := dinsertA_keys_contains m x _ hcont
  have hlen : (dinsertA m x (uf_get m (uf_get m x))).length = m.length :=
    dinsertA_length_contains m x _ hcont
  have hnr : uf_nonroot (dinsertA m x (uf_get m (uf_get m x))) =
      uf_nonroot m :=
    uf_nonroot_dinsertA_nonroot m x _ hgood.1 hcyc (uf_get m x) hlook hx
  have main : ∀ k z, is_rootU m (pget_iter m k z) →
      ∃ k2, k2 ≤ k ∧
        pget_iter (dinsertA m x (uf_get m (uf_get m x))) k2 z =
          pget_iter m k z ∧
        is_rootU (dinsertA m x (uf_get m (uf_get m x)))
          (pget_iter (dinsertA m x (uf_get m (uf_get m x))) k2 z) := by
    intro k
    induction k using Nat.strong_induction_on with
    | _ k ih =>
      intro z hz
      by_cases hzr : uf_get m z = z
      · have hval : pget_iter m k z = z := root_stable m z hzr k
        have hzx : z ≠ x := fun he => hx (he ▸ hzr)
        refine ⟨0, Nat.zero_le _, ?_, ?_⟩
        · rw [hval]
          rfl
        · rw [pget_iter_zero]
          unfold is_rootU
          rw [hget z, if_neg hzx]
          exact hzr
      · cases k with
        | zero => exact absurd hz hzr
        | succ k0 =>
          have hstep : pget_iter m (k0 + 1) z = pget_iter m k0 (uf_get m z) :=
            rfl
          by_cases hzx : z = x
          · subst hzx
            have harg : uf_get (dinsertA m z (uf_get m (uf_get m z))) z =
                uf_get m (uf_get m z) := by
              rw [hget z]
              simp
            by_cases hpxr : uf_get m (uf_get m z) = uf_get m z
            · refine ⟨1, by omega, ?_, ?_⟩
              · rw [pget_iter_one, harg, hstep, root_stable m _ hpxr k0, hpxr]
              · rw [pget_iter_one, harg]
                unfold is_rootU
                rw [hget _, if_neg hcyc, hpxr]
                exact hpxr
            · cases k0 with
              | zero => exact absurd hz hpxr
              | succ k1 =>
                have hchain : pget_iter m (k1 + 2) z =
                    pget_iter m k1 (uf_get m (uf_get m z)) := rfl
                rw [hchain] at hz
                rcases ih k1 (by omega) (uf_get m (uf_get m z)) hz with
                  ⟨k2, hle, hval, hroot2⟩
                refine ⟨k2 + 1, by omega, ?_, ?_⟩
                · rw [pget_iter_succ, harg, hval, hchain]
                · rw [pget_iter_succ, harg]
                  exact hroot2
          · rw [hstep] at hz
            have harg : uf_get (dinsertA m x (uf_get m (uf_get m x))) z =
                uf_get m z := by
              rw [hget z, if_neg hzx]
            rcases ih k0 (by omega) (uf_get m z) hz with ⟨k2, hle, hval, hroot2⟩
            refine ⟨k2 + 1, by omega, ?_, ?_⟩
            · rw [pget_iter_succ, harg, hval, hstep]
            · rw [pget_iter_succ, harg]
              exact hroot2
  have hgood2 : UFGood (dinsertA m x (uf_get m (uf_get m x))) := by
    refine ⟨by rw [hkeys]; exact hgood.1, ?_⟩
    intro z
    rcases hgood.2 z with ⟨k, hk, hroot⟩
    rcases main k z hroot with ⟨k2, hle, _, hroot2⟩
    exact ⟨k2, by omega, hroot2⟩
  have hfwd : ∀ z r, rootRel m z r →
      rootRel (dinsertA m x (uf_get m (uf_get m x))) z r := by
    intro z r hzr
    rcases hzr with ⟨hr, k, e⟩
    have hroot : is_rootU m (pget_iter m k z) := by
      rw [e]
      exact hr
    rcases main k z hroot with ⟨k2, _, hval, hroot2⟩
    refine ⟨?_, k2, ?_⟩
    · rw [← e, ← hval]
      exact hroot2
    · rw [hval, e]
  have hiff : ∀ z r, rootRel (dinsertA m x (uf_get m (uf_get m x))) z r ↔
      rootRel m z r := by
    intro z r
    constructor
    · intro h2
      rcases hgood.2 z with ⟨k, _, hroot⟩
      have h0 : rootRel m z (pget_iter m k z) := ⟨hroot, k, rfl⟩
      have h0b := hfwd z _ h0
      rw [rootRel_unique _ z r _ h2 h0b]
      exact h0
    · exact hfwd z r
  exact ⟨hget, main, hgood2, hnr, hlen, hkeys, hiff⟩

/-- find with path halving: given enough fuel, the returned name is the
root of the argument's chain, and the compressed map is well formed with
the same keys, the same non-root count and the same root assignment. -/
theorem uf_find_aux_spec (fuel : Nat) :
    ∀ (m : List (String × String)) (x : String), UFGood m →
    (∃ k, k < fuel ∧ is_rootU m (pget_iter m k x)) →
    rootRel m x (uf_find_aux fuel m x).1 ∧
    UFGood (uf_find_aux fuel m x).2 ∧
    uf_nonroot (uf_find_aux fuel m x).2 = uf_nonroot m ∧
    (uf_find_aux fuel m x).2.map Prod.fst = m.map Prod.fst ∧
    (∀ z r, rootRel (uf_find_aux fuel m x).2 z r ↔ rootRel m z r) ∧
    is_rootU (uf_find_aux fuel m x).2 (uf_find_aux fuel m x).1 := by
  induction fuel with
  | zero =>
    intro m x _ h
    rcases h with ⟨k, hk, _⟩
    omega
  | succ fuel ih =>
    intro m x hgood hex
    by_cases hroot : uf_get m x = x
    · have heq : uf_find_aux (fuel + 1) m x = (x, m) := by
        unfold uf_find_aux
        rw [if_pos hroot]
      rw [heq]
      exact ⟨⟨hroot, 0, rfl⟩, hgood, rfl, rfl, fun z r => Iff.rfl, hroot⟩
    · have heq : uf_find_aux (fuel + 1) m x =
          uf_find_aux fuel (dinsertA m x (uf_get m (uf_get m x)))
            (uf_get m (uf_get m x)) := by
        conv_lhs => unfold uf_find_aux
        rw [if_neg hroot]
      obtain ⟨hget, main, hgood2, hnr, hlen, hkeys, hiff⟩ :=
        compress_step m x hgood hroot
      have hg : ∃ k, k < fuel ∧
          is_rootU (dinsertA m x (uf_get m (uf_get m x)))
            (pget_iter (dinsertA m x (uf_get m (uf_get m x))) k
              (uf_get m (uf_get m x))) := by
        rcases hex with ⟨k, hk, hrootk⟩
        match k, hk, hrootk with
        | 0, hk, hrootk => exact absurd hrootk hroot
        | 1, hk, hrootk =>
          rw [pget_iter_one] at hrootk
          have hgg : uf_get m (uf_get m x) = uf_get m x := hrootk
          have hrg : is_rootU m (pget_iter m 0 (uf_get m (uf_get m x))) := by
            rw [pget_iter_zero, hgg]
            exact hrootk
          rcases main 0 _ hrg with ⟨k2, hk2, _, hroot2⟩
          exact ⟨k2, by omega, hroot2⟩
        | (k0 + 2), hk, hrootk =>
          have hc : pget_iter m (k0 + 2) x =
              pget_iter m k0 (uf_get m (uf_get m x)) := rfl
          rw [hc] at hrootk
          rcases main k0 _ hrootk with ⟨k2, hk2, _, hroot2⟩
          exact ⟨k2, by omega, hroot2⟩
      obtain ⟨hrel, hgoodF, hnrF, hkeysF, hiffF, hrootF⟩ := ih _ _ hgood2 hg
      rw [heq]
      refine ⟨?_, hgoodF, by rw [hnrF, hnr], by rw [hkeysF, hkeys],
        fun z r => (hiffF z r).trans (hiff z r), hrootF⟩
      have hrel2 := (hiff _ _).mp hrel
      rcases hrel2 with ⟨hr, k', e⟩
      refine ⟨hr, k' + 2, ?_⟩
      have hc : pget_iter m (k' + 2) x =
          pget_iter m k' (uf_get m (uf_get m x)) := rfl
      rw [hc, e]

theorem rootRel_self_iff (m : List (String × String)) (r : String) :
    rootRel m r r ↔ is_rootU m r :=
  ⟨fun h => h.1, fun h => ⟨h, 0, rfl⟩⟩

theorem uf_rootRel_total (m : List (String × String)) (h : UFGood m)
    (z : String) : ∃ r, rootRel m z r := by
  rcases h.2 z with ⟨k, _, hroot⟩
  exact ⟨pget_iter m k z, hroot, k, rfl⟩

theorem contains_iff_mem (l : List String) (a : String) :
    l.contains a = true ↔ a ∈ l :=
  ⟨fun h => List.elem_iff.mp h, fun h => List.elem_iff.mpr h⟩

/-- find at the call-site fuel: the chain bound is at most the number of
entries, so m.length + 1 fuel always suffices on a well-formed map. -/
theorem uf_find_spec (m : List (String × String)) (x : String) (h : UFGood m) :
    rootRel m x (uf_find m x).1 ∧
    UFGood (uf_find m x).2 ∧
    uf_nonroot (uf_find m x).2 = uf_nonroot m ∧
    (uf_find m x).2.map Prod.fst = m.map Prod.fst ∧
    (∀ z r, rootRel (uf_find m x).2 z r ↔ rootRel m z r) ∧
    is_rootU (uf_find m x).2 (uf_find m x).1 := by
  have hb : uf_nonroot m ≤ m.length := by
    unfold uf_nonroot
    exact List.length_filter_le _ _
  rcases h.2 x with ⟨k, hk, hroot⟩
  exact uf_find_aux_spec (m.length + 1) m x h ⟨k, by omega, hroot⟩

/-- Maps with pointwise equal parent functions have the same chains. -/
theorem uf_pointwise (m1 m2 : List (String × String))
    (h : ∀ z, uf_get m1 z = uf_get m2 z) :
    ∀ z r, rootRel m1 z r ↔ rootRel m2 z r := by
  intro z r
  have hp : ∀ k x, pget_iter m1 k x = pget_iter m2 k x :=
    fun k x => pget_iter_congr m1 m2 h k x
  unfold rootRel is_rootU
  rw [h r]
  constructor
  · rintro ⟨hr, k, e⟩
    exact ⟨hr, k, (hp k z).symm.trans e⟩
  · rintro ⟨hr, k, e⟩
    exact ⟨hr, k, (hp k z).trans e⟩

/-- setdefault(k, k) leaves the parent function pointwise unchanged and
adds the key. -/
theorem uf_setdefault_spec (m : List (String × String)) (k : String)
    (h : UFGood m) :
    (∀ z, uf_get (uf_setdefault m k) z = uf_get m z) ∧
    UFGood (uf_setdefault m k) ∧
    uf_nonroot (uf_setdefault m k) = uf_nonroot m ∧
    (∀ z r, rootRel (uf_setdefault m k) z r ↔ rootRel m z r) ∧
    k ∈ (uf_setdefault m k).map Prod.fst ∧
    (∀ z ∈ m.map Prod.fst, z ∈ (uf_setdefault m k).map Prod.fst) := by
  unfold uf_setdefault
  by_cases hc : (m.map Prod.fst).contains k
  · rw [if_pos hc]
    exact ⟨fun z => rfl, h, rfl, fun z r => Iff.rfl,
      (contains_iff_mem _ _).mp hc, fun z hz => hz⟩
  · rw [if_neg hc]
    have hget : ∀ z, uf_get (m ++ [(k, k)]) z = uf_get m z := by
      intro z
      unfold uf_get
      rw [lookup_append_str]
      cases hl : m.lookup z with
      | some v => rfl
      | none =>
        by_cases hz : z = k
        · subst hz
          simp [List.lookup_cons]
        · have hzk : (z == k) = false := beq_false_of_ne hz
          simp [List.lookup_cons, hzk]
    have hiff := uf_pointwise (m ++ [(k, k)]) m hget
    have hnr : uf_nonroot (m ++ [(k, k)]) = uf_nonroot m := by
      unfold uf_nonroot
      rw [List.filter_append]
      simp
    refine ⟨hget, ⟨?_, ?_⟩, hnr, hiff, ?_, ?_⟩
    · rw [List.map_append]
      refine List.nodup_append.mpr ⟨h.1, List.nodup_singleton _, ?_⟩
      intro a ha hb
      simp only [List.map_cons, List.map_nil, List.mem_singleton] at hb
      subst hb
      exact hc ((contains_iff_mem _ _).mpr ha)
    · intro x
      rcases h.2 x with ⟨k0, hk0, hroot⟩
      refine ⟨k0, by rw [hnr]; exact hk0, ?_⟩
      have hp := pget_iter_congr (m ++ [(k, k)]) m hget k0 x
      unfold is_rootU
      rw [hp, hget]
      exact hroot
    · rw [List.map_append]
      simp
    · intro z hz
      rw [List.map_append]
      exact List.mem_append_left _ hz

/-- Chains after linking root rx under root ry: every chain of m reaches
the same root, except that rx's tree now roots at ry. -/
theorem chain_transfer_link (m : List (String × String)) (rx ry : String)
    (hrx : is_rootU m rx) (hry : is_rootU m ry) (hne : ry ≠ rx) :
    ∀ k z, is_rootU m (pget_iter m k z) →
      ∃ k2, k2 ≤ k + 1 ∧
        pget_iter (dinsertA m rx ry) k2 z =
          (if pget_iter m k z = rx then ry else pget_iter m k z) ∧
        is_rootU (dinsertA m rx ry) (pget_iter (dinsertA m rx ry) k2 z) := by
  have hget : ∀ z, uf_get (dinsertA m rx ry) z =
      if z = rx then ry else uf_get m z := fun z => uf_get_dinsertA m rx z ry
  have hryM : is_rootU (dinsertA m rx ry) ry := by
    unfold is_rootU
    rw [hget, if_neg hne]
    exact hry
  have hfix : ∀ z, uf_get m z = z →
      ∃ k2, k2 ≤ 1 ∧
        pget_iter (dinsertA m rx ry) k2 z =
          (if z = rx then ry else z) ∧
        is_rootU (dinsertA m rx ry) (pget_iter (dinsertA m rx ry) k2 z) := by
    intro z hz
    by_cases hzrx : z = rx
    · subst hzrx
      refine ⟨1, by omega, ?_, ?_⟩
      · rw [pget_iter_one, hget, if_pos rfl, if_pos rfl]
      · rw [pget_iter_one, hget, if_pos rfl]
        exact hryM
    · refine ⟨0, by omega, ?_, ?_⟩
      · rw [pget_iter_zero, if_neg hzrx]
      · rw [pget_iter_zero]
        unfold is_rootU
        rw [hget, if_neg hzrx]
        exact hz
  intro k
  induction k with
  | zero =>
    intro z hz
    rw [pget_iter_zero] at hz
    rcases hfix z hz with ⟨k2, hle, hval, hroot2⟩
    rw [pget_iter_zero]
    exact ⟨k2, by omega, hval, hroot2⟩
  | succ k ih =>
    intro z hz
    by_cases hzr : uf_get m z = z
    · have hst : pget_iter m (k + 1) z = z := root_stable m z hzr (k + 1)
      rcases hfix z hzr with ⟨k2, hle, hval, hroot2⟩
      rw [hst]
      exact ⟨k2, by omega, hval, hroot2⟩
    · have hzrx : z ≠ rx := fun he => hzr (he ▸ hrx)
      rw [pget_iter_succ] at hz
      rcases ih (uf_get m z) hz with ⟨k2, hle, hval, hroot2⟩
      have hstep : pget_iter (dinsertA m rx ry) (k2 + 1) z =
          pget_iter (dinsertA m rx ry) k2 (uf_get m z) := by
        rw [pget_iter_succ, hget, if_neg hzrx]
      refine ⟨k2 + 1, by omega, ?_, ?_⟩
      · rw [hstep, hval, pget_iter_succ]
      · rw [hstep]
        exact hroot2

/-- The effect of parent[rx] := ry on a well-formed map when rx and ry
are distinct roots: keys at most grow by rx, the non-root count grows by
one, and every root r is renamed to ry exactly when r = rx. -/
theorem link_step (m : List (String × String)) (rx ry : String)
    (hgood : UFGood m) (hrx : is_rootU m rx) (hry : is_rootU m ry)
    (hne : ry ≠ rx) :
    UFGood (dinsertA m rx ry) ∧
    (∀ z ∈ m.map Prod.fst, z ∈ (dinsertA m rx ry).map Prod.fst) ∧
    (∀ z r, rootRel m z r →
      rootRel (dinsertA m rx ry) z (if r = rx then ry else r)) := by
  have hnr : uf_nonroot (dinsertA m rx ry) = uf_nonroot m + 1 :=
    uf_nonroot_dinsertA_root m rx ry hgood.1 hrx hne
  have hfwd : ∀ z r, rootRel m z r →
      rootRel (dinsertA m rx ry) z (if r = rx then ry else r) := by
    intro z r hzr
    rcases hzr with ⟨hr, k, e⟩
    have hroot : is_rootU m (pget_iter m k z) := by
      rw [e]
      exact hr
    rcases chain_transfer_link m rx ry hrx hry hne k z hroot with
      ⟨k2, _, hval, hroot2⟩
    rw [e] at hval
    refine ⟨?_, k2, hval⟩
    rw [← hval]
    exact hroot2
  refine ⟨⟨?_, ?_⟩, ?_, hfwd⟩
  · by_cases hc : (m.map Prod.fst).contains rx
    · rw [dinsertA_keys_contains m rx ry hc]
      exact hgood.1
    · rw [dinsertA_keys_not_contains m rx ry hc]
      refine List.nodup_append.mpr ⟨hgood.1, List.nodup_singleton _, ?_⟩
      intro a ha hb
      simp only [List.mem_singleton] at hb
      subst hb
      exact hc ((contains_iff_mem _ _).mpr ha)
  · intro z
    rcases hgood.2 z with ⟨k, hk, hroot⟩
    rcases chain_transfer_link m rx ry hrx hry hne k z hroot with
      ⟨k2, hle, _, hroot2⟩
    exact ⟨k2, by omega, hroot2⟩
  · intro z hz
    by_cases hc : (m.map Prod.fst).contains rx
    · rw [dinsertA_keys_contains m rx ry hc]
      exact hz
    · rw [dinsertA_keys_not_contains m rx ry hc]
      exact List.mem_append_left _ hz

/-- union(x, y) keeps the map well formed, keeps every key, preserves
every existing same-root relation and puts x and y in one tree. -/
theorem uf_union_spec (m : List (String × String)) (x y : String)
    (h : UFGood m) :
    UFGood (uf_union m x y) ∧
    (∀ z ∈ m.map Prod.fst, z ∈ (uf_union m x y).map Prod.fst) ∧
    (∀ a b, sameRoot m a b → sameRoot (uf_union m x y) a b) ∧
    sameRoot (uf_union m x y) x y := by
  obtain ⟨hrelx, hgood1, _, hkeys1, hiff1, hrootx⟩ := uf_find_spec m x h
  obtain ⟨hrely, hgood2, _, hkeys2, hiff2, hrooty⟩ :=
    uf_find_spec (uf_find m x).2 y hgood1
  have hrelx2 : rootRel (uf_find (uf_find m x).2 y).2 x (uf_find m x).1 :=
    (hiff2 _ _).mpr ((hiff1 _ _).mpr hrelx)
  have hrely2 : rootRel (uf_find (uf_find m x).2 y).2 y
      (uf_find (uf_find m x).2 y).1 := (hiff2 _ _).mpr hrely
  have htrans : ∀ z r, rootRel (uf_find (uf_find m x).2 y).2 z r ↔
      rootRel m z r := fun z r => (hiff2 z r).trans (hiff1 z r)
  have hkeys : ∀ z ∈ m.map Prod.fst,
      z ∈ (uf_find (uf_find m x).2 y).2.map Prod.fst := by
    intro z hz
    rw [hkeys2, hkeys1]
    exact hz
  unfold uf_union
  by_cases hne : (uf_find m x).1 ≠ (uf_find (uf_find m x).2 y).1
  · rw [if_pos hne]
    have hrootx2 : is_rootU (uf_find (uf_find m x).2 y).2 (uf_find m x).1 :=
      hrelx2.1
    have hrooty2 : is_rootU (uf_find (uf_find m x).2 y).2
        (uf_find (uf_find m x).2 y).1 := hrely2.1
    obtain ⟨hgood3, hkeys3, hfwd3⟩ :=
      link_step (uf_find (uf_find m x).2 y).2 (uf_find m x).1
        (uf_find (uf_find m x).2 y).1 hgood2 hrootx2 hrooty2
        (fun he => hne he.symm)
    refine ⟨hgood3, fun z hz => hkeys3 z (hkeys z hz), ?_, ?_⟩
    · intro a b hab
      rcases hab with ⟨r, hra, hrb⟩
      exact ⟨if r = (uf_find m x).1 then (uf_find (uf_find m x).2 y).1 else r,
        hfwd3 a r ((htrans a r).mpr hra), hfwd3 b r ((htrans b r).mpr hrb)⟩
    · refine ⟨(uf_find (uf_find m x).2 y).1, ?_, ?_⟩
      · have := hfwd3 x (uf_find m x).1 hrelx2
        rw [if_pos rfl] at this
        exact this
      · have := hfwd3 y (uf_find (uf_find m x).2 y).1 hrely2
        rw [if_neg (fun he => hne he.symm)] at this
        exact this
  · rw [if_neg hne]
    push_neg at hne
    refine ⟨hgood2, hkeys, ?_, ?_⟩
    · intro a b hab
      rcases hab with ⟨r, hra, hrb⟩
      exact ⟨r, (htrans a r).mpr hra, (htrans b r).mpr hrb⟩
    · exact ⟨(uf_find (uf_find m x).2 y).1, hne ▸ hrelx2, hrely2⟩

/-- The union loop of _group_pairs over any starting map. -/
theorem uf_build_go (ps : List (String × String × ℚ)) :
    ∀ m, UFGood m →
    UFGood (ps.foldl (fun m p =>
      uf_union (uf_setdefault (uf_setdefault m p.1) p.2.1) p.1 p.2.1) m) ∧
    (∀ z ∈ m.map Prod.fst, z ∈ (ps.foldl (fun m p =>
      uf_union (uf_setdefault (uf_setdefault m p.1) p.2.1) p.1 p.2.1)
        m).map Prod.fst) ∧
    (∀ a b, sameRoot m a b → sameRoot (ps.foldl (fun m p =>
      uf_union (uf_setdefault (uf_setdefault m p.1) p.2.1) p.1 p.2.1) m) a b) ∧
    (∀ p ∈ ps,
      p.1 ∈ (ps.foldl (fun m p =>
        uf_union (uf_setdefault (uf_setdefault m p.1) p.2.1) p.1 p.2.1)
          m).map Prod.fst ∧
      p.2.1 ∈ (ps.foldl (fun m p =>
        uf_union (uf_setdefault (uf_setdefault m p.1) p.2.1) p.1 p.2.1)
          m).map Prod.fst ∧
      sameRoot (ps.foldl (fun m p =>
        uf_union (uf_setdefault (uf_setdefault m p.1) p.2.1) p.1 p.2.1) m)
        p.1 p.2.1) := by
  induction ps with
  | nil =>
    intro m h
    exact ⟨h, fun z hz => hz, fun a b hab => hab, fun p hp => absurd hp
      (List.not_mem_nil p)⟩
  | cons p ps ih =>
    intro m h
    obtain ⟨hg1u, hgood1, _, hiff1, hk1self, hk1⟩ := uf_setdefault_spec m p.1 h
    obtain ⟨hg2u, hgood2, _, hiff2, hk2self, hk2⟩ :=
      uf_setdefault_spec (uf_setdefault m p.1) p.2.1 hgood1
    obtain ⟨hgood3, hk3, hpres3, hsame3⟩ :=
      uf_union_spec (uf_setdefault (uf_setdefault m p.1) p.2.1) p.1 p.2.1
        hgood2
    obtain ⟨hgoodF, hkF, hpresF, hpairsF⟩ :=
      ih (uf_union (uf_setdefault (uf_setdefault m p.1) p.2.1) p.1 p.2.1)
        hgood3
    rw [List.foldl_cons]
    have hsame12 : ∀ a b, sameRoot m a b →
        sameRoot (uf_setdefault (uf_setdefault m p.1) p.2.1) a b := by
      intro a b hab
      rcases hab with ⟨r, hra, hrb⟩
      exact ⟨r, (hiff2 a r).mpr ((hiff1 a r).mpr hra),
        (hiff2 b r).mpr ((hiff1 b r).mpr hrb)⟩
    refine ⟨hgoodF, ?_, ?_, ?_⟩
    · intro z hz
      exact hkF z (hk3 z (hk2 z (hk1 z hz)))
    · intro a b hab
      exact hpresF a b (hpres3 a b (hsame12 a b hab))
    · intro q hq
      rcases List.mem_cons.mp hq with hq | hq
      · subst hq
        refine ⟨hkF _ (hk3 _ (hk2 _ hk1self)), hkF _ (hk3 _ hk2self), ?_⟩
        exact hpresF _ _ hsame3
      · exact hpairsF q hq

/-- The parent map built from the reported pairs: well formed, with every
reported URL among its keys and every reported pair sharing a root. -/
theorem uf_build_spec (ps : List (String × String × ℚ)) :
    UFGood (uf_build ps) ∧
    ∀ p ∈ ps, p.1 ∈ (uf_build ps).map Prod.fst ∧
      p.2.1 ∈ (uf_build ps).map Prod.fst ∧
      sameRoot (uf_build ps) p.1 p.2.1 := by
  have hnil : UFGood ([] : List (String × String)) := by
    refine ⟨List.nodup_nil, ?_⟩
    intro x
    exact ⟨0, Nat.le_refl _, rfl⟩
  obtain ⟨hgood, _, _, hpairs⟩ := uf_build_go ps [] hnil
  exact ⟨hgood, hpairs⟩

theorem lookup_adjust (gs : List (String × List String)) (root url : String)
    (z : String) :
    ((gs.map (fun kv => if kv.1 = root then (kv.1, kv.2 ++ [url]) else kv)).lookup
        z) =
      if z = root then (gs.lookup root).map (fun g => g ++ [url])
      else gs.lookup z := by
  induction gs with
  | nil =>
    by_cases hz : z = root <;> simp [hz]
  | cons a t ih =>
    obtain ⟨a1, a2⟩ := a
    by_cases ha : a1 = root
    · by_cases hz : z = root
      · simp [List.lookup_cons, ha, hz]
      · have hb : (z == root) = false := beq_false_of_ne hz
        simp [List.lookup_cons, ha, hz, hb, ih]
    · have hb2 : (root == a1) = false :=
        beq_false_of_ne (fun h => ha h.symm)
      by_cases hz : z = root
      · subst hz
        have hza : ¬ z = a1 := fun h => ha h.symm
        have hb3 : (z == a1) = false := beq_false_of_ne hza
        simp [List.lookup_cons, ha, hb2, hb3, ih]
      · by_cases hza : z = a1
        · simp [List.lookup_cons, ha, hz, hza, hb2]
        · have hb3 : (z == a1) = false := beq_false_of_ne hza
          simp [List.lookup_cons, ha, hz, hza, hb2, hb3, ih]

theorem addToGroup_lookup (gs : List (String × List String))
    (root url z : String) :
    (addToGroup gs root url).lookup z =
      if z = root then some (((gs.lookup root).getD []) ++ [url])
      else gs.lookup z := by
  unfold addToGroup
  by_cases hc : (gs.map Prod.fst).contains root
  · rw [if_pos hc, lookup_adjust]
    by_cases hz : z = root
    · subst hz
      rcases lookup_contains_some gs z hc with ⟨g0, hg0⟩
      rw [if_pos rfl, if_pos rfl, hg0]
      rfl
    · rw [if_neg hz, if_neg hz]
  · rw [if_neg hc, lookup_append_str]
    by_cases hz : z = root
    · subst hz
      rw [lookup_not_contains gs z hc]
      simp [List.lookup_cons]
    · rw [if_neg hz]
      cases hl : gs.lookup z with
      | some v => rfl
      | none =>
        have hzk : (z == root) = false := beq_false_of_ne hz
        simp [List.lookup_cons, hzk]

theorem addToGroup_keys_nodup (gs : List (String × List String))
    (root url : String) (h : (gs.map Prod.fst).Nodup) :
    ((addToGroup gs root url).map Prod.fst).Nodup := by
  unfold addToGroup
  by_cases hc : (gs.map Prod.fst).contains root
  · rw [if_pos hc, List.map_map]
    have he : (Prod.fst ∘ fun kv : String × List String =>
        if kv.1 = root then (kv.1, kv.2 ++ [url]) else kv) = Prod.fst := by
      funext kv
      by_cases hk : kv.1 = root <;> simp [hk]
    rw [he]
    exact h
  · rw [if_neg hc, List.map_append]
    refine List.nodup_append.mpr ⟨h, List.nodup_singleton _, ?_⟩
    intro a ha hb
    simp only [List.map_cons, List.map_nil, List.mem_singleton] at hb
    subst hb
    exact hc ((contains_iff_mem _ _).mpr ha)

theorem lookup_mem_snd {α : Type} (m : List (String × α)) (k : String)
    (v : α) (h : m.lookup k = some v) : v ∈ m.map Prod.snd := by
  induction m with
  | nil => simp [List.lookup] at h
  | cons a t ih =>
    obtain ⟨a1, a2⟩ := a
    rw [List.lookup_cons] at h
    cases hk : (k == a1) with
    | true =>
      rw [hk] at h
      simp only [Option.some.injEq] at h
      subst h
      simp
    | false =>
      rw [hk] at h
      exact List.mem_cons_of_mem _ (ih h)

theorem one_lt_length_of_two_mem {g : List String} {a b : String}
    (ha : a ∈ g) (hb : b ∈ g) (hne : a ≠ b) : 1 < g.length := by
  match g with
  | [] => cases ha
  | [x] =>
    rw [List.mem_singleton] at ha hb
    exact absurd (ha.trans hb.symm) hne
  | x :: y :: t => simp [List.length_cons]

/-- The grouping loop: buckets only grow, and every processed URL lands
in the bucket of its root (the root assignment never changes because
find preserves it). -/
theorem group_fold_spec (M : List (String × String)) (urls : List String) :
    ∀ (mc : List (String × String)) (gs : List (String × List String)),
    UFGood mc → (∀ z r, rootRel mc z r ↔ rootRel M z r) →
    (gs.map Prod.fst).Nodup →
    ((urls.foldl gstep (mc, gs)).2.map Prod.fst).Nodup ∧
    (∀ z g, gs.lookup z = some g →
      ∃ g2, (urls.foldl gstep (mc, gs)).2.lookup z = some g2 ∧
        ∀ u ∈ g, u ∈ g2) ∧
    (∀ u ∈ urls, ∀ r, rootRel M u r →
      ∃ g2, (urls.foldl gstep (mc, gs)).2.lookup r = some g2 ∧ u ∈ g2) := by
  induction urls with
  | nil =>
    intro mc gs _ _ hnd
    exact ⟨hnd, fun z g hg => ⟨g, hg, fun u hu => hu⟩,
      fun u hu => absurd hu (List.not_mem_nil u)⟩
  | cons url urls ih =>
    intro mc gs hgood hiff hnd
    obtain ⟨hrel, hgood2, _, _, hiff2, _⟩ := uf_find_spec mc url hgood
    have hiffM : ∀ z r, rootRel (uf_find mc url).2 z r ↔ rootRel M z r :=
      fun z r => (hiff2 z r).trans (hiff z r)
    have hstep : (url :: urls).foldl gstep (mc, gs) =
        urls.foldl gstep
          ((uf_find mc url).2, addToGroup gs (uf_find mc url).1 url) := rfl
    have hnd2 : ((addToGroup gs (uf_find mc url).1 url).map Prod.fst).Nodup :=
      addToGroup_keys_nodup gs _ url hnd
    obtain ⟨hndF, hpresF, hmemF⟩ :=
      ih (uf_find mc url).2 (addToGroup gs (uf_find mc url).1 url)
        hgood2 hiffM hnd2
    rw [hstep]
    have hpres1 : ∀ z g, gs.lookup z = some g →
        ∃ g2, (addToGroup gs (uf_find mc url).1 url).lookup z = some g2 ∧
          ∀ u ∈ g, u ∈ g2 := by
      intro z g hg
      rw [addToGroup_lookup]
      by_cases hz : z = (uf_find mc url).1
      · rw [if_pos hz, ← hz, hg]
        exact ⟨g ++ [url], rfl, fun u hu => List.mem_append_left _ hu⟩
      · rw [if_neg hz]
        exact ⟨g, hg, fun u hu => hu⟩
    refine ⟨hndF, ?_, ?_⟩
    · intro z g hg
      rcases hpres1 z g hg with ⟨g2, hg2, hsub⟩
      rcases hpresF z g2 hg2 with ⟨g3, hg3, hsub3⟩
      exact ⟨g3, hg3, fun u hu => hsub3 u (hsub u hu)⟩
    · intro u hu r hr
      rcases List.mem_cons.mp hu with hu | hu
      · subst hu
        have hrootM : rootRel M u (uf_find mc u).1 := (hiff u _).mp hrel
        have hru : r = (uf_find mc u).1 := rootRel_unique M u r _ hr hrootM
        have hself : (addToGroup gs (uf_find mc u).1 u).lookup r =
            some (((gs.lookup r).getD []) ++ [u]) := by
          rw [addToGroup_lookup, if_pos hru, hru]
        rcases hpresF r _ hself with ⟨g3, hg3, hsub3⟩
        exact ⟨g3, hg3, hsub3 u (List.mem_append_right _ (by simp))⟩
      · exact hmemF u hu r hr

/-- Any reported pair of distinct URLs ends up together in one of the
kept duplicate groups. -/
theorem group_pairs_together (ps : List (String × String × ℚ))
    (a b : String) (s : ℚ) (hne : a ≠ b) (hmem : (a, b, s) ∈ ps) :
    ∃ g ∈ group_pairs ps, a ∈ g ∧ b ∈ g := by
  obtain ⟨hgood, hpairs⟩ := uf_build_spec ps
  obtain ⟨hka, hkb, r, hra, hrb⟩ := hpairs (a, b, s) hmem
  obtain ⟨_, _, hmemF⟩ :=
    group_fold_spec (uf_build ps) ((uf_build ps).map Prod.fst) (uf_build ps)
      [] hgood (fun z r => Iff.rfl) List.nodup_nil
  rcases hmemF a hka r hra with ⟨ga, hga, hain⟩
  rcases hmemF b hkb r hrb with ⟨gb, hgb, hbin⟩
  rw [hga] at hgb
  obtain rfl : ga = gb := by
    cases hgb
    rfl
  have hsnd : ga ∈ ((((uf_build ps).map Prod.fst).foldl gstep
      (uf_build ps, [])).2.map Prod.snd) :=
    lookup_mem_snd _ _ _ hga
  have hlen : 1 < ga.length := one_lt_length_of_two_mem hain hbin hne
  refine ⟨ga, ?_, hain, hbin⟩
  unfold group_pairs
  refine List.mem_filter.mpr ⟨hsnd, ?_⟩
  simpa using hlen

/-! ## Pair-scan lemmas (DuplicatesAnalyzer.analyze, step 2) -/

theorem scanStep_eq (targets : List (String × String))
    (acc : List (String × String × ℚ) × List (String × String × ℚ))
    (pr : (String × SigRec) × (String × SigRec)) :
    scanStep targets acc pr =
      (acc.1 ++ exOf targets pr, acc.2 ++ nrOf targets pr) := by
  simp only [scanStep, exOf, nrOf]
  by_cases h1 : is_canonical_pair targets pr.1.2.norm pr.2.2.norm = true
  · rw [if_pos h1, if_pos h1, if_pos h1]
    simp
  · rw [if_neg h1, if_neg h1, if_neg h1]
    by_cases h2 : ((min pr.1.2.wc pr.2.2.wc : ℚ) /
        (max pr.1.2.wc pr.2.2.wc : ℚ)) < lenRatioMin
    · rw [if_pos h2, if_pos h2, if_pos h2]
      simp
    · rw [if_neg h2, if_neg h2, if_neg h2]
      by_cases h3 : estimate_jaccard pr.1.2.signature pr.2.2.signature <
          candThreshold
      · rw [if_pos h3, if_pos h3, if_pos h3]
        simp
      · rw [if_neg h3, if_neg h3, if_neg h3]
        by_cases h4 : pr.1.2.text_hash = pr.2.2.text_hash
        · rw [if_pos h4, if_pos h4, if_pos h4]
          simp
        · rw [if_neg h4, if_neg h4, if_neg h4]
          by_cases h5 : nearThreshold ≤
              estimate_jaccard pr.1.2.signature pr.2.2.signature
          · rw [if_pos h5, if_pos h5]
            simp
          · rw [if_neg h5, if_neg h5]
            simp

theorem scan_go (targets : List (String × String))
    (l : List ((String × SigRec) × (String × SigRec))) :
    ∀ acc, l.foldl (scanStep targets) acc =
      (acc.1 ++ l.flatMap (exOf targets), acc.2 ++ l.flatMap (nrOf targets)) := by
  induction l with
  | nil =>
    intro acc
    simp
  | cons pr l ih =>
    intro acc
    rw [List.foldl_cons, ih, scanStep_eq]
    simp

theorem pair_scan_eq (targets : List (String × String))
    (recs : List (String × SigRec)) :
    pair_scan targets recs =
      ((allPairs recs).flatMap (exOf targets),
        (allPairs recs).flatMap (nrOf targets)) := by
  unfold pair_scan
  rw [scan_go]
  simp

theorem allPairs_mem {α : Type} (l : List α) :
    ∀ pr ∈ allPairs l, pr.1 ∈ l ∧ pr.2 ∈ l := by
  induction l with
  | nil => intro pr h; cases h
  | cons x xs ih =>
    intro pr h
    unfold allPairs at h
    rcases List.mem_append.mp h with h | h
    · rcases List.mem_map.mp h with ⟨y, hy, rfl⟩
      exact ⟨by simp, by simp [hy]⟩
    · rcases ih pr h with ⟨h1, h2⟩
      exact ⟨List.mem_cons_of_mem _ h1, List.mem_cons_of_mem _ h2⟩

/-- Any two entries with distinct keys are visited, in one order, by the
nested loops. -/
theorem allPairs_total (l : List (String × SigRec)) (a b : String)
    (ra rb : SigRec) (hnd : (l.map Prod.fst).Nodup) (hne : a ≠ b)
    (ha : (a, ra) ∈ l) (hb : (b, rb) ∈ l) :
    ((a, ra), (b, rb)) ∈ allPairs l ∨ ((b, rb), (a, ra)) ∈ allPairs l := by
  induction l with
  | nil => cases ha
  | cons x xs ih =>
    have hnd2 : (xs.map Prod.fst).Nodup := by
      rw [List.map_cons] at hnd
      exact hnd.of_cons
    have hfresh : ∀ v, (x.1, v) ∈ xs → False := by
      intro v hv
      rw [List.map_cons] at hnd
      have := List.rel_of_pairwise_cons hnd
        (List.mem_map.mpr ⟨(x.1, v), hv, rfl⟩)
      exact this rfl
    rcases List.mem_cons.mp ha with ha1 | ha1
    · rcases List.mem_cons.mp hb with hb1 | hb1
      · rw [← ha1] at hb1
        exact absurd (congrArg Prod.fst hb1).symm hne
      · left
        unfold allPairs
        rw [← ha1]
        exact List.mem_append_left _
          (List.mem_map.mpr ⟨(b, rb), hb1, rfl⟩)
    · rcases List.mem_cons.mp hb with hb1 | hb1
      · right
        unfold allPairs
        rw [← hb1]
        exact List.mem_append_left _
          (List.mem_map.mpr ⟨(a, ra), ha1, rfl⟩)
      · rcases ih hnd2 ha1 hb1 with h | h
        · left
          unfold allPairs
          exact List.mem_append_right _ h
        · right
          unfold allPairs
          exact List.mem_append_right _ h

theorem exOf_mem (targets : List (String × String))
    (pr : (String × SigRec) × (String × SigRec))
    (e : String × String × ℚ) (h : e ∈ exOf targets pr) :
    is_canonical_pair targets pr.1.2.norm pr.2.2.norm = false ∧
    pr.1.2.text_hash = pr.2.2.text_hash ∧ e = (pr.1.1, pr.2.1, 1) := by
  unfold exOf at h
  split_ifs at h with h1 h2 h3 h4
  · cases h
  · cases h
  · cases h
  · rw [List.mem_singleton] at h
    exact ⟨Bool.eq_false_iff.mpr h1, h4, h⟩
  · cases h

theorem nrOf_mem (targets : List (String × String))
    (pr : (String × SigRec) × (String × SigRec))
    (e : String × String × ℚ) (h : e ∈ nrOf targets pr) :
    is_canonical_pair targets pr.1.2.norm pr.2.2.norm = false ∧
    pr.1.2.text_hash ≠ pr.2.2.text_hash ∧
    e = (pr.1.1, pr.2.1,
      estimate_jaccard pr.1.2.signature pr.2.2.signature) := by
  unfold nrOf at h
  split_ifs at h with h1 h2 h3 h4 h5
  · cases h
  · cases h
  · cases h
  · cases h
  · rw [List.mem_singleton] at h
    exact ⟨Bool.eq_false_iff.mpr h1, h4, h⟩
  · cases h

theorem is_canonical_pair_symm (targets : List (String × String))
    (x y : String) :
    is_canonical_pair targets x y = is_canonical_pair targets y x := by
  unfold is_canonical_pair
  rw [Bool.or_comm]

theorem mem_nodup_val_eq {α : Type} (l : List (String × α)) (a : String)
    (r1 r2 : α) (hnd : (l.map Prod.fst).Nodup) (h1 : (a, r1) ∈ l)
    (h2 : (a, r2) ∈ l) : r1 = r2 := by
  have e1 := lookup_of_mem_nodup l hnd (a, r1) h1
  have e2 := lookup_of_mem_nodup l hnd (a, r2) h2
  rw [e1] at e2
  cases e2
  rfl

theorem jaccard_self (sig : List Int) (h : sig ≠ []) :
    estimate_jaccard sig sig = 1 := by
  unfold estimate_jaccard
  rw [if_neg (by simp [h])]
  have hcount : ∀ s : List Int,
      (s.zip s).countP (fun ab => ab.1 = ab.2) = s.length := by
    intro s
    induction s with
    | nil => rfl
    | cons x xs ih =>
      rw [List.zip_cons_cons, List.countP_cons]
      simp only [decide_eq_true_eq]
      rw [ih]
      simp
  rw [hcount]
  have hlen : (sig.length : ℚ) ≠ 0 := by
    simp only [ne_eq, Nat.cast_eq_zero, List.length_eq_zero]
    exact h
  field_simp

theorem ratio_self (w : Nat) (h : w ≠ 0) :
    ((min w w : ℚ) / (max w w : ℚ)) = 1 := by
  rw [min_self, max_self]
  have : (w : ℚ) ≠ 0 := Nat.cast_ne_zero.mpr h
  field_simp

/-- Both filters pass and the hashes agree: the visited pair contributes
exactly its exact-duplicate triple and no near triple. -/
theorem exOf_pos (targets : List (String × String))
    (pr : (String × SigRec) × (String × SigRec))
    (hcp : is_canonical_pair targets pr.1.2.norm pr.2.2.norm = false)
    (hwc : pr.1.2.wc = pr.2.2.wc) (hw0 : pr.1.2.wc ≠ 0)
    (hsig : pr.1.2.signature = pr.2.2.signature)
    (hsig0 : pr.1.2.signature ≠ [])
    (hhash : pr.1.2.text_hash = pr.2.2.text_hash) :
    exOf targets pr = [(pr.1.1, pr.2.1, 1)] ∧ nrOf targets pr = [] := by
  have hratio : ((min pr.1.2.wc pr.2.2.wc : ℚ) /
      (max pr.1.2.wc pr.2.2.wc : ℚ)) = 1 := by
    rw [← hwc]
    exact ratio_self _ hw0
  have hj : estimate_jaccard pr.1.2.signature pr.2.2.signature = 1 := by
    rw [← hsig]
    exact jaccard_self _ hsig0
  constructor
  · unfold exOf
    rw [if_neg (by simp [hcp]), hratio, hj,
      if_neg (by rw [lenRatioMin]; norm_num),
      if_neg (by rw [candThreshold]; norm_num), if_pos hhash]
  · unfold nrOf
    rw [if_neg (by simp [hcp]), hratio, hj,
      if_neg (by rw [lenRatioMin]; norm_num),
      if_neg (by rw [candThreshold]; norm_num), if_pos hhash]

/-- A canonical pair is skipped before any similarity comparison. -/
theorem exOf_canonical (targets : List (String × String))
    (pr : (String × SigRec) × (String × SigRec))
    (h : is_canonical_pair targets pr.1.2.norm pr.2.2.norm = true) :
    exOf targets pr = [] ∧ nrOf targets pr = [] := by
  constructor
  · unfold exOf
    rw [if_pos h]
  · unfold nrOf
    rw [if_pos h]

theorem minhash_length (hashFam : Nat → List String → Int)
    (shingles : List (List String)) (n : Nat) :
    (minhash_signature hashFam shingles n).length = n := by
  unfold minhash_signature
  split_ifs
  · simp
  · simp

theorem dinsertA_keys_nodup {α : Type} (m : List (String × α)) (k : String)
    (v : α) (h : (m.map Prod.fst).Nodup) :
    ((dinsertA m k v).map Prod.fst).Nodup := by
  by_cases hc : (m.map Prod.fst).contains k
  · rw [dinsertA_keys_contains m k v hc]
    exact h
  · rw [dinsertA_keys_not_contains m k v hc]
    refine List.nodup_append.mpr ⟨h, List.nodup_singleton _, ?_⟩
    intro a ha hb
    simp only [List.mem_singleton] at hb
    subst hb
    exact hc ((contains_iff_mem _ _).mpr ha)

/-- One signing step either skips the page or inserts a record with at
least dupMinWords words and a full-length signature. -/
theorem sigStep_cases (extract : BSoup → String × String)
    (hashFam : Nat → List String → Int) (shaHex : String → String)
    (recs : List (String × SigRec)) (up : String × PageData) :
    sigStep extract hashFam shaHex recs up = recs ∨
    ∃ r : SigRec, sigStep extract hashFam shaHex recs up =
        dinsertA recs up.1 r ∧
      dupMinWords ≤ r.wc ∧ r.signature.length = numHashes := by
  simp only [sigStep]
  by_cases h1 : up.2.status_code ≠ 200 ∨ ¬ pyTruthyStr up.2.html_content
  · rw [if_pos h1]
    left
    rfl
  · rw [if_neg h1]
    cases hs : get_soup up.2 with
    | none =>
      left
      rfl
    | some soup =>
      dsimp only
      by_cases h2 : (extract soup).1 = ""
      · rw [if_pos h2]
        left
        rfl
      · rw [if_neg h2]
        by_cases h3 : (pySplitWs (extract soup).1).length < dupMinWords
        · rw [if_pos h3]
          left
          rfl
        · rw [if_neg h3]
          by_cases h4 : create_shingles (extract soup).1 3 = []
          · rw [if_pos h4]
            left
            rfl
          · rw [if_neg h4]
            right
            exact ⟨_, rfl, Nat.not_lt.mp h3, minhash_length _ _ _⟩

/-- The signing map has distinct keys and every record meets the word
and signature-length bounds. -/
theorem build_sig_recs_facts (extract : BSoup → String × String)
    (hashFam : Nat → List String → Int) (shaHex : String → String)
    (pages : List (String × PageData)) :
    ((build_sig_recs extract hashFam shaHex pages).map Prod.fst).Nodup ∧
    ∀ ur ∈ build_sig_recs extract hashFam shaHex pages,
      dupMinWords ≤ ur.2.wc ∧ ur.2.signature.length = numHashes := by
  have main : ∀ (ps : List (String × PageData))
      (acc : List (String × SigRec)), (acc.map Prod.fst).Nodup →
      (∀ ur ∈ acc, dupMinWords ≤ ur.2.wc ∧ ur.2.signature.length = numHashes) →
      ((ps.foldl (sigStep extract hashFam shaHex) acc).map Prod.fst).Nodup ∧
      ∀ ur ∈ ps.foldl (sigStep extract hashFam shaHex) acc,
        dupMinWords ≤ ur.2.wc ∧ ur.2.signature.length = numHashes := by
    intro ps
    induction ps with
    | nil => intro acc h1 h2; exact ⟨h1, h2⟩
    | cons up ps ih =>
      intro acc h1 h2
      rw [List.foldl_cons]
      rcases sigStep_cases extract hashFam shaHex acc up with he | ⟨r, he, hr⟩
      · rw [he]
        exact ih acc h1 h2
      · rw [he]
        refine ih _ (dinsertA_keys_nodup acc up.1 r h1) ?_
        intro ur hur
        rcases dinsertA_mem_sub acc up.1 r ur hur with h | h
        · exact h2 ur h
        · rw [h]
          exact hr
  exact main pages [] List.nodup_nil (by intro ur h; cases h)

/-- Reading off an exact-pair membership: the two signing records of the
named URLs were compared, found non-canonical and hash-equal. -/
theorem scan_mem_exact (T : List (String × String))
    (R : List (String × SigRec)) (hnd : (R.map Prod.fst).Nodup)
    (va vb : String) (r1 r2 : SigRec) (sc : ℚ)
    (hva : (va, r1) ∈ R) (hvb : (vb, r2) ∈ R)
    (hmem : (va, vb, sc) ∈ (allPairs R).flatMap (exOf T)) :
    is_canonical_pair T r1.norm r2.norm = false ∧
    r1.text_hash = r2.text_hash := by
  rcases List.mem_flatMap.mp hmem with ⟨pr, hpr, he⟩
  obtain ⟨hcpf, hhash, heq⟩ := exOf_mem T pr _ he
  have h1 : va = pr.1.1 := congrArg (fun t => t.1) heq
  have h2 : vb = pr.2.1 := congrArg (fun t => t.2.1) heq
  obtain ⟨hm1, hm2⟩ := allPairs_mem R pr hpr
  have hm1' : (va, pr.1.2) ∈ R := by
    rw [h1, Prod.mk.eta]
    exact hm1
  have hm2' : (vb, pr.2.2) ∈ R := by
    rw [h2, Prod.mk.eta]
    exact hm2
  have hv1 : pr.1.2 = r1 := mem_nodup_val_eq R va _ r1 hnd hm1' hva
  have hv2 : pr.2.2 = r2 := mem_nodup_val_eq R vb _ r2 hnd hm2' hvb
  rw [hv1, hv2] at hcpf hhash
  exact ⟨hcpf, hhash⟩

/-- Reading off a near-pair membership: the records were compared, found
non-canonical and hash-distinct. -/
theorem scan_mem_near (T : List (String × String))
    (R : List (String × SigRec)) (hnd : (R.map Prod.fst).Nodup)
    (va vb : String) (r1 r2 : SigRec) (sc : ℚ)
    (hva : (va, r1) ∈ R) (hvb : (vb, r2) ∈ R)
    (hmem : (va, vb, sc) ∈ (allPairs R).flatMap (nrOf T)) :
    is_canonical_pair T r1.norm r2.norm = false ∧
    r1.text_hash ≠ r2.text_hash := by
  rcases List.mem_flatMap.mp hmem with ⟨pr, hpr, he⟩
  obtain ⟨hcpf, hhash, heq⟩ := nrOf_mem T pr _ he
  have h1 : va = pr.1.1 := congrArg (fun t => t.1) heq
  have h2 : vb = pr.2.1 := congrArg (fun t => t.2.1) heq
  obtain ⟨hm1, hm2⟩ := allPairs_mem R pr hpr
  have hm1' : (va, pr.1.2) ∈ R := by
    rw [h1, Prod.mk.eta]
    exact hm1
  have hm2' : (vb, pr.2.2) ∈ R := by
    rw [h2, Prod.mk.eta]
    exact hm2
  have hv1 : pr.1.2 = r1 := mem_nodup_val_eq R va _ r1 hnd hm1' hva
  have hv2 : pr.2.2 = r2 := mem_nodup_val_eq R vb _ r2 hnd hm2' hvb
  rw [hv1, hv2] at hcpf hhash
  exact ⟨hcpf, hhash⟩

/-- Two signed pages with identical word count, signature and hash that
are not a canonical pair produce an exact-pair triple in one of the two
visit orders. -/
theorem scan_mem_exact_intro (T : List (String × String))
    (R : List (String × SigRec)) (hnd : (R.map Prod.fst).Nodup)
    (ua ub : String) (ra rb : SigRec)
    (ha : (ua, ra) ∈ R) (hb : (ub, rb) ∈ R) (hne : ua ≠ ub)
    (hw0 : ra.wc ≠ 0) (hsig0 : ra.signature ≠ [])
    (hwc : ra.wc = rb.wc) (hsig : ra.signature = rb.signature)
    (hhash : ra.text_hash = rb.text_hash)
    (hcp : is_canonical_pair T ra.norm rb.norm = false) :
    (ua, ub, 1) ∈ (allPairs R).flatMap (exOf T) ∨
    (ub, ua, 1) ∈ (allPairs R).flatMap (exOf T) := by
  rcases allPairs_total R ua ub ra rb hnd hne ha hb with hpr | hpr
  · left
    refine List.mem_flatMap.mpr ⟨((ua, ra), (ub, rb)), hpr, ?_⟩
    obtain ⟨he, _⟩ := exOf_pos T ((ua, ra), (ub, rb)) hcp hwc hw0 hsig
      hsig0 hhash
    rw [he]
    simp
  · right
    refine List.mem_flatMap.mpr ⟨((ub, rb), (ua, ra)), hpr, ?_⟩
    have hcp2 : is_canonical_pair T rb.norm ra.norm = false := by
      rw [is_canonical_pair_symm]
      exact hcp
    obtain ⟨he, _⟩ := exOf_pos T ((ub, rb), (ua, ra)) hcp2 hwc.symm
      (by rw [← hwc]; exact hw0) hsig.symm (by rw [← hsig]; exact hsig0)
      hhash.symm
    rw [he]
    simp

/-- C6 counterexample: the first crawled page declares the second as its
canonical target (nonempty declaration, resolving and normalizing to the
second page's normalized URL), yet the pair is reported as an exact
duplicate, because a later page with the same normalized source URL
overwrote the canonical-target entry. -/
theorem c6_counterexample :
    pyStrip (((pageDup urlA (some urlQ)).canonical).getD "") ≠ "" ∧
    normalize_url (urljoinL urlA
      (pyStrip (((pageDup urlA (some urlQ)).canonical).getD ""))) =
      normalize_url urlQ ∧
    (urlA, pageDup urlA (some urlQ)) ∈ pagesC6 ∧
    (urlQ, pageDup urlQ none) ∈ pagesC6 ∧
    (urlA, urlQ, 1) ∈
      (duplicates_analyze extractW hashZero shaId pagesC6).exact_pairs := by
  refine ⟨by decide, by decide, by decide, by decide, ?_⟩
  have hex : (duplicates_analyze extractW hashZero shaId pagesC6).exact_pairs =
      (allPairs (build_sig_recs extractW hashZero shaId pagesC6)).flatMap
        (exOf (build_canonical_targets pagesC6)) := by
    have h0 : (duplicates_analyze extractW hashZero shaId pagesC6).exact_pairs =
        (pair_scan (build_canonical_targets pagesC6)
          (build_sig_recs extractW hashZero shaId pagesC6)).1 := rfl
    rw [h0, pair_scan_eq]
  rw [hex]
  have hpr : ((urlA, sigRecOf urlA), (urlQ, sigRecOf urlQ)) ∈
      allPairs (build_sig_recs extractW hashZero shaId pagesC6) := by
    decide
  obtain ⟨he, _⟩ := exOf_pos (build_canonical_targets pagesC6)
    ((urlA, sigRecOf urlA), (urlQ, sigRecOf urlQ)) (by decide) (by decide)
    (by decide) (by decide) (by decide) (by decide)
  refine List.mem_flatMap.mpr ⟨((urlA, sigRecOf urlA), (urlQ, sigRecOf urlQ)),
    hpr, ?_⟩
  rw [he]
  simp

/-- C6 (corrected): canonical-pair suppression as implemented: a pair of
signed pages whose recorded normalized URLs the canonical-target map
relates (in either direction) appears in neither the exact nor the near
pair list, whatever its similarity.  The map keeps only the last
declaration per normalized source URL, so a page's own declaration may
be overwritten by another page with the same normalized URL (see the
counterexample). -/
theorem c6_canonical_suppression (extract : BSoup → String × String)
    (hashFam : Nat → List String → Int) (shaHex : String → String)
    (pages : List (String × PageData)) (ua ub : String) (ra rb : SigRec)
    (ha : (ua, ra) ∈ (duplicates_analyze extract hashFam shaHex pages).recs)
    (hb : (ub, rb) ∈ (duplicates_analyze extract hashFam shaHex pages).recs)
    (hcp : is_canonical_pair
      (duplicates_analyze extract hashFam shaHex pages).targets
      ra.norm rb.norm = true) (s : ℚ) :
    (ua, ub, s) ∉
      (duplicates_analyze extract hashFam shaHex pages).exact_pairs ∧
    (ub, ua, s) ∉
      (duplicates_analyze extract hashFam shaHex pages).exact_pairs ∧
    (ua, ub, s) ∉
      (duplicates_analyze extract hashFam shaHex pages).near_pairs ∧
    (ub, ua, s) ∉
      (duplicates_analyze extract hashFam shaHex pages).near_pairs := by
  have hrecs : (duplicates_analyze extract hashFam shaHex pages).recs =
      build_sig_recs extract hashFam shaHex pages := rfl
  have hT : (duplicates_analyze extract hashFam shaHex pages).targets =
      build_canonical_targets pages := rfl
  have hex : (duplicates_analyze extract hashFam shaHex pages).exact_pairs =
      (allPairs (build_sig_recs extract hashFam shaHex pages)).flatMap
        (exOf (build_canonical_targets pages)) := by
    have h0 : (duplicates_analyze extract hashFam shaHex pages).exact_pairs =
        (pair_scan (build_canonical_targets pages)
          (build_sig_recs extract hashFam shaHex pages)).1 := rfl
    rw [h0, pair_scan_eq]
  have hnrr : (duplicates_analyze extract hashFam shaHex pages).near_pairs =
      (allPairs (build_sig_recs extract hashFam shaHex pages)).flatMap
        (nrOf (build_canonical_targets pages)) := by
    have h0 : (duplicates_analyze extract hashFam shaHex pages).near_pairs =
        (pair_scan (build_canonical_targets pages)
          (build_sig_recs extract hashFam shaHex pages)).2 := rfl
    rw [h0, pair_scan_eq]
  obtain ⟨hnd, _⟩ := build_sig_recs_facts extract hashFam shaHex pages
  rw [hrecs] at ha hb
  rw [hT] at hcp
  refine ⟨?_, ?_, ?_, ?_⟩
  · intro hmem
    rw [hex] at hmem
    obtain ⟨hcpf, _⟩ := scan_mem_exact _ _ hnd ua ub ra rb s ha hb hmem
    rw [hcp] at hcpf
    exact Bool.noConfusion hcpf
  · intro hmem
    rw [hex] at hmem
    obtain ⟨hcpf, _⟩ := scan_mem_exact _ _ hnd ub ua rb ra s hb ha hmem
    rw [is_canonical_pair_symm, hcp] at hcpf
    exact Bool.noConfusion hcpf
  · intro hmem
    rw [hnrr] at hmem
    obtain ⟨hcpf, _⟩ := scan_mem_near _ _ hnd ua ub ra rb s ha hb hmem
    rw [hcp] at hcpf
    exact Bool.noConfusion hcpf
  · intro hmem
    rw [hnrr] at hmem
    obtain ⟨hcpf, _⟩ := scan_mem_near _ _ hnd ub ua rb ra s hb ha hmem
    rw [is_canonical_pair_symm, hcp] at hcpf
    exact Bool.noConfusion hcpf

/-- Witness for C6: on two byte-identical pages, the first declaring the
second as canonical, suppression fires and the exact pair is absent. -/
theorem c6_witness :
    (urlA, sigRecOf urlA) ∈
      (duplicates_analyze extractW hashZero shaId pagesC5).recs ∧
    (urlQ, sigRecOf urlQ) ∈
      (duplicates_analyze extractW hashZero shaId pagesC5).recs ∧
    is_canonical_pair
      (duplicates_analyze extractW hashZero shaId pagesC5).targets
      (sigRecOf urlA).norm (sigRecOf urlQ).norm = true ∧
    (urlA, urlQ, 1) ∉
      (duplicates_analyze extractW hashZero shaId pagesC5).exact_pairs :=
  ⟨by decide, by decide, by decide,
    (c6_canonical_suppression extractW hashZero shaId pagesC5 urlA urlQ
      (sigRecOf urlA) (sigRecOf urlQ) (by decide) (by decide) (by decide)
      1).1⟩

/-- C5 counterexample: two eligible pages with byte-identical suppressed
text (same parse, same extraction, hence equal content hashes) that are
a declared canonical pair: no exact-duplicate group contains them — the
exact group list is empty — refuting that byte-identical eligible pages
always land in one exact group. -/
theorem c5_counterexample :
    (urlA, sigRecOf urlA) ∈
      (duplicates_analyze extractW hashZero shaId pagesC5).recs ∧
    (urlQ, sigRecOf urlQ) ∈
      (duplicates_analyze extractW hashZero shaId pagesC5).recs ∧
    (sigRecOf urlA).text_hash = (sigRecOf urlQ).text_hash ∧
    (duplicates_analyze extractW hashZero shaId pagesC5).exact_groups =
      [] := by
  refine ⟨by decide, by decide, by decide, ?_⟩
  have hgr : (duplicates_analyze extractW hashZero shaId pagesC5).exact_groups =
      group_pairs
        (duplicates_analyze extractW hashZero shaId pagesC5).exact_pairs :=
    rfl
  have hex : (duplicates_analyze extractW hashZero shaId pagesC5).exact_pairs =
      (allPairs (build_sig_recs extractW hashZero shaId pagesC5)).flatMap
        (exOf (build_canonical_targets pagesC5)) := by
    have h0 : (duplicates_analyze extractW hashZero shaId pagesC5).exact_pairs =
        (pair_scan (build_canonical_targets pagesC5)
          (build_sig_recs extractW hashZero shaId pagesC5)).1 := rfl
    rw [h0, pair_scan_eq]
  have hR : build_sig_recs extractW hashZero shaId pagesC5 =
      [(urlA, sigRecOf urlA), (urlQ, sigRecOf urlQ)] := by
    decide
  have hempty : (allPairs (build_sig_recs extractW hashZero shaId
      pagesC5)).flatMap (exOf (build_canonical_targets pagesC5)) = [] := by
    rw [hR]
    have hone : allPairs [(urlA, sigRecOf urlA), (urlQ, sigRecOf urlQ)] =
        [((urlA, sigRecOf urlA), (urlQ, sigRecOf urlQ))] := by decide
    rw [hone]
    obtain ⟨he, _⟩ := exOf_canonical (build_canonical_targets pagesC5)
      ((urlA, sigRecOf urlA), (urlQ, sigRecOf urlQ)) (by decide)
    simp [he]
  rw [hgr, hex, hempty]
  decide

/-- C5 (corrected): the exact and near categories are disjoint per
ordered URL pair in both orientations, and two distinct signed pages
with identical word count, signature and content hash that are NOT a
declared canonical pair land in one exact-duplicate group and never
appear as a near pair — byte-identical canonical pairs are suppressed
instead (see the counterexample). -/
theorem c5_duplicate_classes (extract : BSoup → String × String)
    (hashFam : Nat → List String → Int) (shaHex : String → String)
    (pages : List (String × PageData)) (ua ub : String) (ra rb : SigRec)
    (ha : (ua, ra) ∈ (duplicates_analyze extract hashFam shaHex pages).recs)
    (hb : (ub, rb) ∈ (duplicates_analyze extract hashFam shaHex pages).recs)
    (hne : ua ≠ ub) (hwc : ra.wc = rb.wc)
    (hsig : ra.signature = rb.signature)
    (hhash : ra.text_hash = rb.text_hash)
    (hcp : is_canonical_pair
      (duplicates_analyze extract hashFam shaHex pages).targets
      ra.norm rb.norm = false) :
    (∀ va vb (s s2 : ℚ),
      (va, vb, s) ∈
        (duplicates_analyze extract hashFam shaHex pages).exact_pairs →
      (va, vb, s2) ∉
        (duplicates_analyze extract hashFam shaHex pages).near_pairs ∧
      (vb, va, s2) ∉
        (duplicates_analyze extract hashFam shaHex pages).near_pairs) ∧
    (∃ g ∈ (duplicates_analyze extract hashFam shaHex pages).exact_groups,
      ua ∈ g ∧ ub ∈ g) ∧
    (∀ s : ℚ,
      (ua, ub, s) ∉
        (duplicates_analyze extract hashFam shaHex pages).near_pairs ∧
      (ub, ua, s) ∉
        (duplicates_analyze extract hashFam shaHex pages).near_pairs) := by
  have hrecs : (duplicates_analyze extract hashFam shaHex pages).recs =
      build_sig_recs extract hashFam shaHex pages := rfl
  have hT : (duplicates_analyze extract hashFam shaHex pages).targets =
      build_canonical_targets pages := rfl
  have hex : (duplicates_analyze extract hashFam shaHex pages).exact_pairs =
      (allPairs (build_sig_recs extract hashFam shaHex pages)).flatMap
        (exOf (build_canonical_targets pages)) := by
    have h0 : (duplicates_analyze extract hashFam shaHex pages).exact_pairs =
        (pair_scan (build_canonical_targets pages)
          (build_sig_recs extract hashFam shaHex pages)).1 := rfl
    rw [h0, pair_scan_eq]
  have hnrr : (duplicates_analyze extract hashFam shaHex pages).near_pairs =
      (allPairs (build_sig_recs extract hashFam shaHex pages)).flatMap
        (nrOf (build_canonical_targets pages)) := by
    have h0 : (duplicates_analyze extract hashFam shaHex pages).near_pairs =
        (pair_scan (build_canonical_targets pages)
          (build_sig_recs extract hashFam shaHex pages)).2 := rfl
    rw [h0, pair_scan_eq]
  have hgr : (duplicates_analyze extract hashFam shaHex pages).exact_groups =
      group_pairs
        (duplicates_analyze extract hashFam shaHex pages).exact_pairs := rfl
  obtain ⟨hnd, hfacts⟩ := build_sig_recs_facts extract hashFam shaHex pages
  rw [hrecs] at ha hb
  rw [hT] at hcp
  obtain ⟨hwa, hsa⟩ := hfacts (ua, ra) ha
  have hwa2 : dupMinWords ≤ ra.wc := hwa
  have hsa2 : ra.signature.length = numHashes := hsa
  have hw0 : ra.wc ≠ 0 := by
    have hd : dupMinWords = 80 := rfl
    omega
  have hsig0 : ra.signature ≠ [] := by
    intro he
    rw [he, List.length_nil] at hsa2
    have hn : numHashes = 50 := rfl
    omega
  refine ⟨?_, ?_, ?_⟩
  · intro va vb s s2 hmem
    rw [hex] at hmem
    rcases List.mem_flatMap.mp hmem with ⟨pr, hpr, he⟩
    obtain ⟨_, hh, heq⟩ := exOf_mem _ pr _ he
    have h1 : va = pr.1.1 := congrArg (fun t => t.1) heq
    have h2 : vb = pr.2.1 := congrArg (fun t => t.2.1) heq
    obtain ⟨hm1, hm2⟩ := allPairs_mem _ pr hpr
    have hm1' : (va, pr.1.2) ∈
        build_sig_recs extract hashFam shaHex pages := by
      rw [h1, Prod.mk.eta]
      exact hm1
    have hm2' : (vb, pr.2.2) ∈
        build_sig_recs extract hashFam shaHex pages := by
      rw [h2, Prod.mk.eta]
      exact hm2
    constructor
    · intro hmem2
      rw [hnrr] at hmem2
      obtain ⟨_, hh2⟩ :=
        scan_mem_near _ _ hnd va vb pr.1.2 pr.2.2 s2 hm1' hm2' hmem2
      exact hh2 hh
    · intro hmem2
      rw [hnrr] at hmem2
      obtain ⟨_, hh2⟩ :=
        scan_mem_near _ _ hnd vb va pr.2.2 pr.1.2 s2 hm2' hm1' hmem2
      exact hh2 hh.symm
  · rcases scan_mem_exact_intro _ _ hnd ua ub ra rb ha hb hne hw0 hsig0
      hwc hsig hhash hcp with hm | hm
    · rw [← hex] at hm
      rcases group_pairs_together _ ua ub 1 hne hm with ⟨g, hg, h1, h2⟩
      rw [hgr]
      exact ⟨g, hg, h1, h2⟩
    · rw [← hex] at hm
      rcases group_pairs_together _ ub ua 1 (fun he => hne he.symm) hm with
        ⟨g, hg, h1, h2⟩
      rw [hgr]
      exact ⟨g, hg, h2, h1⟩
  · intro s
    constructor
    · intro hmem
      rw [hnrr] at hmem
      obtain ⟨_, hh2⟩ := scan_mem_near _ _ hnd ua ub ra rb s ha hb hmem
      exact hh2 hhash
    · intro hmem
      rw [hnrr] at hmem
      obtain ⟨_, hh2⟩ := scan_mem_near _ _ hnd ub ua rb ra s hb ha hmem
      exact hh2 hhash.symm

/-- Witness for C5: two byte-identical non-canonical pages are grouped
together as exact duplicates. -/
theorem c5_witness :
    ∃ g ∈ (duplicates_analyze extractW hashZero shaId pagesC5w).exact_groups,
      urlA ∈ g ∧ urlQ ∈ g :=
  (c5_duplicate_classes extractW hashZero shaId pagesC5w urlA urlQ
    (sigRecOf urlA) (sigRecOf urlQ) (by decide) (by decide) (by decide)
    (by decide) (by decide) (by decide) (by decide)).2.1

/-! ## ASCII case-mapping lemmas (Python str.lower on the modelled
character class) -/

theorem char_toNat_ofNat (m : Nat) (h : m < 55296) :
    (Char.ofNat m).toNat = m := by
  rw [Char.ofNat, dif_pos (Or.inl h)]
  rfl

theorem char_toNat_eq {a b : Char} (h : a.toNat = b.toNat) : a = b :=
  Char.ext (UInt32.ext h)

theorem toLower_eq (c : Char) :
    c.toLower = if 65 ≤ c.toNat ∧ c.toNat ≤ 90 then Char.ofNat (c.toNat + 32)
      else c := rfl

theorem toNat_toLower (c : Char) :
    c.toLower.toNat =
      if 65 ≤ c.toNat ∧ c.toNat ≤ 90 then c.toNat + 32 else c.toNat := by
  rw [toLower_eq]
  split_ifs with h
  · exact char_toNat_ofNat _ (by omega)
  · rfl

theorem toLower_idem (c : Char) : c.toLower.toLower = c.toLower := by
  rw [toLower_eq c.toLower]
  have h := toNat_toLower c
  split_ifs with h2
  · exfalso
    rw [h] at h2
    split_ifs at h2 <;> omega
  · rfl

theorem uint32_le_iff (a b : UInt32) : a ≤ b ↔ a.toNat ≤ b.toNat := Iff.rfl

theorem isAlpha_toNat (c : Char) :
    c.isAlpha = true ↔
      ((65 ≤ c.toNat ∧ c.toNat ≤ 90) ∨ (97 ≤ c.toNat ∧ c.toNat ≤ 122)) := by
  unfold Char.isAlpha Char.isUpper Char.isLower
  simp only [Bool.or_eq_true, Bool.and_eq_true, decide_eq_true_eq, ge_iff_le,
    uint32_le_iff]
  exact Iff.rfl

theorem toLower_alpha (c : Char) (h : c.isAlpha = true) :
    c.toLower.isAlpha = true := by
  rw [isAlpha_toNat] at h ⊢
  rw [toNat_toLower]
  split_ifs with h2 <;> omega

theorem toLower_ne (c d : Char) (hne : c ≠ d)
    (hd : ¬(97 ≤ d.toNat ∧ d.toNat ≤ 122)) : c.toLower ≠ d := by
  intro he
  by_cases h2 : 65 ≤ c.toNat ∧ c.toNat ≤ 90
  · have hv := toNat_toLower c
    rw [if_pos h2, he] at hv
    omega
  · rw [toLower_eq, if_neg h2] at he
    exact hne he

theorem lowerL_idem (l : List Char) : lowerL (lowerL l) = lowerL l := by
  unfold lowerL
  rw [List.map_map]
  exact List.map_congr_left (fun c _ => toLower_idem c)

theorem isDigit_toNat (c : Char) :
    c.isDigit = true ↔ (48 ≤ c.toNat ∧ c.toNat ≤ 57) := by
  unfold Char.isDigit
  simp only [Bool.and_eq_true, decide_eq_true_eq, ge_iff_le, uint32_le_iff]
  exact Iff.rfl

theorem scheme_chars_toLower (c : Char) (h : scheme_chars c = true) :
    scheme_chars c.toLower = true := by
  by_cases h2 : 65 ≤ c.toNat ∧ c.toNat ≤ 90
  · have ha : c.isAlpha = true := (isAlpha_toNat c).mpr (Or.inl h2)
    have h3 := toLower_alpha c ha
    unfold scheme_chars
    simp [h3]
  · rw [toLower_eq, if_neg h2]
    exact h

theorem badByte_toLower (c : Char) (h : badByte c = false) :
    badByte c.toLower = false := by
  by_cases h2 : 65 ≤ c.toNat ∧ c.toNat ≤ 90
  · have hv := toNat_toLower c
    rw [if_pos h2] at hv
    have hne : ∀ k : Nat, k < 55296 → k < 97 →
        (c.toLower == Char.ofNat k) = false := by
      intro k hk1 hk2
      rw [beq_eq_false_iff_ne]
      intro he
      rw [he, char_toNat_ofNat k hk1] at hv
      omega
    unfold badByte
    simp [hne 9 (by omega) (by omega), hne 13 (by omega) (by omega),
      hne 10 (by omega) (by omega)]
  · rw [toLower_eq, if_neg h2]
    exact h

/-! ## First-occurrence splitting lemmas -/

theorem findIdxQ_first (p : Char → Bool) (l r : List Char) (c : Char)
    (hl : ∀ x ∈ l, p x = false) (hc : p c = true) :
    (l ++ c :: r).findIdx? p = some l.length := by
  induction l with
  | nil => simp [List.findIdx?, hc]
  | cons a t ih =>
    have ha : p a = false := hl a (by simp)
    simp only [List.cons_append, List.findIdx?_cons, ha, Bool.false_eq_true,
      if_false, List.findIdx?_succ]
    rw [ih (fun x hx => hl x (by simp [hx]))]
    simp

theorem findIdxQ_none (p : Char → Bool) (l : List Char)
    (hl : ∀ x ∈ l, p x = false) : l.findIdx? p = none := by
  induction l with
  | nil => rfl
  | cons a t ih =>
    have ha : p a = false := hl a (by simp)
    simp only [List.findIdx?_cons, ha, Bool.false_eq_true, if_false,
      List.findIdx?_succ]
    rw [ih (fun x hx => hl x (by simp [hx]))]
    rfl

theorem findIdx_first (p : Char → Bool) (l r : List Char) (c : Char)
    (hl : ∀ x ∈ l, p x = false) (hc : p c = true) :
    (l ++ c :: r).findIdx p = l.length := by
  induction l with
  | nil => simp [List.findIdx_cons, hc]
  | cons a t ih =>
    have ha : p a = false := hl a (by simp)
    simp only [List.cons_append, List.findIdx_cons, ha, cond_false]
    rw [ih (fun x hx => hl x (by simp [hx]))]
    simp

theorem findIdx_all_false (p : Char → Bool) (l : List Char)
    (hl : ∀ x ∈ l, p x = false) : l.findIdx p = l.length := by
  induction l with
  | nil => rfl
  | cons a t ih =>
    have ha : p a = false := hl a (by simp)
    simp only [List.findIdx_cons, ha, cond_false, List.length_cons]
    rw [ih (fun x hx => hl x (by simp [hx]))]

theorem take_len_append {α : Type} (l r : List α) :
    (l ++ r).take l.length = l := by
  induction l with
  | nil => rfl
  | cons a t ih => simp [List.cons_append, ih]

theorem drop_len_append {α : Type} (l r : List α) :
    (l ++ r).drop l.length = r := by
  induction l with
  | nil => rfl
  | cons a t ih => simp [List.cons_append, ih]

theorem drop_len_succ_append {α : Type} (l r : List α) (c : α) :
    (l ++ c :: r).drop (l.length + 1) = r := by
  induction l with
  | nil => rfl
  | cons a t ih => simp [List.cons_append, ih]

theorem splitAtChar_cons_hit (c a : Char) (t : List Char)
    (ha : (a == c) = true) : splitAtChar c (a :: t) = ([], t) := by
  unfold splitAtChar
  simp [List.findIdx?_cons, ha]

theorem splitAtChar_cons_miss (c a : Char) (t : List Char)
    (ha : (a == c) = false) :
    splitAtChar c (a :: t) =
      (a :: (splitAtChar c t).1, (splitAtChar c t).2) := by
  unfold splitAtChar
  simp only [List.findIdx?_cons, ha, Bool.false_eq_true, if_false,
    List.findIdx?_succ]
  cases h : t.findIdx? (· == c) with
  | none => simp
  | some i => simp [List.drop_succ_cons]

theorem splitAtChar_fst_not (c : Char) (l : List Char) :
    ∀ x ∈ (splitAtChar c l).1, (x == c) = false := by
  induction l with
  | nil => intro x hx; cases hx
  | cons a t ih =>
    cases ha : (a == c) with
    | true =>
      rw [splitAtChar_cons_hit c a t ha]
      intro x hx
      cases hx
    | false =>
      rw [splitAtChar_cons_miss c a t ha]
      intro x hx
      rcases List.mem_cons.mp hx with rfl | hx
      · exact ha
      · exact ih x hx

theorem splitAtChar_fst_sub (c : Char) (l : List Char) :
    ∀ x ∈ (splitAtChar c l).1, x ∈ l := by
  induction l with
  | nil => intro x hx; cases hx
  | cons a t ih =>
    cases ha : (a == c) with
    | true =>
      rw [splitAtChar_cons_hit c a t ha]
      intro x hx
      cases hx
    | false =>
      rw [splitAtChar_cons_miss c a t ha]
      intro x hx
      rcases List.mem_cons.mp hx with rfl | hx
      · exact List.mem_cons_self _ _
      · exact List.mem_cons_of_mem _ (ih x hx)

theorem splitAtChar_snd_sub (c : Char) (l : List Char) :
    ∀ x ∈ (splitAtChar c l).2, x ∈ l := by
  induction l with
  | nil => intro x hx; cases hx
  | cons a t ih =>
    cases ha : (a == c) with
    | true =>
      rw [splitAtChar_cons_hit c a t ha]
      intro x hx
      exact List.mem_cons_of_mem _ hx
    | false =>
      rw [splitAtChar_cons_miss c a t ha]
      intro x hx
      exact List.mem_cons_of_mem _ (ih x hx)

theorem splitAtChar_head (c a : Char) (t : List Char) :
    (splitAtChar c (a :: t)).1 = [] ∨
      (splitAtChar c (a :: t)).1.headD ' ' = a := by
  cases ha : (a == c) with
  | true =>
    rw [splitAtChar_cons_hit c a t ha]
    exact Or.inl rfl
  | false =>
    rw [splitAtChar_cons_miss c a t ha]
    exact Or.inr rfl

theorem splitAtChar_clean (c : Char) (l : List Char)
    (h : ∀ x ∈ l, (x == c) = false) : splitAtChar c l = (l, []) := by
  unfold splitAtChar
  rw [findIdxQ_none _ l h]

theorem splitAtChar_at (c : Char) (l r : List Char)
    (hl : ∀ x ∈ l, (x == c) = false) :
    splitAtChar c (l ++ c :: r) = (l, r) := by
  unfold splitAtChar
  rw [findIdxQ_first _ l r c hl (by simp)]
  show (List.take l.length (l ++ c :: r),
    List.drop (l.length + 1) (l ++ c :: r)) = (l, r)
  rw [take_len_append, drop_len_succ_append]

theorem take_findIdx_all (p : Char → Bool) (l : List Char) :
    ∀ x ∈ l.take (l.findIdx p), p x = false := by
  induction l with
  | nil => intro x hx; cases hx
  | cons a t ih =>
    cases pa : p a with
    | true =>
      rw [List.findIdx_cons, pa, cond_true]
      intro x hx
      cases hx
    | false =>
      rw [List.findIdx_cons, pa, cond_false]
      intro x hx
      rcases List.mem_cons.mp hx with rfl | hx
      · exact pa
      · exact ih x hx

theorem split_netloc_fst_not (l : List Char) :
    ∀ x ∈ (split_netloc l).1,
      (x == '/' || x == '?' || x == '#') = false := by
  intro x hx
  exact take_findIdx_all _ l x hx

theorem split_netloc_fst_sub (l : List Char) :
    ∀ x ∈ (split_netloc l).1, x ∈ l := by
  intro x hx
  exact (List.take_sublist _ l).subset hx

theorem split_netloc_snd_sub (l : List Char) :
    ∀ x ∈ (split_netloc l).2, x ∈ l := by
  intro x hx
  exact (List.drop_sublist _ l).subset hx

theorem split_netloc_eq (l : List Char) :
    split_netloc l =
      (l.take (l.findIdx (fun c => c == '/' || c == '?' || c == '#')),
       l.drop (l.findIdx (fun c => c == '/' || c == '?' || c == '#'))) := rfl

theorem split_netloc_snd_shape (l : List Char) :
    (split_netloc l).2 = [] ∨
      ((split_netloc l).2.headD ' ' == '/' ||
        (split_netloc l).2.headD ' ' == '?' ||
        (split_netloc l).2.headD ' ' == '#') = true := by
  induction l with
  | nil => exact Or.inl rfl
  | cons a t ih =>
    rw [split_netloc_eq]
    dsimp only
    rw [List.findIdx_cons]
    cases pa : (a == '/' || a == '?' || a == '#') with
    | true =>
      rw [cond_true, List.drop_zero]
      exact Or.inr pa
    | false =>
      rw [cond_false, List.drop_succ_cons]
      rw [split_netloc_eq] at ih
      dsimp only at ih
      exact ih

theorem scheme_chars_ncolon (c : Char) (h : scheme_chars c = true) :
    (c == ':') = false := by
  cases hb : (c == ':') with
  | false => rfl
  | true =>
    have he : c = ':' := eq_of_beq hb
    subst he
    exact absurd h (by decide)

theorem headD_append_ne {α : Type} (l r : List α) (d : α) (h : l ≠ []) :
    (l ++ r).headD d = l.headD d := by
  cases l with
  | nil => exact absurd rfl h
  | cons a t => rfl

theorem schemeOKb_true (l : List Char) (i : Nat) (h0 : 0 < i)
    (ha : (l.headD ' ').isAlpha = true)
    (hall : (l.take i).all scheme_chars = true) : schemeOKb l i = true := by
  unfold schemeOKb
  rw [ha, hall]
  simp [h0]

theorem schemeOKb_false_head (l : List Char) (i : Nat)
    (ha : (l.headD ' ').isAlpha = false) : schemeOKb l i = false := by
  unfold schemeOKb
  rw [ha]
  simp

theorem split_netloc_clean_append (netloc tail : List Char)
    (hnet : ∀ x ∈ netloc, (x == '/' || x == '?' || x == '#') = false)
    (htail : tail = [] ∨
      ((tail.headD ' ' == '/' || tail.headD ' ' == '?' ||
        tail.headD ' ' == '#') = true ∧ tail ≠ [])) :
    split_netloc (netloc ++ tail) = (netloc, tail) := by
  rcases htail with rfl | ⟨hd, hne⟩
  · rw [List.append_nil, split_netloc_eq,
      findIdx_all_false _ netloc hnet, List.take_length, List.drop_length]
  · cases tail with
    | nil => exact absurd rfl hne
    | cons d t =>
      rw [split_netloc_eq, findIdx_first _ netloc t d hnet hd,
        take_len_append, drop_len_append]

/-- The netloc, fragment and query splitting stages on a reassembled
authority-form remainder. -/
theorem body_stages (netloc path query : List Char) (_hnet_ne : netloc ≠ [])
    (hnet : ∀ c ∈ netloc,
      (c == '/') = false ∧ (c == '?') = false ∧ (c == '#') = false)
    (hpath1 : path = [] ∨ path.headD ' ' = '/')
    (hpath : ∀ c ∈ path, (c == '?') = false ∧ (c == '#') = false)
    (hquery : ∀ c ∈ query, (c == '#') = false) :
    split_netloc (netloc ++
        (path ++ (if query ≠ [] then '?' :: query else []))) =
      (netloc, path ++ (if query ≠ [] then '?' :: query else [])) ∧
    splitAtChar '#' (path ++ (if query ≠ [] then '?' :: query else [])) =
      (path ++ (if query ≠ [] then '?' :: query else []), []) ∧
    splitAtChar '?' (path ++ (if query ≠ [] then '?' :: query else [])) =
      (path, query) := by
  have hnet2 : ∀ x ∈ netloc, (x == '/' || x == '?' || x == '#') = false := by
    intro x hx
    obtain ⟨h1, h2, h3⟩ := hnet x hx
    rw [h1, h2, h3]
    rfl
  refine ⟨?_, ?_, ?_⟩
  · refine split_netloc_clean_append netloc _ hnet2 ?_
    rcases hpath1 with rfl | hh
    · by_cases hq : query ≠ []
      · rw [if_pos hq]
        right
        refine ⟨?_, by simp⟩
        simp
      · rw [if_neg hq]
        left
        rfl
    · cases path with
      | nil =>
        by_cases hq : query ≠ []
        · rw [if_pos hq]
          right
          refine ⟨?_, by simp⟩
          simp
        · rw [if_neg hq]
          left
          rfl
      | cons a t =>
        right
        have ha : a = '/' := hh
        subst ha
        refine ⟨by simp, by simp⟩
  · refine splitAtChar_clean '#' _ ?_
    intro x hx
    rcases List.mem_append.mp hx with hx | hx
    · exact (hpath x hx).2
    · by_cases hq : query ≠ []
      · rw [if_pos hq] at hx
        rcases List.mem_cons.mp hx with rfl | hx
        · rfl
        · exact hquery x hx
      · rw [if_neg hq] at hx
        cases hx
  · by_cases hq : query ≠ []
    · rw [if_pos hq]
      exact splitAtChar_at '?' path query (fun x hx => (hpath x hx).1)
    · rw [if_neg hq]
      push_neg at hq
      subst hq
      rw [List.append_nil]
      exact splitAtChar_clean '?' path (fun x hx => (hpath x hx).1)

/-- Reparsing the normalizer's reassembled URL recovers its components:
the scheme comes back lower-cased, and netloc, path, query and the empty
fragment come back verbatim. -/
theorem urlsplit_reassemble (scheme netloc path query : List Char)
    (hs : scheme = [] ∨ (scheme ≠ [] ∧ (scheme.headD ' ').isAlpha = true ∧
      (∀ c ∈ scheme, scheme_chars c = true)))
    (hnet_ne : netloc ≠ [])
    (hnet : ∀ c ∈ netloc,
      (c == '/') = false ∧ (c == '?') = false ∧ (c == '#') = false)
    (hpath1 : path = [] ∨ path.headD ' ' = '/')
    (hpath : ∀ c ∈ path, (c == '?') = false ∧ (c == '#') = false)
    (hquery : ∀ c ∈ query, (c == '#') = false)
    (hbad : ∀ c ∈ urlunsplitL scheme netloc path query [],
      badByte c = false) :
    urlsplitL (urlunsplitL scheme netloc path query []) [] =
      ⟨lowerL scheme, netloc, path, query, []⟩ := by
  have hp2 : (if path ≠ [] ∧ path.take 1 ≠ [ '/' ] then '/' :: path
      else path) = path := by
    rcases hpath1 with rfl | hh
    · simp
    · cases path with
      | nil => simp
      | cons a t =>
        have ha : a = '/' := hh
        subst ha
        simp
  have hqcases : urlunsplitL scheme netloc path query [] =
      (if scheme ≠ [] then
        scheme ++ ':' :: ('/' :: '/' :: (netloc ++
          (path ++ (if query ≠ [] then '?' :: query else []))))
      else '/' :: '/' :: (netloc ++
        (path ++ (if query ≠ [] then '?' :: query else [])))) := by
    unfold urlunsplitL
    rw [if_pos (Or.inl hnet_ne), hp2]
    dsimp only
    by_cases hsc : scheme ≠ [] <;> by_cases hq : query ≠ [] <;>
      simp [hsc, hq, List.append_assoc]
  obtain ⟨hsn, hsf, hsq⟩ :=
    body_stages netloc path query hnet_ne hnet hpath1 hpath hquery
  have hfilter : (urlunsplitL scheme netloc path query []).filter
      (fun c => !badByte c) = urlunsplitL scheme netloc path query [] :=
    List.filter_eq_self.mpr (fun c hc => by rw [hbad c hc]; rfl)
  have hsplit : ∀ su2 : List Char,
      su2 = '/' :: '/' :: (netloc ++
        (path ++ (if query ≠ [] then '?' :: query else []))) →
      (if su2.take 2 = [ '/', '/' ] then split_netloc (su2.drop 2)
        else ([], su2)) = (netloc,
          path ++ (if query ≠ [] then '?' :: query else [])) := by
    intro su2 hsu
    subst hsu
    rw [if_pos (by simp [List.take])]
    rw [List.drop_succ_cons, List.drop_succ_cons, List.drop_zero]
    exact hsn
  unfold urlsplitL
  rw [hfilter]
  rcases hs with rfl | ⟨hne, halpha, hchars⟩
  · have hshape : urlunsplitL [] netloc path query [] =
        '/' :: '/' :: (netloc ++
          (path ++ (if query ≠ [] then '?' :: query else []))) := by
      rw [hqcases]
      simp
    rw [hshape]
    dsimp only
    cases hcol : ('/' :: '/' :: (netloc ++
        (path ++ (if query ≠ [] then '?' :: query else [])))).findIdx?
          (· == ':') with
    | none =>
      dsimp only
      simp only [List.filter_nil]
      rw [hsplit _ rfl]
      dsimp only
      rw [hsf]
      dsimp only
      rw [hsq]
      rfl
    | some i =>
      dsimp only
      rw [schemeOKb_false_head _ i (by rfl)]
      simp only [Bool.false_eq_true, if_false, List.filter_nil]
      rw [hsplit _ rfl]
      dsimp only
      rw [hsf]
      dsimp only
      rw [hsq]
      rfl
  · have hshape : urlunsplitL scheme netloc path query [] =
        scheme ++ ':' :: ('/' :: '/' :: (netloc ++
          (path ++ (if query ≠ [] then '?' :: query else [])))) := by
      rw [hqcases, if_pos hne]
    rw [hshape]
    dsimp only
    rw [findIdxQ_first _ scheme _ ':'
      (fun x hx => scheme_chars_ncolon x (hchars x hx)) (by simp)]
    dsimp only
    have hok : schemeOKb (scheme ++ ':' :: ('/' :: '/' :: (netloc ++
        (path ++ (if query ≠ [] then '?' :: query else [])))))
        scheme.length = true := by
      refine schemeOKb_true _ _ (List.length_pos.mpr hne) ?_ ?_
      · rw [headD_append_ne _ _ _ hne]
        exact halpha
      · rw [take_len_append]
        exact List.all_eq_true.mpr hchars
    rw [hok, if_pos rfl, take_len_append, drop_len_succ_append]
    dsimp only
    rw [hsplit _ rfl]
    dsimp only
    rw [hsf]
    dsimp only
    rw [hsq]

/-- Structure of urlsplit on an arbitrary input with the empty default
scheme: the scheme is empty or an accepted lower-cased scheme token, and
the remaining fields are the three splitting stages applied to the rest. -/
theorem urlsplit_struct (url : List Char) :
    ∃ sch rest : List Char,
      ((sch = [] ∧ rest = url.filter (fun c => !badByte c)) ∨
        (sch ≠ [] ∧ (sch.headD ' ').isAlpha = true ∧
          (∀ c ∈ sch, scheme_chars c = true) ∧ lowerL sch = sch ∧
          (∀ c ∈ rest, c ∈ url.filter (fun c => !badByte c)))) ∧
      urlsplitL url [] = ⟨sch,
        (if rest.take 2 = [ '/', '/' ] then split_netloc (rest.drop 2)
          else ([], rest)).1,
        (splitAtChar '?' (splitAtChar '#'
          (if rest.take 2 = [ '/', '/' ] then split_netloc (rest.drop 2)
            else ([], rest)).2).1).1,
        (splitAtChar '?' (splitAtChar '#'
          (if rest.take 2 = [ '/', '/' ] then split_netloc (rest.drop 2)
            else ([], rest)).2).1).2,
        (splitAtChar '#'
          (if rest.take 2 = [ '/', '/' ] then split_netloc (rest.drop 2)
            else ([], rest)).2).2⟩ := by
  unfold urlsplitL
  dsimp only
  cases hcol : (url.filter (fun c => !badByte c)).findIdx? (· == ':') with
  | none =>
    exact ⟨[], url.filter (fun c => !badByte c), Or.inl ⟨rfl, rfl⟩, rfl⟩
  | some i =>
    dsimp only
    cases hok : schemeOKb (url.filter (fun c => !badByte c)) i with
    | false =>
      exact ⟨[], url.filter (fun c => !badByte c), Or.inl ⟨rfl, rfl⟩, rfl⟩
    | true =>
      have hok2 := hok
      unfold schemeOKb at hok2
      simp only [Bool.and_eq_true, decide_eq_true_eq] at hok2
      obtain ⟨⟨h0, ha⟩, hall⟩ := hok2
      have hne : url.filter (fun c => !badByte c) ≠ [] := by
        intro h
        rw [h] at ha
        exact absurd ha (by decide)
      refine ⟨lowerL ((url.filter (fun c => !badByte c)).take i),
        (url.filter (fun c => !badByte c)).drop (i + 1),
        Or.inr ⟨?_, ?_, ?_, lowerL_idem _, ?_⟩, rfl⟩
      · intro h
        unfold lowerL at h
        rw [List.map_eq_nil_iff] at h
        rw [List.take_eq_nil_iff] at h
        rcases h with h | h
        · omega
        · exact hne h
      · obtain ⟨c, t, hurl⟩ : ∃ c t,
            url.filter (fun c => !badByte c) = c :: t := by
          cases hu : url.filter (fun c => !badByte c) with
          | nil => exact absurd hu hne
          | cons c t => exact ⟨c, t, rfl⟩
        obtain ⟨j, rfl⟩ : ∃ j, i = j + 1 := ⟨i - 1, by omega⟩
        rw [hurl, List.take_succ_cons]
        rw [hurl] at ha
        exact toLower_alpha c ha
      · intro x hx
        rcases List.mem_map.mp hx with ⟨y, hy, rfl⟩
        exact scheme_chars_toLower y
          (List.all_eq_true.mp hall y hy)
      · intro c hc
        exact (List.drop_sublist _ _).subset hc

theorem pq_facts (rem : List Char) :
    (∀ c ∈ (splitAtChar '?' (splitAtChar '#' rem).1).1,
      (c == '?') = false ∧ (c == '#') = false) ∧
    (∀ c ∈ (splitAtChar '?' (splitAtChar '#' rem).1).2,
      (c == '#') = false) ∧
    (∀ c ∈ (splitAtChar '?' (splitAtChar '#' rem).1).1, c ∈ rem) ∧
    (∀ c ∈ (splitAtChar '?' (splitAtChar '#' rem).1).2, c ∈ rem) := by
  refine ⟨?_, ?_, ?_, ?_⟩
  · intro c hc
    exact ⟨splitAtChar_fst_not '?' _ c hc,
      splitAtChar_fst_not '#' rem c (splitAtChar_fst_sub '?' _ c hc)⟩
  · intro c hc
    exact splitAtChar_fst_not '#' rem c (splitAtChar_snd_sub '?' _ c hc)
  · intro c hc
    exact splitAtChar_fst_sub '#' rem c (splitAtChar_fst_sub '?' _ c hc)
  · intro c hc
    exact splitAtChar_fst_sub '#' rem c (splitAtChar_snd_sub '?' _ c hc)

theorem pq_head (rem : List Char)
    (h : rem = [] ∨ (rem.headD ' ' == '/' || rem.headD ' ' == '?' ||
      rem.headD ' ' == '#') = true) :
    (splitAtChar '?' (splitAtChar '#' rem).1).1 = [] ∨
    (splitAtChar '?' (splitAtChar '#' rem).1).1.headD ' ' = '/' := by
  rcases h with rfl | hh
  · exact Or.inl rfl
  · cases rem with
    | nil => exact Or.inl rfl
    | cons d t =>
      have hd : (d == '/' || d == '?' || d == '#') = true := hh
      cases h3 : (d == '#') with
      | true =>
        rw [splitAtChar_cons_hit '#' d t h3]
        exact Or.inl rfl
      | false =>
        rw [splitAtChar_cons_miss '#' d t h3]
        dsimp only
        cases h2 : (d == '?') with
        | true =>
          rw [splitAtChar_cons_hit '?' d _ h2]
          exact Or.inl rfl
        | false =>
          rw [splitAtChar_cons_miss '?' d _ h2]
          right
          have hd2 : d = '/' := by
            rw [h2, h3] at hd
            simp at hd
            exact hd
          rw [hd2]
          rfl

/-- Field facts of the first parse: the netloc holds no delimiter, the
path no query or fragment delimiter, the query no fragment delimiter;
every field character survives the tab, CR and NL filter; and with a
nonempty netloc the path is empty or absolute. -/
theorem urlsplit_fields (url : List Char) :
    (∀ c ∈ (urlsplitL url []).netloc,
      (c == '/') = false ∧ (c == '?') = false ∧ (c == '#') = false) ∧
    (∀ c ∈ (urlsplitL url []).path,
      (c == '?') = false ∧ (c == '#') = false) ∧
    (∀ c ∈ (urlsplitL url []).query, (c == '#') = false) ∧
    (∀ c ∈ (urlsplitL url []).netloc, c ∈ url.filter (fun c => !badByte c)) ∧
    (∀ c ∈ (urlsplitL url []).path, c ∈ url.filter (fun c => !badByte c)) ∧
    (∀ c ∈ (urlsplitL url []).query, c ∈ url.filter (fun c => !badByte c)) ∧
    ((urlsplitL url []).netloc ≠ [] →
      (urlsplitL url []).path = [] ∨ (urlsplitL url []).path.headD ' ' = '/') := by
  obtain ⟨sch, rest, hsch, heq⟩ := urlsplit_struct url
  have hrest : ∀ c ∈ rest, c ∈ url.filter (fun c => !badByte c) := by
    rcases hsch with ⟨_, rfl⟩ | ⟨_, _, _, _, h⟩
    · exact fun c hc => hc
    · exact h
  rw [heq]
  try dsimp only
  by_cases hslash : rest.take 2 = [ '/', '/' ]
  · rw [if_pos hslash]
    try dsimp only
    have hsub2 : ∀ c ∈ (split_netloc (rest.drop 2)).2, c ∈ rest := by
      intro c hc
      exact (List.drop_sublist _ _).subset (split_netloc_snd_sub _ c hc)
    obtain ⟨hq1, hq2, hq3, hq4⟩ := pq_facts (split_netloc (rest.drop 2)).2
    refine ⟨?_, hq1, hq2, ?_, ?_, ?_, ?_⟩
    · intro c hc
      have h := split_netloc_fst_not _ c hc
      simp only [Bool.or_eq_false_iff] at h
      exact ⟨h.1.1, h.1.2, h.2⟩
    · intro c hc
      exact hrest c
        ((List.drop_sublist _ _).subset (split_netloc_fst_sub _ c hc))
    · intro c hc
      exact hrest c (hsub2 c (hq3 c hc))
    · intro c hc
      exact hrest c (hsub2 c (hq4 c hc))
    · intro _
      exact pq_head _ (split_netloc_snd_shape (rest.drop 2))
  · rw [if_neg hslash]
    try dsimp only
    obtain ⟨hq1, hq2, hq3, hq4⟩ := pq_facts rest
    refine ⟨?_, hq1, hq2, ?_, ?_, ?_, ?_⟩
    · intro c hc
      cases hc
    · intro c hc
      cases hc
    · intro c hc
      exact hrest c (hq3 c hc)
    · intro c hc
      exact hrest c (hq4 c hc)
    · intro h
      exact absurd rfl h

theorem dropWhile_dropWhile (p : Char → Bool) (l : List Char) :
    (l.dropWhile p).dropWhile p = l.dropWhile p := by
  induction l with
  | nil => rfl
  | cons a t ih =>
    cases pa : p a with
    | true => simp [List.dropWhile_cons, pa, ih]
    | false => simp [List.dropWhile_cons, pa]

theorem rstripSlash_idem (l : List Char) :
    rstripSlash (rstripSlash l) = rstripSlash l := by
  unfold rstripSlash
  rw [List.reverse_reverse, dropWhile_dropWhile]

theorem rstripSlash_append (l : List Char) :
    ∃ t, l = rstripSlash l ++ t := by
  refine ⟨(l.reverse.takeWhile (· == '/')).reverse, ?_⟩
  unfold rstripSlash
  conv_lhs => rw [← List.reverse_reverse l,
    ← List.takeWhile_append_dropWhile (p := (· == '/')) (l := l.reverse)]
  rw [List.reverse_append]

theorem rstripSlash_head (l : List Char) (hh : l.headD ' ' = '/') :
    rstripSlash l = [] ∨ (rstripSlash l).headD ' ' = '/' := by
  obtain ⟨t, ht⟩ := rstripSlash_append l
  cases hr : rstripSlash l with
  | nil => exact Or.inl rfl
  | cons a s =>
    right
    rw [hr] at ht
    rw [ht] at hh
    simp only [List.cons_append, List.headD_cons] at hh ⊢
    exact hh

theorem rstripSlash_sub (l : List Char) : ∀ x ∈ rstripSlash l, x ∈ l := by
  obtain ⟨t, ht⟩ := rstripSlash_append l
  intro x hx
  rw [ht]
  exact List.mem_append_left _ hx

theorem scheme_chars_good (c : Char) (h : scheme_chars c = true) :
    badByte c = false := by
  cases hb : badByte c with
  | false => rfl
  | true =>
    exfalso
    unfold badByte at hb
    simp only [Bool.or_eq_true] at hb
    rcases hb with (hb | hb) | hb <;>
      (rw [eq_of_beq hb] at h; exact absurd h (by decide))

/-- urlparse on a path without a semicolon: no params split. -/
theorem urlparse_no_semi (u : List Char)
    (h : ∀ c ∈ (urlsplitL u []).path, (c == ';') = false) :
    urlparseL u [] = ⟨(urlsplitL u []).scheme, (urlsplitL u []).netloc,
      (urlsplitL u []).path, [], (urlsplitL u []).query,
      (urlsplitL u []).fragment⟩ := by
  unfold urlparseL
  have hc : (urlsplitL u []).path.contains ';' = false := by
    cases hcc : (urlsplitL u []).path.contains ';' with
    | false => rfl
    | true =>
      have hm : ';' ∈ (urlsplitL u []).path := List.elem_iff.mp hcc
      have h2 := h ';' hm
      simp at h2
  simp only [hc, Bool.false_eq_true, if_false]

set_option maxHeartbeats 1000000 in
/-- Every character of the reassembled URL comes from one of its
components or is one of the three inserted separators. -/
theorem urlunsplit_mem (scheme netloc path query : List Char) :
    ∀ c ∈ urlunsplitL scheme netloc path query [],
      c ∈ scheme ∨ c ∈ netloc ∨ c ∈ path ∨ c ∈ query ∨
        c = '/' ∨ c = ':' ∨ c = '?' := by
  intro c hc
  unfold urlunsplitL at hc
  dsimp only at hc
  rw [if_neg (by simp)] at hc
  split_ifs at hc <;>
    (try simp only [List.mem_append, List.mem_cons, List.not_mem_nil,
      or_false] at hc) <;>
    tauto

theorem lowerL_ne_nil (l : List Char) (h : l ≠ []) : lowerL l ≠ [] := by
  unfold lowerL
  simp [List.map_eq_nil_iff, h]

set_option maxHeartbeats 1000000 in
/-- C9 (corrected): the URL normalizer is idempotent on every URL
without a semicolon whose parse carries a network location; a second
pass reparses the reassembled URL into the same components, and
lower-casing and slash-stripping are idempotent.  (Semicolons break
this: the params field urlparse splits off is re-exposed, see the
counterexample.) -/
theorem c9_normalize_idempotent (u : String) (hsemi : ';' ∉ u.data)
    (hnloc : (urlparseL u.data []).netloc ≠ []) :
    normalize_url (normalize_url u) = normalize_url u := by
  obtain ⟨hnetd, hpathd, hqueryd, hnetm, hpathm, hquerym, hshape⟩ :=
    urlsplit_fields u.data
  have hsemi2 : ∀ c ∈ (urlsplitL u.data []).path, (c == ';') = false := by
    intro c hc
    cases hb : (c == ';') with
    | false => rfl
    | true =>
      exfalso
      have hcu : c ∈ u.data := List.mem_of_mem_filter (hpathm c hc)
      rw [eq_of_beq hb] at hcu
      exact hsemi hcu
  have hparse := urlparse_no_semi u.data hsemi2
  have hnet2 : (urlsplitL u.data []).netloc ≠ [] := by
    rw [hparse] at hnloc
    exact hnloc
  have hpath1 : (if (urlsplitL u.data []).path ≠ [ '/' ] then
      rstripSlash (urlsplitL u.data []).path else [ '/' ]) = [] ∨
      (if (urlsplitL u.data []).path ≠ [ '/' ] then
        rstripSlash (urlsplitL u.data []).path else [ '/' ]).headD ' ' =
          '/' := by
    by_cases hp : (urlsplitL u.data []).path ≠ [ '/' ]
    · rw [if_pos hp]
      rcases hshape hnet2 with he | hh
      · rw [he]
        exact Or.inl rfl
      · exact rstripSlash_head _ hh
    · rw [if_neg hp]
      exact Or.inr rfl
  have hpmem : ∀ c ∈ (if (urlsplitL u.data []).path ≠ [ '/' ] then
      rstripSlash (urlsplitL u.data []).path else [ '/' ]),
      c ∈ (urlsplitL u.data []).path ∨ c = '/' := by
    intro c hc
    split_ifs at hc
    · exact Or.inl (rstripSlash_sub _ c hc)
    · rcases List.mem_cons.mp hc with rfl | h
      · exact Or.inr rfl
      · cases h
  obtain ⟨sch, rest, hsch, heq⟩ := urlsplit_struct u.data
  have hschemeEq : (urlsplitL u.data []).scheme = sch := by rw [heq]
  have hschfacts : sch = [] ∨ (sch ≠ [] ∧ (sch.headD ' ').isAlpha = true ∧
      (∀ c ∈ sch, scheme_chars c = true)) := by
    rcases hsch with ⟨h1, _⟩ | ⟨h1, h2, h3, _, _⟩
    · exact Or.inl h1
    · exact Or.inr ⟨h1, h2, h3⟩
  have hschlower : lowerL sch = sch := by
    rcases hsch with ⟨h1, _⟩ | ⟨_, _, _, h4, _⟩
    · rw [h1]
      rfl
    · exact h4
  have hschgood : ∀ c ∈ sch, badByte c = false := by
    rcases hschfacts with rfl | ⟨_, _, h3⟩
    · intro c hc
      cases hc
    · intro c hc
      exact scheme_chars_good c (h3 c hc)
  have hlnetd : ∀ c ∈ lowerL (urlsplitL u.data []).netloc,
      (c == '/') = false ∧ (c == '?') = false ∧ (c == '#') = false := by
    intro c hc
    rcases List.mem_map.mp hc with ⟨y, hy, rfl⟩
    obtain ⟨hy1, hy2, hy3⟩ := hnetd y hy
    exact ⟨beq_false_of_ne
        (toLower_ne y '/' (beq_eq_false_iff_ne.mp hy1) (by decide)),
      beq_false_of_ne
        (toLower_ne y '?' (beq_eq_false_iff_ne.mp hy2) (by decide)),
      beq_false_of_ne
        (toLower_ne y '#' (beq_eq_false_iff_ne.mp hy3) (by decide))⟩
  have hpathd2 : ∀ c ∈ (if (urlsplitL u.data []).path ≠ [ '/' ] then
      rstripSlash (urlsplitL u.data []).path else [ '/' ]),
      (c == '?') = false ∧ (c == '#') = false := by
    intro c hc
    rcases hpmem c hc with h | rfl
    · exact hpathd c h
    · exact ⟨by decide, by decide⟩
  have hgood1 : ∀ c ∈ u.data.filter (fun c => !badByte c),
      badByte c = false := by
    intro c hc
    simpa using List.of_mem_filter hc
  have hbad : ∀ c ∈ urlunsplitL sch (lowerL (urlsplitL u.data []).netloc)
      (if (urlsplitL u.data []).path ≠ [ '/' ] then
        rstripSlash (urlsplitL u.data []).path else [ '/' ])
      (urlsplitL u.data []).query [], badByte c = false := by
    intro c hc
    rcases urlunsplit_mem _ _ _ _ c hc with h | h | h | h | rfl | rfl | rfl
    · exact hschgood c h
    · rcases List.mem_map.mp h with ⟨y, hy, rfl⟩
      exact badByte_toLower y (hgood1 y (hnetm y hy))
    · rcases hpmem c h with h2 | rfl
      · exact hgood1 c (hpathm c h2)
      · decide
    · exact hgood1 c (hquerym c h)
    · decide
    · decide
    · decide
  have hnu : normalize_url u = String.mk (urlunsplitL sch
      (lowerL (urlsplitL u.data []).netloc)
      (if (urlsplitL u.data []).path ≠ [ '/' ] then
        rstripSlash (urlsplitL u.data []).path else [ '/' ])
      (urlsplitL u.data []).query []) := by
    unfold normalize_url urlunparseL
    rw [hparse]
    dsimp only
    rw [if_neg (by simp), hschemeEq]
  have hsplit2 := urlsplit_reassemble sch
    (lowerL (urlsplitL u.data []).netloc)
    (if (urlsplitL u.data []).path ≠ [ '/' ] then
      rstripSlash (urlsplitL u.data []).path else [ '/' ])
    (urlsplitL u.data []).query hschfacts (lowerL_ne_nil _ hnet2)
    hlnetd hpath1 hpathd2 hqueryd hbad
  have hsemi3 : ∀ c ∈ (urlsplitL (urlunsplitL sch
      (lowerL (urlsplitL u.data []).netloc)
      (if (urlsplitL u.data []).path ≠ [ '/' ] then
        rstripSlash (urlsplitL u.data []).path else [ '/' ])
      (urlsplitL u.data []).query []) []).path, (c == ';') = false := by
    rw [hsplit2]
    intro c hc
    rcases hpmem c hc with h | rfl
    · exact hsemi2 c h
    · decide
  have hparse2 := urlparse_no_semi (urlunsplitL sch
    (lowerL (urlsplitL u.data []).netloc)
    (if (urlsplitL u.data []).path ≠ [ '/' ] then
      rstripSlash (urlsplitL u.data []).path else [ '/' ])
    (urlsplitL u.data []).query []) hsemi3
  have hpp : (if (if (urlsplitL u.data []).path ≠ [ '/' ] then
      rstripSlash (urlsplitL u.data []).path else [ '/' ]) ≠ [ '/' ] then
      rstripSlash (if (urlsplitL u.data []).path ≠ [ '/' ] then
        rstripSlash (urlsplitL u.data []).path else [ '/' ])
      else [ '/' ]) =
      (if (urlsplitL u.data []).path ≠ [ '/' ] then
        rstripSlash (urlsplitL u.data []).path else [ '/' ]) := by
    by_cases hp : (urlsplitL u.data []).path ≠ [ '/' ]
    · rw [if_pos hp]
      by_cases hp2 : rstripSlash (urlsplitL u.data []).path ≠ [ '/' ]
      · rw [if_pos hp2, rstripSlash_idem]
      · push_neg at hp2
        rw [if_neg (fun h => h hp2), hp2]
    · rw [if_neg hp, if_neg (by simp)]
  rw [hnu]
  unfold normalize_url
  rw [show (String.mk (urlunsplitL sch
      (lowerL (urlsplitL u.data []).netloc)
      (if (urlsplitL u.data []).path ≠ [ '/' ] then
        rstripSlash (urlsplitL u.data []).path else [ '/' ])
      (urlsplitL u.data []).query [])).data = urlunsplitL sch
      (lowerL (urlsplitL u.data []).netloc)
      (if (urlsplitL u.data []).path ≠ [ '/' ] then
        rstripSlash (urlsplitL u.data []).path else [ '/' ])
      (urlsplitL u.data []).query [] from rfl]
  rw [hparse2, hsplit2]
  dsimp only
  rw [hpp, hschlower, lowerL_idem]
  unfold urlunparseL
  rw [if_neg (by simp)]

/-- C9 counterexample: the normalizer is not idempotent on every URL.
On a URL whose last path segment holds a semicolon behind a trailing
slash, the first pass strips the slash, which exposes the semicolon as a
params delimiter to urlparse, and the second pass then drops the params
suffix: one more application changes the string again. -/
theorem c9_counterexample :
    normalize_url (normalize_url urlSemi) ≠ normalize_url urlSemi := by
  decide

/-- Witness for C9: a semicolon-free mixed-case URL with a host, where
one normalization pass (which lower-cases the host and strips the
trailing slash) is a fixed point of the normalizer. -/
theorem c9_witness :
    ';' ∉ urlCase.data ∧ (urlparseL urlCase.data []).netloc ≠ [] ∧
    normalize_url (normalize_url urlCase) = normalize_url urlCase :=
  ⟨by decide, by decide,
    c9_normalize_idempotent urlCase (by decide) (by decide)⟩

end Seo
